import Mathlib

set_option maxHeartbeats 1000000
set_option linter.unusedSectionVars false

/-!
Verification of the `ranklist` skip list (ranklist.go).

The Go heap is modelled as an arena: a list of nodes in which a `*Node`
pointer is an `Option Nat` index (`none` = nil) and index 0 holds the header
sentinel.  The `map[K]V` dictionary is an association list with map
semantics.  `randomLevel()` is modelled by passing the generated level
explicitly to `set`; reachable states quantify over all level choices in
`[1, MaxLevel]`.  The `sync.RWMutex` only serialises calls and has no effect
on the sequential semantics modelled here.  All Go `int` quantities (spans,
ranks, lengths, range bounds) are `Int`.  The `for` loops of the source are
modelled with explicit fuel (`arena.length` bounds every traversal); on
well-formed states the fuel is never exhausted.
-/

namespace RankListVerif

/-- Maximum number of levels in the skip list (`MaxLevel` in the source). -/
def MaxLevel : Nat := 12

/-- Key-value pair stored in the list (`Entry` in the source). -/
structure Entry (K V : Type) where
  key : K
  value : V
deriving DecidableEq, Repr

/-- Skip-list node: data, per-tier forward pointers (arena indices, `none` =
nil), per-tier spans, and the node's level (`Node` in the source). -/
structure Node (K V : Type) where
  data : Entry K V
  forward : List (Option Nat)
  span : List Int
  level : Nat
deriving DecidableEq, Repr

/-- The skip-list state (`RankList` in the source): arena of nodes (index 0 is
the header), the lookup dictionary, the current level and the element count. -/
structure RankList (K V : Type) where
  arena : List (Node K V)
  dict : List (K × V)
  level : Nat
  length : Int
deriving DecidableEq, Repr

variable {K V : Type} [LinearOrder K] [LinearOrder V] [Inhabited K] [Inhabited V]

/-- `ZeroValue` in the source. -/
def ZeroValue (K : Type) [Inhabited K] : K := default

/-- `NewNode` in the source: fresh node with nil forward pointers and zero
spans (Go zero-initialises the fixed-size arrays). -/
def NewNode (key : K) (value : V) (level : Nat) : Node K V :=
  { data := ⟨key, value⟩
    forward := List.replicate MaxLevel none
    span := List.replicate MaxLevel 0
    level := level }

/-- `New` in the source. -/
def RankList.new (K V : Type) [LinearOrder K] [LinearOrder V]
    [Inhabited K] [Inhabited V] : RankList K V :=
  { arena := [NewNode (ZeroValue K) (ZeroValue V) MaxLevel]
    dict := []
    level := 1
    length := 0 }

/-- Map read `v, ok := dict[k]`. -/
def dictGet (d : List (K × V)) (k : K) : Option V :=
  (d.find? (fun e => decide (e.1 = k))).map (·.2)

/-- Map delete `delete(dict, k)`. -/
def dictDel (d : List (K × V)) (k : K) : List (K × V) :=
  d.filter (fun e => decide (¬ (e.1 = k)))

/-- Map write `dict[k] = v`. -/
def dictSet (d : List (K × V)) (k : K) (v : V) : List (K × V) :=
  (k, v) :: dictDel d k

/-- Junk node returned when dereferencing an invalid index; never reached on
well-formed states. -/
def junkNode (K V : Type) [Inhabited K] [Inhabited V] : Node K V :=
  NewNode default default 0

/-- Dereference an arena index. -/
def nodeA (arena : List (Node K V)) (ix : Nat) : Node K V :=
  arena.getD ix (junkNode K V)

/-- Write through an arena index (update the pointed-to node in place). -/
def updA (arena : List (Node K V)) (ix : Nat) (f : Node K V → Node K V) :
    List (Node K V) :=
  arena.set ix (f (nodeA arena ix))

/-- Read `node.forward[i]`. -/
def fwdA (arena : List (Node K V)) (ix i : Nat) : Option Nat :=
  (nodeA arena ix).forward.getD i none

/-- Read `node.span[i]`. -/
def spanA (arena : List (Node K V)) (ix i : Nat) : Int :=
  (nodeA arena ix).span.getD i 0

/-- Dereference an arena index of a state. -/
def RankList.node (s : RankList K V) (ix : Nat) : Node K V :=
  nodeA s.arena ix

/-- Inner search loop of `Set` at tier `i` (ranklist.go:156-164): advance
while the next node's (value, key) is not greater than the target,
accumulating spans into `sum`. -/
def setSearchLevel (arena : List (Node K V)) (key : K) (value : V) (i : Nat) :
    Nat → Nat → Int → Nat × Int
  | 0, curr, sum => (curr, sum)
  | fuel + 1, curr, sum =>
    match fwdA arena curr i with
    | none => (curr, sum)
    | some nxt =>
      if value < (nodeA arena nxt).data.value ∨
          ((nodeA arena nxt).data.value = value ∧ key < (nodeA arena nxt).data.key) then
        (curr, sum)
      else
        setSearchLevel arena key value i fuel nxt (sum + spanA arena nxt i)

/-- Outer search loop of `Set` (ranklist.go:155-168), tiers `i` down to 0.
Element `j` of the result is `(prev[j], rank[j])`. -/
def setSearchDown (arena : List (Node K V)) (key : K) (value : V) :
    Nat → Nat → Int → List (Nat × Int)
  | 0, curr, sum => [setSearchLevel arena key value 0 arena.length curr sum]
  | i + 1, curr, sum =>
    let r := setSearchLevel arena key value (i + 1) arena.length curr sum
    setSearchDown arena key value i r.1 r.2 ++ [r]

/-- One iteration of the splice loop of `Set` (ranklist.go:174-186) at tier
`i`: link the new node in after `prev[i]`, set its span, and re-cut the span
of the node downstream of it. -/
def spliceStep (pr : List (Nat × Int)) (newIdx : Nat)
    (arena : List (Node K V)) (i : Nat) : List (Node K V) :=
  let prevI := (pr.getD i (0, 0)).1
  let fwd := fwdA arena prevI i
  let a1 := updA arena newIdx (fun nd => { nd with forward := nd.forward.set i fwd })
  let a2 := updA a1 prevI (fun nd => { nd with forward := nd.forward.set i (some newIdx) })
  if i = 0 then
    updA a2 newIdx (fun nd => { nd with span := nd.span.set i 1 })
  else
    let sp := (pr.getD 0 (0, 0)).2 - (pr.getD i (0, 0)).2 + 1
    let a3 := updA a2 newIdx (fun nd => { nd with span := nd.span.set i sp })
    match fwd with
    | none => a3
    | some f =>
      updA a3 f (fun nd => { nd with span := nd.span.set i (nd.span.getD i 0 - sp + 1) })

/-- One iteration of the span-bump loop of `Set` (ranklist.go:190-194) for a
tier above the new node's level: the node downstream of `prev[i]` now
subsumes one more tier-0 node. -/
def bumpStep (pr : List (Nat × Int)) (arena : List (Node K V)) (i : Nat) :
    List (Node K V) :=
  let prevI := (pr.getD i (0, 0)).1
  match fwdA arena prevI i with
  | none => arena
  | some f =>
    updA arena f (fun nd => { nd with span := nd.span.set i (nd.span.getD i 0 + 1) })

/-- The insertion part of `Set` (ranklist.go:132-195), after any existing node
for the key has been removed; `lvl` is the value produced by `randomLevel()`.
(The Go code also pre-seeds `prev[i] = header` for newly raised tiers, but
the search loop, which starts at the raised level, overwrites those
entries.) -/
def RankList.insertNode (s : RankList K V) (key : K) (value : V) (lvl : Nat) :
    RankList K V :=
  let slevel := max s.level lvl
  let pr := setSearchDown s.arena key value (slevel - 1) 0 0
  let newIdx := s.arena.length
  let ar2 := s.arena ++ [NewNode key value lvl]
  let ar3 := (List.range lvl).foldl (spliceStep pr newIdx) ar2
  let ar4 := (List.range' lvl (slevel - lvl)).foldl (bumpStep pr) ar3
  { arena := ar4
    dict := dictSet s.dict key value
    level := slevel
    length := s.length + 1 }

/-- Inner search loop of `del` at tier `i` (ranklist.go:234-238): advance
while the next node's (value, key) is strictly less than the target's. -/
def delSearchLevel (arena : List (Node K V)) (key : K) (value : V) (i : Nat) :
    Nat → Nat → Nat
  | 0, curr => curr
  | fuel + 1, curr =>
    match fwdA arena curr i with
    | none => curr
    | some nxt =>
      if (nodeA arena nxt).data.value < value ∨
          ((nodeA arena nxt).data.value = value ∧ (nodeA arena nxt).data.key < key) then
        delSearchLevel arena key value i fuel nxt
      else curr

/-- Outer search loop of `del` (ranklist.go:233-240); element `j` of the
result is `prev[j]`. -/
def delSearchDown (arena : List (Node K V)) (key : K) (value : V) :
    Nat → Nat → List Nat
  | 0, curr => [delSearchLevel arena key value 0 arena.length curr]
  | i + 1, curr =>
    let c := delSearchLevel arena key value (i + 1) arena.length curr
    delSearchDown arena key value i c ++ [c]

/-- One iteration of the unlink loop of `del` (ranklist.go:244-261) at tier
`i`: if the node after `prev[i]` is the target, unlink it and fold its span
into the node after it; otherwise decrement that node's span. -/
def delStep (prevs : List Nat) (key : K) (value : V)
    (arena : List (Node K V)) (i : Nat) : List (Node K V) :=
  let p := prevs.getD i 0
  match fwdA arena p i with
  | none => arena
  | some c =>
    if (nodeA arena c).data.key = key ∧ (nodeA arena c).data.value = value then
      let cf := fwdA arena c i
      let csp := spanA arena c i
      let a1 := updA arena p (fun nd => { nd with forward := nd.forward.set i cf })
      match cf with
      | none => a1
      | some f =>
        updA a1 f (fun nd => { nd with span := nd.span.set i (nd.span.getD i 0 + (csp - 1)) })
    else
      updA arena c (fun nd => { nd with span := nd.span.set i (nd.span.getD i 0 - 1) })

/-- The level-shrink loop of `del` (ranklist.go:265-267). -/
def shrinkLevel (hdr : Node K V) : Nat → Nat
  | 0 => 0
  | 1 => 1
  | l + 2 =>
    if hdr.forward.getD (l + 1) none = none then shrinkLevel hdr (l + 1)
    else l + 2

/-- `del` (and hence `Del`, which only adds locking), ranklist.go:220-272. -/
def RankList.del (s : RankList K V) (key : K) : RankList K V × Bool :=
  match dictGet s.dict key with
  | none => (s, false)
  | some value =>
    let prevs := delSearchDown s.arena key value (s.level - 1) 0
    let ar := (List.range s.level).foldl (delStep prevs key value) s.arena
    ({ arena := ar
       dict := dictDel s.dict key
       level := shrinkLevel (nodeA ar 0) s.level
       length := s.length - 1 }, true)

/-- `Set` (ranklist.go:122-196): delete the key if present, then insert. -/
def RankList.set (s : RankList K V) (key : K) (value : V) (lvl : Nat) :
    RankList K V :=
  let s0 := if (dictGet s.dict key).isSome then (s.del key).1 else s
  s0.insertNode key value lvl

/-- `Get` (ranklist.go:278-286). -/
def RankList.get (s : RankList K V) (key : K) : V × Bool :=
  match dictGet s.dict key with
  | none => (ZeroValue V, false)
  | some v => (v, true)

/-- Inner loop of `Rank` at tier `i` (ranklist.go:307-321).  `Sum.inr r`
models the early `return rank, true`; `Sum.inl (curr, rank)` means the loop
ended by `break` or nil and the outer loop continues one tier down. -/
def rankLevel (arena : List (Node K V)) (key : K) (value : V) (i : Nat) :
    Nat → Nat → Int → (Nat × Int) ⊕ Int
  | 0, curr, rank => Sum.inl (curr, rank)
  | fuel + 1, curr, rank =>
    match fwdA arena curr i with
    | none => Sum.inl (curr, rank)
    | some nxt =>
      if (nodeA arena nxt).data.value = value ∧ (nodeA arena nxt).data.key = key then
        Sum.inr (rank + spanA arena nxt i)
      else if value < (nodeA arena nxt).data.value ∨
          ((nodeA arena nxt).data.value = value ∧ key < (nodeA arena nxt).data.key) then
        Sum.inl (curr, rank)
      else
        rankLevel arena key value i fuel nxt (rank + spanA arena nxt i)

/-- Outer loop of `Rank` (ranklist.go:306-322), with the early return
propagated. -/
def rankDown (arena : List (Node K V)) (key : K) (value : V) :
    Nat → Nat → Int → Option Int
  | 0, curr, rank =>
    match rankLevel arena key value 0 arena.length curr rank with
    | Sum.inr r => some r
    | Sum.inl _ => none
  | i + 1, curr, rank =>
    match rankLevel arena key value (i + 1) arena.length curr rank with
    | Sum.inr r => some r
    | Sum.inl (c, rk) => rankDown arena key value i c rk

/-- `Rank` (ranklist.go:292-324). -/
def RankList.rank (s : RankList K V) (key : K) : Int × Bool :=
  match dictGet s.dict key with
  | none => (0, false)
  | some value =>
    match rankDown s.arena key value (s.level - 1) 0 0 with
    | some r => (r, true)
    | none => (0, false)

/-- Inner descent loop of `Range` at tier `i` (ranklist.go:339-346): advance
while the projected rank after following the link is still below `start`. -/
def rangeLevel (arena : List (Node K V)) (start : Int) (i : Nat) :
    Nat → Nat → Int → Nat × Int
  | 0, curr, rank => (curr, rank)
  | fuel + 1, curr, rank =>
    match fwdA arena curr i with
    | none => (curr, rank)
    | some nxt =>
      if start ≤ rank + spanA arena nxt i then (curr, rank)
      else rangeLevel arena start i fuel nxt (rank + spanA arena nxt i)

/-- Outer descent loop of `Range` (ranklist.go:338-347). -/
def rangeDown (arena : List (Node K V)) (start : Int) :
    Nat → Nat → Int → Nat × Int
  | 0, curr, rank => rangeLevel arena start 0 arena.length curr rank
  | i + 1, curr, rank =>
    let r := rangeLevel arena start (i + 1) arena.length curr rank
    rangeDown arena start i r.1 r.2

/-- Collection loop of `Range` (ranklist.go:350-354); `spt` is
`start + total`. -/
def rangeCollect (arena : List (Node K V)) (endv : Int) :
    Nat → Nat → Int → List (Entry K V)
  | 0, _, _ => []
  | fuel + 1, curr, spt =>
    match fwdA arena curr 0 with
    | none => []
    | some nxt =>
      if spt < endv then
        (nodeA arena nxt).data :: rangeCollect arena endv fuel nxt (spt + 1)
      else []

/-- `Range` (ranklist.go:330-356). -/
def RankList.range (s : RankList K V) (start endv : Int) : List (Entry K V) :=
  let r := rangeDown s.arena start (s.level - 1) 0 0
  rangeCollect s.arena endv s.arena.length r.1 start

/-- The tier-`i` forward chain, starting at the header: the list of arena
indices visited by following `forward[i]` links. -/
def chainFrom (arena : List (Node K V)) (i : Nat) : Nat → Nat → List Nat
  | 0, _ => []
  | fuel + 1, ix =>
    match fwdA arena ix i with
    | none => []
    | some nxt => nxt :: chainFrom arena i fuel nxt

/-- The tier-`i` forward chain of a state. -/
def RankList.chain (s : RankList K V) (i : Nat) : List Nat :=
  chainFrom s.arena i s.arena.length 0

/-- States reachable from `New` by `Set` and `Del`, with the random level
generator free to return anything in `[1, MaxLevel]`. -/
inductive Reachable : RankList K V → Prop where
  | base : Reachable (RankList.new K V)
  | step_set : ∀ {s : RankList K V} (k : K) (v : V) (lvl : Nat),
      Reachable s → 1 ≤ lvl → lvl ≤ MaxLevel → Reachable (s.set k v lvl)
  | step_del : ∀ {s : RankList K V} (k : K),
      Reachable s → Reachable (s.del k).1

/-! ### Pure layer: the (value, key) order, tier membership and successors

The proofs relate the arena to an abstract view: the list of live nodes in
rank order (the "spine").  `tstep` computes, on the abstract list of node
levels, the next tier-`i` participant after a position; `glast` computes the
greatest position below a bound satisfying a predicate.  Positions are
`Option Nat` with `none` denoting the header. -/

/-- Strict order on (key, value) pairs: value ascending, key ascending on
ties.  (The pair components are `(key, value)`; values compare first.) -/
def entLt (a b : K × V) : Prop :=
  a.2 < b.2 ∨ (a.2 = b.2 ∧ a.1 < b.1)

instance (a b : K × V) : Decidable (entLt a b) := by
  unfold entLt; infer_instance

theorem entLt_trans {a b c : K × V} (hab : entLt a b) (hbc : entLt b c) :
    entLt a c := by
  rcases hab with h | ⟨h1, h2⟩ <;> rcases hbc with h' | ⟨h1', h2'⟩
  · exact Or.inl (lt_trans h h')
  · exact Or.inl (h1' ▸ h)
  · exact Or.inl (h1 ▸ h')
  · exact Or.inr ⟨h1.trans h1', lt_trans h2 h2'⟩

theorem entLt_irrefl (a : K × V) : ¬ entLt a a := by
  rintro (h | ⟨h1, h2⟩)
  · exact lt_irrefl _ h
  · exact lt_irrefl _ h2

theorem entLt_asymm {a b : K × V} (h : entLt a b) : ¬ entLt b a := fun h' =>
  entLt_irrefl a (entLt_trans h h')

theorem entLt_trichotomy (a b : K × V) : entLt a b ∨ a = b ∨ entLt b a := by
  rcases lt_trichotomy a.2 b.2 with h | h | h
  · exact Or.inl (Or.inl h)
  · rcases lt_trichotomy a.1 b.1 with h' | h' | h'
    · exact Or.inl (Or.inr ⟨h, h'⟩)
    · exact Or.inr (Or.inl (Prod.ext h' h))
    · exact Or.inr (Or.inr (Or.inr ⟨h.symm, h'⟩))
  · exact Or.inr (Or.inr (Or.inl h))

/-- The rank of a position (`none` = header has rank 0, position `j` has rank
`j + 1`). -/
def rankO : Option Nat → Int
  | none => 0
  | some j => (j : Int) + 1

/-- First index strictly after a position. -/
def startO : Option Nat → Nat
  | none => 0
  | some j => j + 1

/-- Least index of `lvls` whose entry is greater than `i`. -/
def tfind (i : Nat) : List Nat → Option Nat
  | [] => none
  | l :: rest => if i < l then some 0 else (tfind i rest).map (· + 1)

theorem tfind_eq_some_iff {i : Nat} {L : List Nat} {m : Nat} :
    tfind i L = some m ↔
      m < L.length ∧ i < L.getD m 0 ∧ ∀ m' < m, ¬ i < L.getD m' 0 := by
  induction L generalizing m with
  | nil => simp [tfind]
  | cons l rest ih =>
    simp only [tfind]
    by_cases h : i < l
    · simp only [if_pos h]
      constructor
      · rintro h'
        injection h' with h'
        subst h'
        exact ⟨Nat.succ_pos _, by simpa using h, by omega⟩
      · rintro ⟨_, hm, hmin⟩
        cases m with
        | zero => rfl
        | succ m => exact absurd (by simpa using h) (hmin 0 (Nat.succ_pos _))
    · simp only [if_neg h]
      constructor
      · intro h'
        rcases Option.map_eq_some'.mp h' with ⟨m0, hm0, rfl⟩
        obtain ⟨h1, h2, h3⟩ := ih.mp hm0
        refine ⟨by simpa using h1, by simpa using h2, ?_⟩
        intro m' hm'
        cases m' with
        | zero => simpa using h
        | succ m' => simpa using h3 m' (by omega)
      · rintro ⟨h1, h2, h3⟩
        cases m with
        | zero => exact absurd (by simpa using h2) h
        | succ m =>
          have : tfind i rest = some m := by
            refine ih.mpr ⟨by simpa using h1, by simpa using h2, ?_⟩
            intro m' hm'
            simpa using h3 (m' + 1) (by omega)
          simp [this]

theorem tfind_eq_none_iff {i : Nat} {L : List Nat} :
    tfind i L = none ↔ ∀ m < L.length, ¬ i < L.getD m 0 := by
  induction L with
  | nil => simp [tfind]
  | cons l rest ih =>
    simp only [tfind]
    by_cases h : i < l
    · simp only [if_pos h]
      constructor
      · intro h'; cases h'
      · intro h'; exact absurd (by simpa using h) (h' 0 (Nat.succ_pos _))
    · simp only [if_neg h, Option.map_eq_none', ih]
      constructor
      · intro h' m hm
        cases m with
        | zero => simpa using h
        | succ m =>
          simpa using h' m (by simp only [List.length_cons] at hm; omega)
      · intro h' m hm
        simpa using h' (m + 1) (by simp only [List.length_cons]; omega)

/-- Next tier-`i` participant strictly after position `a` (indices of `lvls`
greater than `i` are the tier-`i` participants). -/
def tstep (lvls : List Nat) (i : Nat) (a : Option Nat) : Option Nat :=
  (tfind i (lvls.drop (startO a))).map (· + startO a)

theorem getD_drop (L : List Nat) (s m : Nat) :
    (L.drop s).getD m 0 = L.getD (s + m) 0 := by
  simp [List.getD_eq_getElem?_getD, List.getElem?_drop]

theorem tstep_eq_some_iff {L : List Nat} {i : Nat} {a : Option Nat}
    {b : Nat} :
    tstep L i a = some b ↔
      startO a ≤ b ∧ b < L.length ∧ i < L.getD b 0 ∧
        ∀ c, startO a ≤ c → c < b → ¬ i < L.getD c 0 := by
  unfold tstep
  constructor
  · intro h
    rcases Option.map_eq_some'.mp h with ⟨m, hm, rfl⟩
    obtain ⟨h1, h2, h3⟩ := tfind_eq_some_iff.mp hm
    rw [List.length_drop] at h1
    refine ⟨by omega, by omega, ?_, ?_⟩
    · have := getD_drop L (startO a) m
      rw [Nat.add_comm] at this
      exact this ▸ h2
    · intro c hc hcb
      have := h3 (c - startO a) (by omega)
      rw [getD_drop] at this
      have hca : startO a + (c - startO a) = c := by omega
      rw [hca] at this
      exact this
  · rintro ⟨h1, h2, h3, h4⟩
    have : tfind i (L.drop (startO a)) = some (b - startO a) := by
      refine tfind_eq_some_iff.mpr ⟨by rw [List.length_drop]; omega, ?_, ?_⟩
      · rw [getD_drop]
        have : startO a + (b - startO a) = b := by omega
        rw [this]; exact h3
      · intro m' hm'
        rw [getD_drop]
        exact h4 _ (by omega) (by omega)
    rw [this]
    simp only [Option.map_some']
    congr 1
    omega

theorem tstep_eq_none_iff {lvls : List Nat} {i : Nat} {a : Option Nat} :
    tstep lvls i a = none ↔
      ∀ c, startO a ≤ c → c < lvls.length → ¬ i < lvls.getD c 0 := by
  unfold tstep
  rw [Option.map_eq_none', tfind_eq_none_iff]
  constructor
  · intro h c hc hcl
    have := h (c - startO a) (by rw [List.length_drop]; omega)
    rw [getD_drop] at this
    have hca : startO a + (c - startO a) = c := by omega
    rwa [hca] at this
  · intro h m hm
    rw [List.length_drop] at hm
    rw [getD_drop]
    exact h _ (by omega) (by omega)

/-- Greatest `m < n` with `p m`. -/
def glast (p : Nat → Bool) : Nat → Option Nat
  | 0 => none
  | n + 1 => if p n then some n else glast p n

theorem glast_eq_some_iff {p : Nat → Bool} {n m : Nat} :
    glast p n = some m ↔ m < n ∧ p m ∧ ∀ m', m < m' → m' < n → ¬ p m' := by
  induction n with
  | zero => simp [glast]
  | succ n ih =>
    simp only [glast]
    by_cases h : p n
    · simp only [if_pos h]
      constructor
      · rintro h'
        injection h' with h'
        subst h'
        exact ⟨Nat.lt_succ_self _, h, by omega⟩
      · rintro ⟨h1, h2, h3⟩
        rcases Nat.lt_succ_iff_lt_or_eq.mp h1 with h1 | rfl
        · exact absurd h (h3 n h1 (Nat.lt_succ_self _))
        · rfl
    · simp only [if_neg h, ih]
      constructor
      · rintro ⟨h1, h2, h3⟩
        refine ⟨by omega, h2, ?_⟩
        intro m' hm' hm'n
        rcases Nat.lt_succ_iff_lt_or_eq.mp hm'n with h' | rfl
        · exact h3 m' hm' h'
        · exact h
      · rintro ⟨h1, h2, h3⟩
        have hmn : m ≠ n := by rintro rfl; exact h h2
        refine ⟨by omega, h2, fun m' hm' hm'n => h3 m' hm' (by omega)⟩

theorem glast_eq_none_iff {p : Nat → Bool} {n : Nat} :
    glast p n = none ↔ ∀ m < n, ¬ p m := by
  induction n with
  | zero => simp [glast]
  | succ n ih =>
    simp only [glast]
    by_cases h : p n
    · simp only [if_pos h]
      constructor
      · intro h'; cases h'
      · intro h'; exact absurd h (h' n (Nat.lt_succ_self _))
    · simp only [if_neg h, ih]
      constructor
      · intro h' m hm
        rcases Nat.lt_succ_iff_lt_or_eq.mp hm with hm | rfl
        · exact h' m hm
        · exact h
      · intro h' m hm
        exact h' m (by omega)

/-! ### The coupling invariant

`spine` lists the arena indices of the live nodes in rank order (rank `j + 1`
for position `j`).  `Inv s spine` says the arena, dictionary, level and
length of `s` are exactly the skip-list representation of that sequence. -/

/-- Arena index of position `j` of the spine. -/
def six (spine : List Nat) (j : Nat) : Nat := spine.getD j 0

/-- Arena index of an optional position (`none` = header = index 0). -/
def sixO (spine : List Nat) : Option Nat → Nat
  | none => 0
  | some j => six spine j

/-- Abstract entries (key, value) of the spine, in rank order. -/
def entsOf (arena : List (Node K V)) (spine : List Nat) : List (K × V) :=
  spine.map (fun ix => ((nodeA arena ix).data.key, (nodeA arena ix).data.value))

/-- Abstract node levels of the spine, in rank order. -/
def lvlsOf (arena : List (Node K V)) (spine : List Nat) : List Nat :=
  spine.map (fun ix => (nodeA arena ix).level)

/-- `a` is the header or a tier-`i` participant position. -/
def partO (lvls : List Nat) (i : Nat) : Option Nat → Prop
  | none => True
  | some j => j < lvls.length ∧ i < lvls.getD j 0

/-- Coupling invariant between a state and its spine. -/
structure Inv (s : RankList K V) (spine : List Nat) : Prop where
  arena_pos : 0 < s.arena.length
  spine_pos : ∀ j ∈ spine, 0 < j
  spine_lt : ∀ j ∈ spine, j < s.arena.length
  spine_nodup : spine.Nodup
  sorted : (entsOf s.arena spine).Pairwise entLt
  fwd_len : ∀ ix < s.arena.length, (s.node ix).forward.length = MaxLevel
  span_len : ∀ ix < s.arena.length, (s.node ix).span.length = MaxLevel
  lvl_pos : ∀ p ∈ lvlsOf s.arena spine, 0 < p
  lvl_le : ∀ p ∈ lvlsOf s.arena spine, p ≤ s.level
  level_pos : 1 ≤ s.level
  level_le : s.level ≤ MaxLevel
  level_tight : s.level = 1 ∨ s.level ∈ lvlsOf s.arena spine
  fwd_ok : ∀ i < MaxLevel, ∀ a, partO (lvlsOf s.arena spine) i a →
      fwdA s.arena (sixO spine a) i =
        Option.map (six spine) (tstep (lvlsOf s.arena spine) i a)
  span_ok : ∀ i < MaxLevel, ∀ a b, partO (lvlsOf s.arena spine) i a →
      tstep (lvlsOf s.arena spine) i a = some b →
      spanA s.arena (six spine b) i = ((b : Int) + 1) - rankO a
  dict_keys_nodup : (s.dict.map Prod.fst).Nodup
  ents_keys_nodup : ((entsOf s.arena spine).map Prod.fst).Nodup
  dict_ok : ∀ k, dictGet s.dict k = dictGet (entsOf s.arena spine) k
  length_ok : s.length = (spine.length : Int)

theorem Inv.ents_length {s : RankList K V} {spine : List Nat} :
    (entsOf s.arena spine).length = spine.length := by
  simp [entsOf]

theorem Inv.lvls_length {s : RankList K V} {spine : List Nat} :
    (lvlsOf s.arena spine).length = spine.length := by
  simp [lvlsOf]

theorem entsOf_getD {arena : List (Node K V)} {spine : List Nat} {j : Nat}
    (hj : j < spine.length) :
    (entsOf arena spine).getD j default =
      ((nodeA arena (six spine j)).data.key,
        (nodeA arena (six spine j)).data.value) := by
  simp only [entsOf, six, List.getD_eq_getElem?_getD, List.getElem?_map]
  rw [List.getElem?_eq_getElem hj]
  simp

theorem lvlsOf_getD {arena : List (Node K V)} {spine : List Nat} {j : Nat}
    (hj : j < spine.length) :
    (lvlsOf arena spine).getD j 0 = (nodeA arena (six spine j)).level := by
  simp only [lvlsOf, six, List.getD_eq_getElem?_getD, List.getElem?_map]
  rw [List.getElem?_eq_getElem hj]
  simp

theorem six_mem {spine : List Nat} {j : Nat} (hj : j < spine.length) :
    six spine j ∈ spine := by
  simp only [six, List.getD_eq_getElem?_getD]
  rw [List.getElem?_eq_getElem hj]
  exact List.getElem_mem hj

theorem Inv.six_pos {s : RankList K V} {spine : List Nat}
    (hinv : Inv s spine) {j : Nat} (hj : j < spine.length) :
    0 < six spine j :=
  hinv.spine_pos _ (six_mem hj)

theorem Inv.six_lt {s : RankList K V} {spine : List Nat}
    (hinv : Inv s spine) {j : Nat} (hj : j < spine.length) :
    six spine j < s.arena.length :=
  hinv.spine_lt _ (six_mem hj)

theorem Inv.six_inj {s : RankList K V} {spine : List Nat}
    (hinv : Inv s spine) {j j' : Nat} (hj : j < spine.length)
    (hj' : j' < spine.length) (h : six spine j = six spine j') : j = j' := by
  have h1 : spine[j] = six spine j := by
    simp [six, List.getD_eq_getElem?_getD, List.getElem?_eq_getElem hj]
  have h2 : spine[j'] = six spine j' := by
    simp [six, List.getD_eq_getElem?_getD, List.getElem?_eq_getElem hj']
  exact List.Nodup.getElem_inj_iff hinv.spine_nodup |>.mp (by rw [h1, h2, h])

/-- Entries are strictly increasing along the spine. -/
theorem Inv.ents_mono {s : RankList K V} {spine : List Nat}
    (hinv : Inv s spine) {j j' : Nat} (hj : j < j') (hj' : j' < spine.length) :
    entLt ((entsOf s.arena spine).getD j default)
      ((entsOf s.arena spine).getD j' default) := by
  have hlen : (entsOf s.arena spine).length = spine.length := Inv.ents_length
  have hp := List.pairwise_iff_getElem.mp hinv.sorted j j'
    (by omega) (by omega) hj
  have e1 : (entsOf s.arena spine).getD j default = (entsOf s.arena spine)[j] := by
    simp [List.getD_eq_getElem?_getD, List.getElem?_eq_getElem (by omega : j < (entsOf s.arena spine).length)]
  have e2 : (entsOf s.arena spine).getD j' default = (entsOf s.arena spine)[j'] := by
    simp [List.getD_eq_getElem?_getD, List.getElem?_eq_getElem (by omega : j' < (entsOf s.arena spine).length)]
  rw [e1, e2]
  exact hp

/-- The invariant holds for the empty list. -/
theorem inv_new : Inv (RankList.new K V) [] := by
  constructor
  case arena_pos => simp [RankList.new]
  case spine_pos => simp
  case spine_lt => simp
  case spine_nodup => simp
  case sorted => simp [entsOf]
  case fwd_len =>
    intro ix hix
    simp only [RankList.new, List.length_cons, List.length_nil] at hix
    interval_cases ix
    simp [RankList.node, nodeA, RankList.new, NewNode]
  case span_len =>
    intro ix hix
    simp only [RankList.new, List.length_cons, List.length_nil] at hix
    interval_cases ix
    simp [RankList.node, nodeA, RankList.new, NewNode]
  case lvl_pos => simp [lvlsOf]
  case lvl_le => simp [lvlsOf]
  case level_pos => simp [RankList.new]
  case level_le => simp [RankList.new, MaxLevel]
  case level_tight => simp [RankList.new]
  case fwd_ok =>
    intro i hi a ha
    cases a with
    | none =>
      have : tstep (lvlsOf (RankList.new K V).arena []) i none = none := by
        rw [tstep_eq_none_iff]
        intro c _ hc
        simp [lvlsOf] at hc
      rw [this]
      simp [fwdA, sixO, nodeA, RankList.new, NewNode, List.getD_eq_getElem?_getD,
        List.getElem?_replicate, hi]
    | some j => simp [partO, lvlsOf] at ha
  case span_ok =>
    intro i hi a b ha hb
    rw [tstep_eq_some_iff] at hb
    simp [lvlsOf] at hb
  case dict_keys_nodup => simp [RankList.new]
  case ents_keys_nodup => simp [entsOf]
  case dict_ok => intro k; simp [RankList.new, entsOf]
  case length_ok => simp [RankList.new]

/-! ### Characterisation of the search loops -/

theorem Inv.spine_len_lt {s : RankList K V} {spine : List Nat}
    (hinv : Inv s spine) : spine.length < s.arena.length := by
  classical
  have hsub : spine.toFinset ⊆ Finset.Ioo 0 s.arena.length := by
    intro x hx
    rw [List.mem_toFinset] at hx
    exact Finset.mem_Ioo.mpr ⟨hinv.spine_pos x hx, hinv.spine_lt x hx⟩
  have hcard := Finset.card_le_card hsub
  rw [List.toFinset_card_of_nodup hinv.spine_nodup, Nat.card_Ioo] at hcard
  have := hinv.arena_pos
  omega

theorem data_pair_at {s : RankList K V} {w : List Nat} {j : Nat}
    (hj : j < w.length) :
    ((nodeA s.arena (six w j)).data.key,
      (nodeA s.arena (six w j)).data.value) =
      (entsOf s.arena w).getD j default :=
  (entsOf_getD hj).symm

theorem cond_entLt_iff {key : K} {value : V} (e : K × V) :
    (value < e.2 ∨ (e.2 = value ∧ key < e.1)) ↔ entLt (key, value) e := by
  unfold entLt
  constructor
  · rintro (h | ⟨h1, h2⟩)
    · exact Or.inl h
    · exact Or.inr ⟨h1.symm, h2⟩
  · rintro (h | ⟨h1, h2⟩)
    · exact Or.inl h
    · exact Or.inr ⟨h1.symm, h2⟩

/-- The predicate of which `Set`'s per-tier search result is the greatest
satisfying position: tier-`i` participant whose entry is at most the
target. -/
def setPred (L : List Nat) (E : List (K × V)) (key : K) (value : V)
    (i : Nat) (j : Nat) : Bool :=
  decide (i < L.getD j 0) && decide (¬ entLt (key, value) (E.getD j default))

/-- The position at which `Set`'s tier-`i` search stops. -/
def gset (L : List Nat) (E : List (K × V)) (key : K) (value : V)
    (i n : Nat) : Option Nat :=
  glast (setPred L E key value i) n

theorem setPred_iff {L : List Nat} {E : List (K × V)} {key : K} {value : V}
    {i j : Nat} :
    setPred L E key value i j = true ↔
      i < L.getD j 0 ∧ ¬ entLt (key, value) (E.getD j default) := by
  simp [setPred]

/-- Admissible starting positions for `Set`'s tier-`i` search. -/
def okA (L : List Nat) (E : List (K × V)) (key : K) (value : V) (i n : Nat) :
    Option Nat → Prop
  | none => True
  | some j => j < n ∧ i < L.getD j 0 ∧ ¬ entLt (key, value) (E.getD j default)

theorem setSearchLevel_spec {s : RankList K V} {spine : List Nat}
    (hinv : Inv s spine) (key : K) (value : V) {i : Nat} (hi : i < MaxLevel)
    (fuel : Nat) (a : Option Nat)
    (ha : okA (lvlsOf s.arena spine) (entsOf s.arena spine) key value i
      spine.length a)
    (hfuel : spine.length + 1 ≤ fuel + startO a) :
    setSearchLevel s.arena key value i fuel (sixO spine a) (rankO a) =
      (sixO spine (gset (lvlsOf s.arena spine) (entsOf s.arena spine) key
          value i spine.length),
        rankO (gset (lvlsOf s.arena spine) (entsOf s.arena spine) key
          value i spine.length)) := by
  set L := lvlsOf s.arena spine with hL
  set E := entsOf s.arena spine with hE
  set n := spine.length with hn
  have hLlen : L.length = n := Inv.lvls_length
  induction fuel generalizing a with
  | zero =>
    exfalso
    cases a with
    | none => simp [startO] at hfuel
    | some j =>
      obtain ⟨hjn, _, _⟩ := ha
      simp [startO] at hfuel
      omega
  | succ fuel ih =>
    have hpart : partO L i a := by
      cases a with
      | none => trivial
      | some j => exact ⟨by rw [hLlen]; exact ha.1, ha.2.1⟩
    have hread := hinv.fwd_ok i hi a hpart
    rw [setSearchLevel]
    rw [hread]
    cases htstep : tstep L i a with
    | none =>
      simp only [Option.map_none']
      have hnone : ∀ c, startO a ≤ c → c < n → ¬ i < L.getD c 0 := by
        have := tstep_eq_none_iff.mp htstep
        rwa [hLlen] at this
      have hg : gset L E key value i n = a := by
        cases a with
        | none =>
          rw [gset, glast_eq_none_iff]
          intro m hm hp
          exact hnone m (by simp [startO]) hm (setPred_iff.mp hp).1
        | some j =>
          rw [gset, glast_eq_some_iff]
          refine ⟨ha.1, setPred_iff.mpr ⟨ha.2.1, ha.2.2⟩, ?_⟩
          intro m' hm' hm'n hp
          exact hnone m' (by simp [startO]; omega) hm'n (setPred_iff.mp hp).1
      rw [hg]
    | some b =>
      have hb := tstep_eq_some_iff.mp htstep
      rw [hLlen] at hb
      obtain ⟨hab, hbn, hbl, hmin⟩ := hb
      simp only [Option.map_some']
      have hdata := data_pair_at (s := s) (w := spine) hbn
      rw [← hE] at hdata
      have hkey : (nodeA s.arena (six spine b)).data.key =
          (E.getD b default).1 := congrArg Prod.fst hdata
      have hval : (nodeA s.arena (six spine b)).data.value =
          (E.getD b default).2 := congrArg Prod.snd hdata
      by_cases hcmp : entLt (key, value) (E.getD b default)
      · have hcond : value < (nodeA s.arena (six spine b)).data.value ∨
            ((nodeA s.arena (six spine b)).data.value = value ∧
              key < (nodeA s.arena (six spine b)).data.key) := by
          rw [hkey, hval]
          exact (cond_entLt_iff _).mpr hcmp
        rw [if_pos hcond]
        have hg : gset L E key value i n = a := by
          have hnotPred : ∀ c, startO a ≤ c → c < n →
              ¬ setPred L E key value i c = true := by
            intro c hc hcn hp
            obtain ⟨hpl, hpe⟩ := setPred_iff.mp hp
            have hcb : b ≤ c := by
              by_contra hcb
              exact hmin c hc (by omega) hpl
            rcases Nat.eq_or_lt_of_le hcb with rfl | hlt
            · exact hpe hcmp
            · have hmono := hinv.ents_mono hlt hcn
              rw [← hE] at hmono
              exact hpe (entLt_trans hcmp hmono)
          cases a with
          | none =>
            rw [gset, glast_eq_none_iff]
            intro m hm hp
            exact hnotPred m (by simp [startO]) hm hp
          | some j =>
            rw [gset, glast_eq_some_iff]
            refine ⟨ha.1, setPred_iff.mpr ⟨ha.2.1, ha.2.2⟩, ?_⟩
            intro m' hm' hm'n hp
            exact hnotPred m' (by simp [startO]; omega) hm'n hp
        rw [hg]
      · have hcond : ¬ (value < (nodeA s.arena (six spine b)).data.value ∨
            ((nodeA s.arena (six spine b)).data.value = value ∧
              key < (nodeA s.arena (six spine b)).data.key)) := by
          rw [hkey, hval]
          exact fun h => hcmp ((cond_entLt_iff _).mp h)
        rw [if_neg hcond]
        have hspan := hinv.span_ok i hi a b hpart htstep
        have hsum : rankO a + spanA s.arena (six spine b) i =
            rankO (some b) := by
          rw [hspan, rankO]
          ring
        rw [hsum]
        exact ih (some b) (by show n + 1 ≤ fuel + (b + 1); omega)
          ⟨hbn, hbl, hcmp⟩

theorem setSearchDown_length (arena : List (Node K V)) (key : K) (value : V) :
    ∀ (i0 curr : Nat) (sum : Int),
      (setSearchDown arena key value i0 curr sum).length = i0 + 1 := by
  intro i0
  induction i0 with
  | zero => intro curr sum; simp [setSearchDown]
  | succ i0 ih =>
    intro curr sum
    simp only [setSearchDown, List.length_append, List.length_cons,
      List.length_nil, ih]

theorem gs_ok {L : List Nat} {E : List (K × V)} {key : K} {value : V}
    {i i' n : Nat} (hii' : i ≤ i') :
    okA L E key value i n (gset L E key value i' n) := by
  cases hg : gset L E key value i' n with
  | none => trivial
  | some j =>
    obtain ⟨hjn, hp, _⟩ := glast_eq_some_iff.mp hg
    obtain ⟨hl, he⟩ := setPred_iff.mp hp
    exact ⟨hjn, by omega, he⟩

theorem setSearchDown_spec {s : RankList K V} {spine : List Nat}
    (hinv : Inv s spine) (key : K) (value : V) :
    ∀ {i0 : Nat}, i0 < MaxLevel → ∀ (a : Option Nat),
      okA (lvlsOf s.arena spine) (entsOf s.arena spine) key value i0
        spine.length a →
      ∀ i ≤ i0,
        (setSearchDown s.arena key value i0 (sixO spine a) (rankO a)).getD
            i (0, 0) =
          (sixO spine (gset (lvlsOf s.arena spine) (entsOf s.arena spine)
              key value i spine.length),
            rankO (gset (lvlsOf s.arena spine) (entsOf s.arena spine)
              key value i spine.length)) := by
  intro i0
  induction i0 with
  | zero =>
    intro hi0 a ha i hi
    interval_cases i
    rw [setSearchDown]
    rw [setSearchLevel_spec hinv key value hi0 s.arena.length a ha
      (by have := hinv.spine_len_lt; omega)]
    simp
  | succ i0 ih =>
    intro hi0 a ha i hi
    rw [setSearchDown]
    have hr := setSearchLevel_spec hinv key value hi0 s.arena.length a ha
      (by have := hinv.spine_len_lt; omega)
    rw [hr]
    rcases Nat.lt_succ_iff_lt_or_eq.mp (Nat.lt_succ_of_le hi) with hlt | heq
    · rw [List.getD_eq_getElem?_getD, List.getElem?_append_left
        (by rw [setSearchDown_length]; omega)]
      rw [← List.getD_eq_getElem?_getD]
      exact ih (by omega) _ (gs_ok (by omega)) i (by omega)
    · subst heq
      rw [List.getD_eq_getElem?_getD,
        List.getElem?_append_right (by rw [setSearchDown_length])]
      rw [setSearchDown_length]
      simp

/-! ### Effect of the splice and bump loops on the arena -/

theorem getD_set_self {α : Type} {l : List α} {i : Nat} {a d : α}
    (h : i < l.length) : (l.set i a).getD i d = a := by
  simp [List.getD_eq_getElem?_getD, List.getElem?_set_self h]

theorem getD_set_ne {α : Type} {l : List α} {i j : Nat} {a d : α}
    (h : i ≠ j) : (l.set i a).getD j d = l.getD j d := by
  simp [List.getD_eq_getElem?_getD, List.getElem?_set_ne h]

theorem length_updA (arena : List (Node K V)) (ix : Nat)
    (f : Node K V → Node K V) : (updA arena ix f).length = arena.length :=
  List.length_set ..

theorem nodeA_updA_self {arena : List (Node K V)} {ix : Nat}
    {f : Node K V → Node K V} (h : ix < arena.length) :
    nodeA (updA arena ix f) ix = f (nodeA arena ix) := by
  simp [nodeA, updA, List.getD_eq_getElem?_getD, List.getElem?_set_self h]

theorem nodeA_updA_ne {arena : List (Node K V)} {ix ix' : Nat}
    {f : Node K V → Node K V} (h : ix ≠ ix') :
    nodeA (updA arena ix f) ix' = nodeA arena ix' := by
  simp [nodeA, updA, List.getD_eq_getElem?_getD, List.getElem?_set_ne h]

theorem nodeA_updA_out {arena : List (Node K V)} {ix : Nat}
    {f : Node K V → Node K V} (h : ¬ ix < arena.length) (ix' : Nat) :
    nodeA (updA arena ix f) ix' = nodeA arena ix' := by
  by_cases hij : ix = ix'
  · subst hij
    simp [nodeA, updA, List.getD_eq_getElem?_getD, List.getElem?_set, h,
      List.getElem?_eq_none (by omega : arena.length ≤ ix)]
  · simp [nodeA, updA, List.getD_eq_getElem?_getD, List.getElem?_set_ne hij]

/-- Value of `forward[i]` after the splice loop has processed tier `i`:
reads refer to the arena before the loop. -/
def spliceFwd (A0 : List (Node K V)) (pr : List (Nat × Int)) (newIdx ix i : Nat) :
    Option Nat :=
  let prevI := (pr.getD i (0, 0)).1
  if ix = newIdx then fwdA A0 prevI i
  else if ix = prevI then some newIdx
  else fwdA A0 ix i

/-- Value of `span[i]` after the splice loop has processed tier `i`. -/
def spliceSpan (A0 : List (Node K V)) (pr : List (Nat × Int)) (newIdx ix i : Nat) :
    Int :=
  let prevI := (pr.getD i (0, 0)).1
  let sp : Int := if i = 0 then 1 else (pr.getD 0 (0, 0)).2 - (pr.getD i (0, 0)).2 + 1
  if ix = newIdx then sp
  else if i ≠ 0 ∧ fwdA A0 prevI i = some ix then spanA A0 ix i - sp + 1
  else spanA A0 ix i

/-- Value of `span[i]` after the bump loop has processed tier `i`. -/
def bumpSpan (A0 : List (Node K V)) (pr : List (Nat × Int)) (ix i : Nat) : Int :=
  let prevI := (pr.getD i (0, 0)).1
  if fwdA A0 prevI i = some ix then spanA A0 ix i + 1 else spanA A0 ix i

/-- Two arenas with the same length and the same data, level and array
lengths at every node (only forward/span contents may differ). -/
def skelEq (a b : List (Node K V)) : Prop :=
  a.length = b.length ∧ ∀ ix,
    (nodeA a ix).data = (nodeA b ix).data ∧
    (nodeA a ix).level = (nodeA b ix).level ∧
    (nodeA a ix).forward.length = (nodeA b ix).forward.length ∧
    (nodeA a ix).span.length = (nodeA b ix).span.length

theorem skelEq_refl (a : List (Node K V)) : skelEq a a :=
  ⟨rfl, fun _ => ⟨rfl, rfl, rfl, rfl⟩⟩

theorem skelEq_trans {a b c : List (Node K V)} (h1 : skelEq a b)
    (h2 : skelEq b c) : skelEq a c := by
  refine ⟨h1.1.trans h2.1, fun ix => ?_⟩
  obtain ⟨d1, l1, f1, s1⟩ := h1.2 ix
  obtain ⟨d2, l2, f2, s2⟩ := h2.2 ix
  exact ⟨d1.trans d2, l1.trans l2, f1.trans f2, s1.trans s2⟩

theorem skelEq_updA {arena : List (Node K V)} {jx : Nat}
    {f : Node K V → Node K V}
    (hf : ∀ nd, (f nd).data = nd.data ∧ (f nd).level = nd.level ∧
      (f nd).forward.length = nd.forward.length ∧
      (f nd).span.length = nd.span.length) :
    skelEq (updA arena jx f) arena := by
  refine ⟨length_updA .., fun ix => ?_⟩
  by_cases hlt : jx < arena.length
  · by_cases hij : jx = ix
    · subst hij
      rw [nodeA_updA_self hlt]
      exact hf _
    · rw [nodeA_updA_ne hij]
      exact ⟨rfl, rfl, rfl, rfl⟩
  · rw [nodeA_updA_out hlt]
    exact ⟨rfl, rfl, rfl, rfl⟩

theorem skelEq_spliceStep (pr : List (Nat × Int)) (newIdx : Nat)
    (arena : List (Node K V)) (i : Nat) :
    skelEq (spliceStep pr newIdx arena i) arena := by
  unfold spliceStep
  dsimp only
  split
  · exact skelEq_trans (skelEq_updA (by simp))
      (skelEq_trans (skelEq_updA (by simp)) (skelEq_updA (by simp)))
  · split
    · exact skelEq_trans (skelEq_updA (by simp))
        (skelEq_trans (skelEq_updA (by simp)) (skelEq_updA (by simp)))
    · exact skelEq_trans (skelEq_updA (by simp))
        (skelEq_trans (skelEq_updA (by simp))
          (skelEq_trans (skelEq_updA (by simp)) (skelEq_updA (by simp))))

theorem skelEq_bumpStep (pr : List (Nat × Int)) (arena : List (Node K V))
    (i : Nat) : skelEq (bumpStep pr arena i) arena := by
  unfold bumpStep
  dsimp only
  split
  · exact skelEq_refl _
  · exact skelEq_updA (by simp)

theorem skelEq_delStep (prevs : List Nat) (key : K) (value : V)
    (arena : List (Node K V)) (i : Nat) :
    skelEq (delStep prevs key value arena i) arena := by
  unfold delStep
  dsimp only
  split
  · exact skelEq_refl _
  · split
    · split
      · exact skelEq_updA (by simp)
      · exact skelEq_trans (skelEq_updA (by simp)) (skelEq_updA (by simp))
    · exact skelEq_updA (by simp)

theorem fwdA_updA_pres {arena : List (Node K V)} {jx : Nat}
    {f : Node K V → Node K V} {i' : Nat}
    (hf : ∀ nd : Node K V, (f nd).forward.getD i' none = nd.forward.getD i' none)
    (ix : Nat) : fwdA (updA arena jx f) ix i' = fwdA arena ix i' := by
  unfold fwdA
  by_cases hlt : jx < arena.length
  · by_cases hij : jx = ix
    · subst hij
      rw [nodeA_updA_self hlt, hf]
    · rw [nodeA_updA_ne hij]
  · rw [nodeA_updA_out hlt]

theorem spanA_updA_pres {arena : List (Node K V)} {jx : Nat}
    {f : Node K V → Node K V} {i' : Nat}
    (hf : ∀ nd : Node K V, (f nd).span.getD i' 0 = nd.span.getD i' 0)
    (ix : Nat) : spanA (updA arena jx f) ix i' = spanA arena ix i' := by
  unfold spanA
  by_cases hlt : jx < arena.length
  · by_cases hij : jx = ix
    · subst hij
      rw [nodeA_updA_self hlt, hf]
    · rw [nodeA_updA_ne hij]
  · rw [nodeA_updA_out hlt]

theorem spliceStep_frame (pr : List (Nat × Int)) (newIdx : Nat)
    (arena : List (Node K V)) (i : Nat) {i' : Nat} (h : i' ≠ i) (ix : Nat) :
    fwdA (spliceStep pr newIdx arena i) ix i' = fwdA arena ix i' ∧
    spanA (spliceStep pr newIdx arena i) ix i' = spanA arena ix i' := by
  have ho : i ≠ i' := fun hh => h hh.symm
  unfold spliceStep
  dsimp only
  split
  · constructor
    · rw [fwdA_updA_pres (fun nd => by simp) ix,
        fwdA_updA_pres (fun nd => getD_set_ne ho),
        fwdA_updA_pres (fun nd => getD_set_ne ho)]
    · rw [spanA_updA_pres (fun nd => getD_set_ne ho) ix,
        spanA_updA_pres (fun nd => by simp),
        spanA_updA_pres (fun nd => by simp)]
  · split
    · constructor
      · rw [fwdA_updA_pres (fun nd => by simp) ix,
          fwdA_updA_pres (fun nd => getD_set_ne ho),
          fwdA_updA_pres (fun nd => getD_set_ne ho)]
      · rw [spanA_updA_pres (fun nd => getD_set_ne ho) ix,
          spanA_updA_pres (fun nd => by simp),
          spanA_updA_pres (fun nd => by simp)]
    · constructor
      · rw [fwdA_updA_pres (fun nd => by simp) ix,
          fwdA_updA_pres (fun nd => by simp),
          fwdA_updA_pres (fun nd => getD_set_ne ho),
          fwdA_updA_pres (fun nd => getD_set_ne ho)]
      · rw [spanA_updA_pres (fun nd => getD_set_ne ho) ix,
          spanA_updA_pres (fun nd => getD_set_ne ho),
          spanA_updA_pres (fun nd => by simp),
          spanA_updA_pres (fun nd => by simp)]

theorem bumpStep_fwd (pr : List (Nat × Int)) (arena : List (Node K V))
    (i : Nat) (i' : Nat) (ix : Nat) :
    fwdA (bumpStep pr arena i) ix i' = fwdA arena ix i' := by
  unfold bumpStep
  dsimp only
  split
  · rfl
  · rw [fwdA_updA_pres (fun nd => by simp) ix]

theorem bumpStep_frame (pr : List (Nat × Int)) (arena : List (Node K V))
    (i : Nat) {i' : Nat} (h : i' ≠ i) (ix : Nat) :
    spanA (bumpStep pr arena i) ix i' = spanA arena ix i' := by
  have ho : i ≠ i' := fun hh => h hh.symm
  unfold bumpStep
  dsimp only
  split
  · rfl
  · rw [spanA_updA_pres (fun nd => getD_set_ne ho) ix]

theorem delStep_frame (prevs : List Nat) (key : K) (value : V)
    (arena : List (Node K V)) (i : Nat) {i' : Nat} (h : i' ≠ i) (ix : Nat) :
    fwdA (delStep prevs key value arena i) ix i' = fwdA arena ix i' ∧
    spanA (delStep prevs key value arena i) ix i' = spanA arena ix i' := by
  have ho : i ≠ i' := fun hh => h hh.symm
  unfold delStep
  dsimp only
  split
  · exact ⟨rfl, rfl⟩
  · split
    · split
      · constructor
        · rw [fwdA_updA_pres (fun nd => getD_set_ne ho) ix]
        · rw [spanA_updA_pres (fun nd => by simp) ix]
      · constructor
        · rw [fwdA_updA_pres (fun nd => by simp) ix,
            fwdA_updA_pres (fun nd => getD_set_ne ho)]
        · rw [spanA_updA_pres (fun nd => getD_set_ne ho) ix,
            spanA_updA_pres (fun nd => by simp)]
    · constructor
      · rw [fwdA_updA_pres (fun nd => by simp) ix]
      · rw [spanA_updA_pres (fun nd => getD_set_ne ho) ix]

/-- Well-sized arena: every node's pointer/span arrays have length
`MaxLevel`. -/
def wfArr (arena : List (Node K V)) : Prop :=
  ∀ ix < arena.length, (nodeA arena ix).forward.length = MaxLevel ∧
    (nodeA arena ix).span.length = MaxLevel

theorem wfArr_of_skelEq {a b : List (Node K V)} (h : skelEq a b)
    (hb : wfArr b) : wfArr a := by
  intro ix hix
  obtain ⟨_, _, hf, hs⟩ := h.2 ix
  rw [hf, hs]
  exact hb ix (by rw [← h.1]; exact hix)

/-- Universal read rule for `forward` after a node update. -/
theorem fwdA_updA {arena : List (Node K V)} {jx : Nat}
    {f : Node K V → Node K V} (hjx : jx < arena.length) {ix i : Nat} :
    fwdA (updA arena jx f) ix i =
      if ix = jx then (f (nodeA arena jx)).forward.getD i none
      else fwdA arena ix i := by
  rcases Decidable.em (ix = jx) with h | h
  · subst h
    rw [if_pos rfl]
    unfold fwdA
    rw [nodeA_updA_self hjx]
  · rw [if_neg h]
    unfold fwdA
    rw [nodeA_updA_ne (fun hh => h hh.symm)]

/-- Universal read rule for `span` after a node update. -/
theorem spanA_updA {arena : List (Node K V)} {jx : Nat}
    {f : Node K V → Node K V} (hjx : jx < arena.length) {ix i : Nat} :
    spanA (updA arena jx f) ix i =
      if ix = jx then (f (nodeA arena jx)).span.getD i 0
      else spanA arena ix i := by
  rcases Decidable.em (ix = jx) with h | h
  · subst h
    rw [if_pos rfl]
    unfold spanA
    rw [nodeA_updA_self hjx]
  · rw [if_neg h]
    unfold spanA
    rw [nodeA_updA_ne (fun hh => h hh.symm)]

/-- A span-only update does not change forward pointers. -/
theorem fwdA_updA_spanw {arena : List (Node K V)} {jx : Nat}
    {w : Node K V → List Int} (ix i' : Nat) :
    fwdA (updA arena jx (fun nd => { nd with span := w nd })) ix i' =
      fwdA arena ix i' := by
  apply fwdA_updA_pres
  intro nd
  rfl

/-- A forward-only update does not change spans. -/
theorem spanA_updA_fwdw {arena : List (Node K V)} {jx : Nat}
    {w : Node K V → List (Option Nat)} (ix i' : Nat) :
    spanA (updA arena jx (fun nd => { nd with forward := w nd })) ix i' =
      spanA arena ix i' := by
  apply spanA_updA_pres
  intro nd
  rfl

theorem spliceStep_fwd_eff (pr : List (Nat × Int)) {newIdx : Nat}
    {arena : List (Node K V)} {i : Nat}
    (hwf : wfArr arena) (hi : i < MaxLevel)
    (hprev : (pr.getD i (0, 0)).1 < arena.length)
    (hnew : newIdx < arena.length)
    (hne : (pr.getD i (0, 0)).1 ≠ newIdx) (ix : Nat) :
    fwdA (spliceStep pr newIdx arena i) ix i =
      spliceFwd arena pr newIdx ix i := by
  have hlenP : i < (nodeA arena (pr.getD i (0, 0)).1).forward.length := by
    rw [(hwf _ hprev).1]; exact hi
  have hlenN : i < (nodeA arena newIdx).forward.length := by
    rw [(hwf _ hnew).1]; exact hi
  have core : ∀ ix', fwdA (updA (updA arena newIdx
      (fun nd => { nd with forward := nd.forward.set i (fwdA arena (pr.getD i (0, 0)).1 i) }))
      (pr.getD i (0, 0)).1
      (fun nd => { nd with forward := nd.forward.set i (some newIdx) })) ix' i
      = spliceFwd arena pr newIdx ix' i := by
    intro ix'
    rw [fwdA_updA (by rw [length_updA]; exact hprev)]
    unfold spliceFwd
    rcases Decidable.em (ix' = (pr.getD i (0, 0)).1) with h2 | h2
    · have hne2 : ¬ ix' = newIdx := by rw [h2]; exact hne
      simp only [if_pos h2, if_neg hne2,
        nodeA_updA_ne (fun hh => hne hh.symm)]
      exact getD_set_self hlenP
    · simp only [if_neg h2]
      rw [fwdA_updA hnew]
      rcases Decidable.em (ix' = newIdx) with h1 | h1
      · simp only [if_pos h1]
        exact getD_set_self hlenN
      · simp only [if_neg h1, if_neg h2]
  unfold spliceStep
  dsimp only
  split
  · rw [fwdA_updA_spanw ix i]
    exact core ix
  · split
    · rw [fwdA_updA_spanw ix i]
      exact core ix
    · rw [fwdA_updA_spanw ix i, fwdA_updA_spanw ix i]
      exact core ix

theorem spliceStep_span_eff (pr : List (Nat × Int)) {newIdx : Nat}
    {arena : List (Node K V)} {i : Nat}
    (hwf : wfArr arena) (hi : i < MaxLevel)
    (hprev : (pr.getD i (0, 0)).1 < arena.length)
    (hnew : newIdx < arena.length)
    (hne : (pr.getD i (0, 0)).1 ≠ newIdx)
    (hdown : ∀ f, fwdA arena (pr.getD i (0, 0)).1 i = some f →
      f < arena.length ∧ f ≠ newIdx) (ix : Nat) :
    spanA (spliceStep pr newIdx arena i) ix i =
      spliceSpan arena pr newIdx ix i := by
  have hskel2 : skelEq
      (updA (updA arena newIdx
          (fun nd => { nd with forward := nd.forward.set i (fwdA arena (pr.getD i (0, 0)).1 i) }))
        (pr.getD i (0, 0)).1
        (fun nd => { nd with forward := nd.forward.set i (some newIdx) })) arena :=
    skelEq_trans (skelEq_updA (by simp)) (skelEq_updA (by simp))
  have hwf2 := wfArr_of_skelEq hskel2 hwf
  have hlen2 := hskel2.1
  have hspan2 : ∀ jx i', spanA
      (updA (updA arena newIdx
          (fun nd => { nd with forward := nd.forward.set i (fwdA arena (pr.getD i (0, 0)).1 i) }))
        (pr.getD i (0, 0)).1
        (fun nd => { nd with forward := nd.forward.set i (some newIdx) })) jx i' =
      spanA arena jx i' := by
    intro jx i'
    rw [spanA_updA_fwdw jx i', spanA_updA_fwdw jx i']
  have hslen2 : i < (nodeA (updA (updA arena newIdx
      (fun nd => { nd with forward := nd.forward.set i (fwdA arena (pr.getD i (0, 0)).1 i) }))
      (pr.getD i (0, 0)).1
      (fun nd => { nd with forward := nd.forward.set i (some newIdx) })) newIdx).span.length := by
    rw [(hwf2 newIdx (by rw [hlen2]; exact hnew)).2]; exact hi
  unfold spliceStep spliceSpan
  dsimp only
  split
  · rename_i h0
    subst h0
    rw [spanA_updA (by rw [hlen2]; exact hnew)]
    rcases Decidable.em (ix = newIdx) with h1 | h1
    · simp only [if_pos h1]
      exact getD_set_self hslen2
    · simp only [if_neg h1]
      have h2 : ¬ ((0 : Nat) ≠ 0 ∧ fwdA arena (pr.getD 0 (0, 0)).1 0 = some ix) := by
        rintro ⟨hh, _⟩; exact hh rfl
      rw [if_neg h2]
      exact hspan2 ix 0
  · rename_i h0
    split
    · rename_i hfwd
      rw [spanA_updA (by rw [hlen2]; exact hnew)]
      rcases Decidable.em (ix = newIdx) with h1 | h1
      · simp only [if_pos h1]
        exact getD_set_self hslen2
      · simp only [if_neg h1]
        have h2 : ¬ (i ≠ 0 ∧ fwdA arena (pr.getD i (0, 0)).1 i = some ix) := by
          rintro ⟨_, hh⟩
          rw [hfwd] at hh
          cases hh
        rw [if_neg h2]
        exact hspan2 ix i
    · rename_i f hfwd
      obtain ⟨hflt, hfne⟩ := hdown f hfwd
      have ha3span : ∀ jx, spanA (updA (updA (updA arena newIdx
          (fun nd => { nd with forward := nd.forward.set i (fwdA arena (pr.getD i (0, 0)).1 i) }))
          (pr.getD i (0, 0)).1
          (fun nd => { nd with forward := nd.forward.set i (some newIdx) })) newIdx
          (fun nd => { nd with span := nd.span.set i ((pr.getD 0 (0, 0)).2 - (pr.getD i (0, 0)).2 + 1) })) jx i =
          if jx = newIdx then (pr.getD 0 (0, 0)).2 - (pr.getD i (0, 0)).2 + 1
          else spanA arena jx i := by
        intro jx
        rw [spanA_updA (by rw [hlen2]; exact hnew)]
        rcases Decidable.em (jx = newIdx) with h1 | h1
        · simp only [if_pos h1]
          exact getD_set_self hslen2
        · simp only [if_neg h1]
          exact hspan2 jx i
      have hskel3 : skelEq (updA (updA (updA arena newIdx
          (fun nd => { nd with forward := nd.forward.set i (fwdA arena (pr.getD i (0, 0)).1 i) }))
          (pr.getD i (0, 0)).1
          (fun nd => { nd with forward := nd.forward.set i (some newIdx) })) newIdx
          (fun nd => { nd with span := nd.span.set i ((pr.getD 0 (0, 0)).2 - (pr.getD i (0, 0)).2 + 1) })) arena :=
        skelEq_trans (skelEq_updA (by simp)) hskel2
      have hwf3 := wfArr_of_skelEq hskel3 hwf
      have hlen3 := hskel3.1
      rw [spanA_updA (by rw [hlen3]; exact hflt)]
      rcases Decidable.em (ix = f) with h1 | h1
      · simp only [if_pos h1]
        rw [getD_set_self (by rw [(hwf3 f (by rw [hlen3]; exact hflt)).2]; exact hi)]
        have hval := ha3span f
        rw [if_neg hfne] at hval
        unfold spanA at hval
        rw [hval]
        rw [if_neg (h1 ▸ hfne), if_pos ⟨h0, h1 ▸ hfwd⟩, h1]
        rfl
      · simp only [if_neg h1]
        rw [ha3span ix]
        rcases Decidable.em (ix = newIdx) with h2 | h2
        · rw [if_pos h2, if_pos h2]
        · rw [if_neg h2, if_neg h2]
          have h3 : ¬ (i ≠ 0 ∧ fwdA arena (pr.getD i (0, 0)).1 i = some ix) := by
            rintro ⟨_, hh⟩
            rw [hfwd] at hh
            injection hh with hh
            exact h1 hh.symm
          rw [if_neg h3]

theorem bumpStep_span_eff (pr : List (Nat × Int))
    {arena : List (Node K V)} {i : Nat}
    (hwf : wfArr arena) (hi : i < MaxLevel)
    (hdown : ∀ f, fwdA arena (pr.getD i (0, 0)).1 i = some f →
      f < arena.length) (ix : Nat) :
    spanA (bumpStep pr arena i) ix i = bumpSpan arena pr ix i := by
  unfold bumpStep bumpSpan
  dsimp only
  split
  · rename_i hfwd
    have h2 : ¬ fwdA arena (pr.getD i (0, 0)).1 i = some ix := by
      rw [hfwd]; exact fun hh => by cases hh
    rw [if_neg h2]
  · rename_i f hfwd
    have hflt := hdown f hfwd
    rw [spanA_updA hflt]
    rcases Decidable.em (ix = f) with h1 | h1
    · simp only [if_pos h1]
      rw [getD_set_self (by rw [(hwf f hflt).2]; exact hi)]
      rw [if_pos (h1 ▸ hfwd), h1]
      rfl
    · simp only [if_neg h1]
      have h2 : ¬ fwdA arena (pr.getD i (0, 0)).1 i = some ix := by
        rw [hfwd]
        intro hh
        injection hh with hh
        exact h1 hh.symm
      rw [if_neg h2]

/-- Value of `forward[i]` after the unlink loop of `del` has processed tier
`i`. -/
def delFwd (A0 : List (Node K V)) (prevs : List Nat) (key : K) (value : V)
    (ix i : Nat) : Option Nat :=
  let p := prevs.getD i 0
  match fwdA A0 p i with
  | none => fwdA A0 ix i
  | some c =>
    if (nodeA A0 c).data.key = key ∧ (nodeA A0 c).data.value = value then
      if ix = p then fwdA A0 c i else fwdA A0 ix i
    else fwdA A0 ix i

/-- Value of `span[i]` after the unlink loop of `del` has processed tier
`i`. -/
def delSpan (A0 : List (Node K V)) (prevs : List Nat) (key : K) (value : V)
    (ix i : Nat) : Int :=
  let p := prevs.getD i 0
  match fwdA A0 p i with
  | none => spanA A0 ix i
  | some c =>
    if (nodeA A0 c).data.key = key ∧ (nodeA A0 c).data.value = value then
      match fwdA A0 c i with
      | none => spanA A0 ix i
      | some f =>
        if ix = f then spanA A0 ix i + (spanA A0 c i - 1) else spanA A0 ix i
    else if ix = c then spanA A0 ix i - 1 else spanA A0 ix i

theorem delStep_fwd_eff (prevs : List Nat) (key : K) (value : V)
    {arena : List (Node K V)} {i : Nat}
    (hwf : wfArr arena) (hi : i < MaxLevel)
    (hp : prevs.getD i 0 < arena.length) (ix : Nat) :
    fwdA (delStep prevs key value arena i) ix i =
      delFwd arena prevs key value ix i := by
  unfold delStep delFwd
  dsimp only
  split
  · rfl
  · rename_i c hfwd
    split
    · rename_i hkv
      have hcore : ∀ ix', fwdA (updA arena (prevs.getD i 0)
          (fun nd => { nd with forward := nd.forward.set i (fwdA arena c i) })) ix' i =
          if ix' = prevs.getD i 0 then fwdA arena c i else fwdA arena ix' i := by
        intro ix'
        rw [fwdA_updA hp]
        rcases Decidable.em (ix' = prevs.getD i 0) with h1 | h1
        · simp only [if_pos h1]
          exact getD_set_self (by rw [(hwf _ hp).1]; exact hi)
        · simp only [if_neg h1]
      split
      · exact hcore ix
      · rw [fwdA_updA_spanw ix i]
        exact hcore ix
    · rw [fwdA_updA_spanw ix i]

theorem delStep_span_eff (prevs : List Nat) (key : K) (value : V)
    {arena : List (Node K V)} {i : Nat}
    (hwf : wfArr arena) (hi : i < MaxLevel)
    (hp : prevs.getD i 0 < arena.length)
    (hc : ∀ c, fwdA arena (prevs.getD i 0) i = some c → c < arena.length)
    (hcf : ∀ c f, fwdA arena (prevs.getD i 0) i = some c →
      fwdA arena c i = some f → f < arena.length) (ix : Nat) :
    spanA (delStep prevs key value arena i) ix i =
      delSpan arena prevs key value ix i := by
  unfold delStep delSpan
  dsimp only
  split
  · rfl
  · rename_i c hfwd
    have hclt := hc c hfwd
    split
    · rename_i hkv
      split
      · rename_i hcf0
        rw [spanA_updA_fwdw ix i]
      · rename_i f hcf0
        have hflt := hcf c f hfwd hcf0
        have ha1len : (updA arena (prevs.getD i 0)
            (fun nd => { nd with forward := nd.forward.set i (fwdA arena c i) })).length =
            arena.length := length_updA ..
        rw [spanA_updA (by rw [ha1len]; exact hflt)]
        rcases Decidable.em (ix = f) with h1 | h1
        · simp only [if_pos h1]
          have hskel1 : skelEq (updA arena (prevs.getD i 0)
              (fun nd => { nd with forward := nd.forward.set i (fwdA arena c i) })) arena :=
            skelEq_updA (by simp)
          have hwf1 := wfArr_of_skelEq hskel1 hwf
          rw [getD_set_self (by rw [(hwf1 f (by rw [ha1len]; exact hflt)).2]; exact hi)]
          have hval : spanA (updA arena (prevs.getD i 0)
              (fun nd => { nd with forward := nd.forward.set i (fwdA arena c i) })) f i =
              spanA arena f i := by
            rw [spanA_updA_fwdw f i]
          unfold spanA at hval
          rw [hval, h1]
          rfl
        · simp only [if_neg h1]
          rw [spanA_updA_fwdw ix i]
    · rename_i hkv
      rw [spanA_updA hclt]
      rcases Decidable.em (ix = c) with h1 | h1
      · simp only [if_pos h1]
        rw [getD_set_self (by rw [(hwf c hclt).2]; exact hi)]
        rw [h1]
        rfl
      · simp only [if_neg h1, if_neg h1]

/-! ### The splice, bump and unlink loops as a whole -/

theorem splice_fold_spec (pr : List (Nat × Int)) (newIdx : Nat)
    (A0 : List (Node K V)) (hwf : wfArr A0) (hnew : newIdx < A0.length)
    (lvl : Nat) (hlvl : lvl ≤ MaxLevel)
    (hconds : ∀ i < lvl, (pr.getD i (0, 0)).1 < A0.length ∧
      (pr.getD i (0, 0)).1 ≠ newIdx ∧
      ∀ f, fwdA A0 (pr.getD i (0, 0)).1 i = some f →
        f < A0.length ∧ f ≠ newIdx) :
    skelEq ((List.range lvl).foldl (spliceStep pr newIdx) A0) A0 ∧
    (∀ ix i, lvl ≤ i →
      fwdA ((List.range lvl).foldl (spliceStep pr newIdx) A0) ix i =
        fwdA A0 ix i ∧
      spanA ((List.range lvl).foldl (spliceStep pr newIdx) A0) ix i =
        spanA A0 ix i) ∧
    (∀ ix i, i < lvl →
      fwdA ((List.range lvl).foldl (spliceStep pr newIdx) A0) ix i =
        spliceFwd A0 pr newIdx ix i ∧
      spanA ((List.range lvl).foldl (spliceStep pr newIdx) A0) ix i =
        spliceSpan A0 pr newIdx ix i) := by
  induction lvl with
  | zero =>
    refine ⟨skelEq_refl _, fun ix i _ => ⟨rfl, rfl⟩, fun ix i hi => absurd hi (by omega)⟩
  | succ lvl ih =>
    obtain ⟨ihskel, ihhigh, ihlow⟩ := ih (by omega)
      (fun i hi => hconds i (by omega))
    have hstep : (List.range (lvl + 1)).foldl (spliceStep pr newIdx) A0 =
        spliceStep pr newIdx ((List.range lvl).foldl (spliceStep pr newIdx) A0) lvl := by
      rw [List.range_succ, List.foldl_append]
      rfl
    set Al := (List.range lvl).foldl (spliceStep pr newIdx) A0 with hAl
    obtain ⟨hc1, hc2, hc3⟩ := hconds lvl (by omega)
    have hwfl : wfArr Al := wfArr_of_skelEq ihskel hwf
    have hlenl : Al.length = A0.length := ihskel.1
    have hlvlM : lvl < MaxLevel := by omega
    have hfwd_l : fwdA Al (pr.getD lvl (0, 0)).1 lvl =
        fwdA A0 (pr.getD lvl (0, 0)).1 lvl := (ihhigh _ lvl (le_refl _)).1
    refine ⟨?_, ?_, ?_⟩
    · rw [hstep]
      exact skelEq_trans (skelEq_spliceStep ..) ihskel
    · intro ix i hi
      rw [hstep]
      obtain ⟨hf, hs⟩ := spliceStep_frame pr newIdx Al lvl
        (show i ≠ lvl by omega) ix
      obtain ⟨hf2, hs2⟩ := ihhigh ix i (by omega)
      exact ⟨hf.trans hf2, hs.trans hs2⟩
    · intro ix i hi
      rw [hstep]
      rcases Nat.lt_succ_iff_lt_or_eq.mp hi with hlt | rfl
      · obtain ⟨hf, hs⟩ := spliceStep_frame pr newIdx Al lvl
          (show i ≠ lvl by omega) ix
        obtain ⟨hf2, hs2⟩ := ihlow ix i hlt
        exact ⟨hf.trans hf2, hs.trans hs2⟩
      · constructor
        · rw [spliceStep_fwd_eff pr hwfl hlvlM (by rw [hlenl]; exact hc1)
            (by rw [hlenl]; exact hnew) hc2 ix]
          unfold spliceFwd
          dsimp only
          rw [hfwd_l, (ihhigh ix i (le_refl _)).1]
        · rw [spliceStep_span_eff pr hwfl hlvlM (by rw [hlenl]; exact hc1)
            (by rw [hlenl]; exact hnew) hc2
            (by
              intro f hf
              rw [hfwd_l] at hf
              obtain ⟨h1, h2⟩ := hc3 f hf
              exact ⟨by rw [hlenl]; exact h1, h2⟩) ix]
          unfold spliceSpan
          dsimp only
          rw [hfwd_l, (ihhigh ix i (le_refl _)).2]

theorem bump_fold_spec (pr : List (Nat × Int)) (A0 : List (Node K V))
    (hwf : wfArr A0) (lvl : Nat) (cnt : Nat) (hmax : lvl + cnt ≤ MaxLevel)
    (hconds : ∀ i, lvl ≤ i → i < lvl + cnt →
      ∀ f, fwdA A0 (pr.getD i (0, 0)).1 i = some f → f < A0.length) :
    skelEq ((List.range' lvl cnt).foldl (bumpStep pr) A0) A0 ∧
    (∀ ix i, fwdA ((List.range' lvl cnt).foldl (bumpStep pr) A0) ix i =
      fwdA A0 ix i) ∧
    (∀ ix i, i < lvl ∨ lvl + cnt ≤ i →
      spanA ((List.range' lvl cnt).foldl (bumpStep pr) A0) ix i =
        spanA A0 ix i) ∧
    (∀ ix i, lvl ≤ i → i < lvl + cnt →
      spanA ((List.range' lvl cnt).foldl (bumpStep pr) A0) ix i =
        bumpSpan A0 pr ix i) := by
  induction cnt with
  | zero =>
    exact ⟨skelEq_refl _, fun ix i => rfl, fun ix i _ => rfl,
      fun ix i h1 h2 => absurd h2 (by omega)⟩
  | succ cnt ih =>
    obtain ⟨ihskel, ihfwd, ihout, ihin⟩ := ih (by omega)
      (fun i h1 h2 => hconds i h1 (by omega))
    have hstep : (List.range' lvl (cnt + 1)).foldl (bumpStep pr) A0 =
        bumpStep pr ((List.range' lvl cnt).foldl (bumpStep pr) A0) (lvl + cnt) := by
      rw [List.range'_concat, List.foldl_append]
      simp
    set Al := (List.range' lvl cnt).foldl (bumpStep pr) A0 with hAl
    have hwfl : wfArr Al := wfArr_of_skelEq ihskel hwf
    have hlenl : Al.length = A0.length := ihskel.1
    have htM : lvl + cnt < MaxLevel := by omega
    have hfwd_t : fwdA Al (pr.getD (lvl + cnt) (0, 0)).1 (lvl + cnt) =
        fwdA A0 (pr.getD (lvl + cnt) (0, 0)).1 (lvl + cnt) := ihfwd _ _
    refine ⟨?_, ?_, ?_, ?_⟩
    · rw [hstep]
      exact skelEq_trans (skelEq_bumpStep ..) ihskel
    · intro ix i
      rw [hstep]
      rw [bumpStep_fwd pr Al (lvl + cnt) i ix]
      exact ihfwd ix i
    · intro ix i hi
      rw [hstep]
      rw [bumpStep_frame pr Al (lvl + cnt) (show i ≠ lvl + cnt by omega) ix]
      exact ihout ix i (by omega)
    · intro ix i h1 h2
      rw [hstep]
      rcases Nat.lt_succ_iff_lt_or_eq.mp (show i < lvl + cnt + 1 by omega)
        with hlt | heq
      · rw [bumpStep_frame pr Al (lvl + cnt) (show i ≠ lvl + cnt by omega) ix]
        exact ihin ix i h1 hlt
      · subst heq
        rw [bumpStep_span_eff pr hwfl htM
          (by
            intro f hf
            rw [hfwd_t] at hf
            rw [hlenl]
            exact hconds _ h1 (by omega) f hf) ix]
        unfold bumpSpan
        dsimp only
        rw [hfwd_t, ihout ix _ (Or.inr (le_refl _))]

theorem del_fold_spec (prevs : List Nat) (key : K) (value : V)
    (A0 : List (Node K V)) (hwf : wfArr A0) (L : Nat) (hL : L ≤ MaxLevel)
    (hconds : ∀ i < L, prevs.getD i 0 < A0.length ∧
      (∀ c, fwdA A0 (prevs.getD i 0) i = some c → c < A0.length) ∧
      (∀ c f, fwdA A0 (prevs.getD i 0) i = some c →
        fwdA A0 c i = some f → f < A0.length)) :
    skelEq ((List.range L).foldl (delStep prevs key value) A0) A0 ∧
    (∀ ix i, L ≤ i →
      fwdA ((List.range L).foldl (delStep prevs key value) A0) ix i =
        fwdA A0 ix i ∧
      spanA ((List.range L).foldl (delStep prevs key value) A0) ix i =
        spanA A0 ix i) ∧
    (∀ ix i, i < L →
      fwdA ((List.range L).foldl (delStep prevs key value) A0) ix i =
        delFwd A0 prevs key value ix i ∧
      spanA ((List.range L).foldl (delStep prevs key value) A0) ix i =
        delSpan A0 prevs key value ix i) := by
  induction L with
  | zero =>
    exact ⟨skelEq_refl _, fun ix i _ => ⟨rfl, rfl⟩,
      fun ix i hi => absurd hi (by omega)⟩
  | succ L ih =>
    obtain ⟨ihskel, ihhigh, ihlow⟩ := ih (by omega)
      (fun i hi => hconds i (by omega))
    have hstep : (List.range (L + 1)).foldl (delStep prevs key value) A0 =
        delStep prevs key value
          ((List.range L).foldl (delStep prevs key value) A0) L := by
      rw [List.range_succ, List.foldl_append]
      rfl
    set Al := (List.range L).foldl (delStep prevs key value) A0 with hAl
    obtain ⟨hc1, hc2, hc3⟩ := hconds L (by omega)
    have hwfl : wfArr Al := wfArr_of_skelEq ihskel hwf
    have hlenl : Al.length = A0.length := ihskel.1
    have hLM : L < MaxLevel := by omega
    have hfwd_p : fwdA Al (prevs.getD L 0) L =
        fwdA A0 (prevs.getD L 0) L := (ihhigh _ L (le_refl _)).1
    refine ⟨?_, ?_, ?_⟩
    · rw [hstep]
      exact skelEq_trans (skelEq_delStep ..) ihskel
    · intro ix i hi
      rw [hstep]
      obtain ⟨hf, hs⟩ := delStep_frame prevs key value Al L
        (show i ≠ L by omega) ix
      obtain ⟨hf2, hs2⟩ := ihhigh ix i (by omega)
      exact ⟨hf.trans hf2, hs.trans hs2⟩
    · intro ix i hi
      rw [hstep]
      rcases Nat.lt_succ_iff_lt_or_eq.mp hi with hlt | heq
      · obtain ⟨hf, hs⟩ := delStep_frame prevs key value Al L
          (show i ≠ L by omega) ix
        obtain ⟨hf2, hs2⟩ := ihlow ix i hlt
        exact ⟨hf.trans hf2, hs.trans hs2⟩
      · subst heq
        have hdata : ∀ c, (nodeA Al c).data = (nodeA A0 c).data :=
          fun c => (ihskel.2 c).1
        constructor
        · rw [delStep_fwd_eff prevs key value hwfl hLM
            (by rw [hlenl]; exact hc1) ix]
          unfold delFwd
          dsimp only
          rw [hfwd_p]
          cases hcc : fwdA A0 (prevs.getD i 0) i with
          | none => exact (ihhigh ix i (le_refl _)).1
          | some c =>
            dsimp only
            simp only [hdata c, (ihhigh c i (le_refl _)).1,
              (ihhigh ix i (le_refl _)).1]
        · rw [delStep_span_eff prevs key value hwfl hLM
            (by rw [hlenl]; exact hc1)
            (by
              intro c hcc
              rw [hfwd_p] at hcc
              rw [hlenl]
              exact hc2 c hcc)
            (by
              intro c f hcc hff
              rw [hfwd_p] at hcc
              rw [(ihhigh c i (le_refl _)).1] at hff
              rw [hlenl]
              exact hc3 c f hcc hff) ix]
          unfold delSpan
          dsimp only
          rw [hfwd_p]
          cases hcc : fwdA A0 (prevs.getD i 0) i with
          | none => exact (ihhigh ix i (le_refl _)).2
          | some c =>
            dsimp only
            simp only [hdata c, (ihhigh c i (le_refl _)).1,
              (ihhigh c i (le_refl _)).2, (ihhigh ix i (le_refl _)).2]

/-! ### Pure lemmas: tier successors under insertion of a position -/

/-- First tier-`i` participant at index `s` or later. -/
def tfrom (lvls : List Nat) (i s : Nat) : Option Nat :=
  (tfind i (lvls.drop s)).map (· + s)

theorem tstep_eq_tfrom (lvls : List Nat) (i : Nat) (a : Option Nat) :
    tstep lvls i a = tfrom lvls i (startO a) := rfl

theorem tfrom_eq_some_iff {lvls : List Nat} {i s b : Nat} :
    tfrom lvls i s = some b ↔
      s ≤ b ∧ b < lvls.length ∧ i < lvls.getD b 0 ∧
        ∀ c, s ≤ c → c < b → ¬ i < lvls.getD c 0 := by
  have := tstep_eq_some_iff (L := lvls) (i := i) (a := some (b + 1)) (b := b)
  unfold tfrom
  constructor
  · intro h
    rcases Option.map_eq_some'.mp h with ⟨m, hm, rfl⟩
    obtain ⟨h1, h2, h3⟩ := tfind_eq_some_iff.mp hm
    rw [List.length_drop] at h1
    refine ⟨by omega, by omega, ?_, ?_⟩
    · have := getD_drop lvls s m
      rw [Nat.add_comm] at this
      exact this ▸ h2
    · intro c hc hcb
      have := h3 (c - s) (by omega)
      rw [getD_drop] at this
      have hca : s + (c - s) = c := by omega
      rw [hca] at this
      exact this
  · rintro ⟨h1, h2, h3, h4⟩
    have : tfind i (lvls.drop s) = some (b - s) := by
      refine tfind_eq_some_iff.mpr ⟨by rw [List.length_drop]; omega, ?_, ?_⟩
      · rw [getD_drop]
        have : s + (b - s) = b := by omega
        rw [this]; exact h3
      · intro m' hm'
        rw [getD_drop]
        exact h4 _ (by omega) (by omega)
    rw [this]
    simp only [Option.map_some']
    congr 1
    omega

theorem tfrom_eq_none_iff {lvls : List Nat} {i s : Nat} :
    tfrom lvls i s = none ↔
      ∀ c, s ≤ c → c < lvls.length → ¬ i < lvls.getD c 0 := by
  unfold tfrom
  rw [Option.map_eq_none', tfind_eq_none_iff]
  constructor
  · intro h c hc hcl
    have := h (c - s) (by rw [List.length_drop]; omega)
    rw [getD_drop] at this
    have hca : s + (c - s) = c := by omega
    rwa [hca] at this
  · intro h m hm
    rw [List.length_drop] at hm
    rw [getD_drop]
    exact h _ (by omega) (by omega)

theorem getD_insertIdx_lt {α : Type} {l : List α} {p j : Nat} {x d : α}
    (hp : p ≤ l.length) (hj : j < p) :
    (l.insertIdx p x).getD j d = l.getD j d := by
  have hjl : j < l.length := by omega
  have h1 : j < (l.insertIdx p x).length := by
    rw [List.length_insertIdx _ _ hp]; omega
  rw [List.getD_eq_getElem?_getD, List.getD_eq_getElem?_getD,
    List.getElem?_eq_getElem h1, List.getElem?_eq_getElem hjl]
  simp [List.getElem_insertIdx_of_lt l x p j hj hjl]

theorem getD_insertIdx_self {α : Type} {l : List α} {p : Nat} {x d : α}
    (hp : p ≤ l.length) : (l.insertIdx p x).getD p d = x := by
  have h1 : p < (l.insertIdx p x).length := by
    rw [List.length_insertIdx _ _ hp]; omega
  rw [List.getD_eq_getElem?_getD, List.getElem?_eq_getElem h1]
  simp [List.getElem_insertIdx_self l x p hp]

theorem getD_insertIdx_gt {α : Type} {l : List α} {p j : Nat} {x d : α}
    (hp : p ≤ l.length) (hj : p < j) :
    (l.insertIdx p x).getD j d = l.getD (j - 1) d := by
  rcases Decidable.em (j < l.length + 1) with hjl | hjl
  · have h1 : p + (j - p - 1) + 1 < (l.insertIdx p x).length := by
      rw [List.length_insertIdx _ _ hp]; omega
    have h3 : p + (j - p - 1) < l.length := by omega
    have hq : (l.insertIdx p x)[p + (j - p - 1) + 1]? =
        l[p + (j - p - 1)]? := by
      rw [List.getElem?_eq_getElem h1, List.getElem?_eq_getElem h3,
        List.getElem_insertIdx_add_succ l x p (j - p - 1) h3]
    have hidx : p + (j - p - 1) + 1 = j := by omega
    have hidx2 : p + (j - p - 1) = j - 1 := by omega
    rw [hidx, hidx2] at hq
    rw [List.getD_eq_getElem?_getD, List.getD_eq_getElem?_getD, hq]
  · have h1 : ¬ j < (l.insertIdx p x).length := by
      rw [List.length_insertIdx _ _ hp]; omega
    have h2 : ¬ j - 1 < l.length := by omega
    rw [List.getD_eq_getElem?_getD, List.getD_eq_getElem?_getD,
      List.getElem?_eq_none (by omega), List.getElem?_eq_none (by omega)]

/-- Inserting at `p` does not disturb tier successors that lie entirely below
`p`. -/
theorem tfrom_insertIdx_below {L : List Nat} {p : Nat} {lv : Nat} {i s b : Nat}
    (hp : p ≤ L.length) (hb : tfrom L i s = some b) (hbp : b < p) :
    tfrom (L.insertIdx p lv) i s = some b := by
  obtain ⟨h1, h2, h3, h4⟩ := tfrom_eq_some_iff.mp hb
  refine tfrom_eq_some_iff.mpr ⟨h1, ?_, ?_, ?_⟩
  · rw [List.length_insertIdx _ _ hp]; omega
  · rw [getD_insertIdx_lt hp hbp]; exact h3
  · intro c hc hcb
    rw [getD_insertIdx_lt hp (by omega)]
    exact h4 c hc hcb

/-- Inserting a non-participant at `p`: a successor at or beyond `p` shifts up
by one. -/
theorem tfrom_insertIdx_cross {L : List Nat} {p : Nat} {lv : Nat} {i s b : Nat}
    (hp : p ≤ L.length) (hlv : ¬ i < lv) (hs : s ≤ p)
    (hb : tfrom L i s = some b) (hbp : p ≤ b) :
    tfrom (L.insertIdx p lv) i s = some (b + 1) := by
  obtain ⟨h1, h2, h3, h4⟩ := tfrom_eq_some_iff.mp hb
  refine tfrom_eq_some_iff.mpr ⟨by omega, ?_, ?_, ?_⟩
  · rw [List.length_insertIdx _ _ hp]; omega
  · rw [getD_insertIdx_gt hp (by omega)]
    simpa using h3
  · intro c hc hcb
    rcases Decidable.em (c < p) with hcp | hcp
    · rw [getD_insertIdx_lt hp hcp]
      exact h4 c hc (by omega)
    · rcases Decidable.em (c = p) with hcp2 | hcp2
      · subst hcp2
        rw [getD_insertIdx_self hp]
        exact hlv
      · rw [getD_insertIdx_gt hp (by omega)]
        exact h4 (c - 1) (by omega) (by omega)

/-- Inserting a non-participant at `p` preserves the absence of a
successor. -/
theorem tfrom_insertIdx_cross_none {L : List Nat} {p : Nat} {lv : Nat}
    {i s : Nat} (hp : p ≤ L.length) (hlv : ¬ i < lv) (hs : s ≤ p)
    (hb : tfrom L i s = none) :
    tfrom (L.insertIdx p lv) i s = none := by
  have h1 := tfrom_eq_none_iff.mp hb
  refine tfrom_eq_none_iff.mpr ?_
  intro c hc hcl
  rw [List.length_insertIdx _ _ hp] at hcl
  rcases Decidable.em (c < p) with hcp | hcp
  · rw [getD_insertIdx_lt hp hcp]
    exact h1 c hc (by omega)
  · rcases Decidable.em (c = p) with hcp2 | hcp2
    · subst hcp2
      rw [getD_insertIdx_self hp]
      exact hlv
    · rw [getD_insertIdx_gt hp (by omega)]
      exact h1 (c - 1) (by omega) (by omega)

/-- Inserting a participant at `p`: from any start at or below `p` with no old
participant in `[s, p)`, the next participant is the new node. -/
theorem tfrom_insertIdx_hit {L : List Nat} {p : Nat} {lv : Nat} {i s : Nat}
    (hp : p ≤ L.length) (hlv : i < lv) (hs : s ≤ p)
    (hnone : ∀ c, s ≤ c → c < p → ¬ i < L.getD c 0) :
    tfrom (L.insertIdx p lv) i s = some p := by
  refine tfrom_eq_some_iff.mpr ⟨hs, ?_, ?_, ?_⟩
  · rw [List.length_insertIdx _ _ hp]; omega
  · rw [getD_insertIdx_self hp]; exact hlv
  · intro c hc hcb
    rw [getD_insertIdx_lt hp hcb]
    exact hnone c hc hcb

/-- Inserting at `p`: successors from starts strictly above `p` are the old
ones shifted by one. -/
theorem tfrom_insertIdx_above {L : List Nat} {p : Nat} {g : Nat} {i s : Nat}
    (hp : p ≤ L.length) (hs : p ≤ s) :
    tfrom (L.insertIdx p g) i (s + 1) = (tfrom L i s).map (· + 1) := by
  cases hb : tfrom L i s with
  | none =>
    have h1 := tfrom_eq_none_iff.mp hb
    simp only [Option.map_none']
    refine tfrom_eq_none_iff.mpr ?_
    intro c hc hcl
    rw [List.length_insertIdx _ _ hp] at hcl
    rw [getD_insertIdx_gt hp (by omega)]
    exact h1 (c - 1) (by omega) (by omega)
  | some b =>
    obtain ⟨h1, h2, h3, h4⟩ := tfrom_eq_some_iff.mp hb
    simp only [Option.map_some']
    refine tfrom_eq_some_iff.mpr ⟨by omega, ?_, ?_, ?_⟩
    · rw [List.length_insertIdx _ _ hp]; omega
    · rw [getD_insertIdx_gt hp (by omega)]
      simpa using h3
    · intro c hc hcb
      rw [getD_insertIdx_gt hp (by omega)]
      exact h4 (c - 1) (by omega) (by omega)

/-- If no tier-`i` participant lies in `[s1, s2)`, searches from `s1` and
`s2` agree. -/
theorem tfrom_congr {L : List Nat} {i s1 s2 : Nat} (h12 : s1 ≤ s2)
    (hno : ∀ c, s1 ≤ c → c < s2 → ¬ i < L.getD c 0) :
    tfrom L i s1 = tfrom L i s2 := by
  cases h2 : tfrom L i s2 with
  | none =>
    rw [tfrom_eq_none_iff] at h2 ⊢
    intro c hc hcl
    rcases Decidable.em (c < s2) with hcs | hcs
    · exact hno c hc hcs
    · exact h2 c (by omega) hcl
  | some b =>
    obtain ⟨hb1, hb2, hb3, hb4⟩ := tfrom_eq_some_iff.mp h2
    refine tfrom_eq_some_iff.mpr ⟨by omega, hb2, hb3, ?_⟩
    intro c hc hcb
    rcases Decidable.em (c < s2) with hcs | hcs
    · exact hno c hc hcs
    · exact hb4 c (by omega) hcb

/-- Inverse of `tfrom_insertIdx_below`: a successor below the insertion point
existed before the insertion. -/
theorem tfrom_insertIdx_below_inv {L : List Nat} {p lv i s b : Nat}
    (hp : p ≤ L.length) (hb : tfrom (L.insertIdx p lv) i s = some b)
    (hbp : b < p) : tfrom L i s = some b := by
  obtain ⟨h1, h2, h3, h4⟩ := tfrom_eq_some_iff.mp hb
  rw [getD_insertIdx_lt hp hbp] at h3
  refine tfrom_eq_some_iff.mpr ⟨h1, by omega, h3, ?_⟩
  intro c hc hcb
  have := h4 c hc hcb
  rwa [getD_insertIdx_lt hp (by omega)] at this

/-- Inverse crossing lemma: a successor strictly above the insertion point
comes from an old successor one position lower, and the inserted position is
not a tier-`i` participant when the search start is at or below it. -/
theorem tfrom_insertIdx_cross_inv {L : List Nat} {p lv i s b' : Nat}
    (hp : p ≤ L.length) (hs : s ≤ p)
    (hb : tfrom (L.insertIdx p lv) i s = some b') (hbp : p < b') :
    ¬ i < lv ∧ tfrom L i s = some (b' - 1) := by
  obtain ⟨h1, h2, h3, h4⟩ := tfrom_eq_some_iff.mp hb
  rw [List.length_insertIdx _ _ hp] at h2
  rw [getD_insertIdx_gt hp (by omega)] at h3
  have hnl : ¬ i < lv := by
    have := h4 p hs hbp
    rwa [getD_insertIdx_self hp] at this
  refine ⟨hnl, tfrom_eq_some_iff.mpr ⟨by omega, by omega, h3, ?_⟩⟩
  intro c hc hcb
  rcases Decidable.em (c < p) with hcp | hcp
  · have := h4 c hc (by omega)
    rwa [getD_insertIdx_lt hp hcp] at this
  · have := h4 (c + 1) (by omega) (by omega)
    rwa [getD_insertIdx_gt hp (by omega), Nat.add_sub_cancel] at this

theorem map_insertIdx {α β : Type} (f : α → β) :
    ∀ (p : Nat) (l : List α) (x : α), p ≤ l.length →
      (l.insertIdx p x).map f = (l.map f).insertIdx p (f x) := by
  intro p
  induction p with
  | zero => intro l x _; simp [List.insertIdx_zero]
  | succ p ih =>
    intro l x hp
    cases l with
    | nil => simp at hp
    | cons a l =>
      rw [List.insertIdx_succ_cons, List.map_cons, List.map_cons,
        List.insertIdx_succ_cons, ih l x (by simpa using hp)]

theorem find?_insertIdx {α : Type} (q : α → Bool) :
    ∀ (p : Nat) (l : List α) (x : α), p ≤ l.length → q x = false →
      (l.insertIdx p x).find? q = l.find? q := by
  intro p
  induction p with
  | zero =>
    intro l x _ hx
    rw [List.insertIdx_zero, List.find?_cons_of_neg _ (by simp [hx])]
  | succ p ih =>
    intro l x hp hx
    cases l with
    | nil => simp at hp
    | cons a l =>
      rw [List.insertIdx_succ_cons]
      cases ha : q a with
      | true =>
        rw [List.find?_cons_of_pos _ ha, List.find?_cons_of_pos _ ha]
      | false =>
        rw [List.find?_cons_of_neg _ (by simp [ha]),
          List.find?_cons_of_neg _ (by simp [ha]), ih l x (by simpa using hp) hx]

theorem find?_insertIdx_pos {α : Type} (q : α → Bool) :
    ∀ (p : Nat) (l : List α) (x : α), p ≤ l.length → q x = true →
      (∀ e ∈ l, q e = false) →
      (l.insertIdx p x).find? q = some x := by
  intro p
  induction p with
  | zero =>
    intro l x _ hx _
    rw [List.insertIdx_zero, List.find?_cons_of_pos _ hx]
  | succ p ih =>
    intro l x hp hx hl
    cases l with
    | nil => simp at hp
    | cons a l =>
      rw [List.insertIdx_succ_cons,
        List.find?_cons_of_neg _ (by simp [hl a (List.mem_cons_self a l)]),
        ih l x (by simpa using hp) hx (fun e he => hl e (List.mem_cons_of_mem a he))]

theorem six_insertIdx_lt {spine : List Nat} {p j newIdx : Nat}
    (hp : p ≤ spine.length) (hj : j < p) :
    six (spine.insertIdx p newIdx) j = six spine j :=
  getD_insertIdx_lt hp hj

theorem six_insertIdx_self {spine : List Nat} {p newIdx : Nat}
    (hp : p ≤ spine.length) :
    six (spine.insertIdx p newIdx) p = newIdx :=
  getD_insertIdx_self hp

theorem six_insertIdx_gt {spine : List Nat} {p j newIdx : Nat}
    (hp : p ≤ spine.length) (hj : p < j) :
    six (spine.insertIdx p newIdx) j = six spine (j - 1) :=
  getD_insertIdx_gt hp hj

/-! ### The arena after `insertNode` -/

theorem nodeA_append_left {arena : List (Node K V)} {x : Node K V} {ix : Nat}
    (h : ix < arena.length) : nodeA (arena ++ [x]) ix = nodeA arena ix := by
  unfold nodeA
  rw [List.getD_append _ _ _ _ h]

theorem nodeA_append_self (arena : List (Node K V)) (x : Node K V) :
    nodeA (arena ++ [x]) arena.length = x := by
  unfold nodeA
  rw [List.getD_eq_getElem?_getD, List.getElem?_append_right (le_refl _)]
  simp

theorem getD_replicate {α : Type} {n : Nat} {a d : α} {i : Nat} :
    (List.replicate n a).getD i d = if i < n then a else d := by
  rcases Decidable.em (i < n) with h | h
  · rw [if_pos h, List.getD_eq_getElem?_getD, List.getElem?_replicate,
      if_pos h]
    rfl
  · rw [if_neg h, List.getD_eq_getElem?_getD, List.getElem?_replicate,
      if_neg h]
    rfl

theorem fwdA_newNode (arena : List (Node K V)) (key : K) (value : V)
    (lvl i : Nat) :
    fwdA (arena ++ [NewNode key value lvl]) arena.length i = none := by
  unfold fwdA
  rw [nodeA_append_self]
  unfold NewNode
  dsimp only
  rw [getD_replicate]
  split <;> rfl

theorem spanA_newNode (arena : List (Node K V)) (key : K) (value : V)
    (lvl i : Nat) :
    spanA (arena ++ [NewNode key value lvl]) arena.length i = 0 := by
  unfold spanA
  rw [nodeA_append_self]
  unfold NewNode
  dsimp only
  rw [getD_replicate]
  split <;> rfl

theorem fwdA_append_left {arena : List (Node K V)} {x : Node K V} {ix : Nat}
    (h : ix < arena.length) (i : Nat) :
    fwdA (arena ++ [x]) ix i = fwdA arena ix i := by
  unfold fwdA
  rw [nodeA_append_left h]

theorem spanA_append_left {arena : List (Node K V)} {x : Node K V} {ix : Nat}
    (h : ix < arena.length) (i : Nat) :
    spanA (arena ++ [x]) ix i = spanA arena ix i := by
  unfold spanA
  rw [nodeA_append_left h]

theorem Inv.wfA {s : RankList K V} {spine : List Nat} (hinv : Inv s spine) :
    wfArr s.arena := by
  intro ix hix
  exact ⟨hinv.fwd_len ix hix, hinv.span_len ix hix⟩

theorem wfArr_append_new {arena : List (Node K V)} (hwf : wfArr arena)
    (key : K) (value : V) (lvl : Nat) :
    wfArr (arena ++ [NewNode key value lvl]) := by
  intro ix hix
  rw [List.length_append, List.length_cons, List.length_nil] at hix
  rcases Decidable.em (ix < arena.length) with h | h
  · rw [nodeA_append_left h]
    exact hwf ix h
  · have : ix = arena.length := by omega
    subst this
    rw [nodeA_append_self]
    unfold NewNode
    constructor <;> simp

/-- The position at which `Set`'s tier-`i` search stops, for a state. -/
def gsOf (s : RankList K V) (spine : List Nat) (key : K) (value : V)
    (i : Nat) : Option Nat :=
  gset (lvlsOf s.arena spine) (entsOf s.arena spine) key value i spine.length

/-- The insertion position of a fresh (key, value). -/
def insPos (s : RankList K V) (spine : List Nat) (key : K) (value : V) : Nat :=
  startO (gsOf s spine key value 0)

theorem rankO_eq_startO (a : Option Nat) : rankO a = (startO a : Int) := by
  cases a <;> simp [rankO, startO]

theorem gs_some_facts {s : RankList K V} {spine : List Nat} {key : K}
    {value : V} {i j : Nat}
    (h : gsOf s spine key value i = some j) :
    j < spine.length ∧ i < (lvlsOf s.arena spine).getD j 0 ∧
      ¬ entLt (key, value) ((entsOf s.arena spine).getD j default) ∧
      ∀ m, j < m → m < spine.length →
        ¬ (i < (lvlsOf s.arena spine).getD m 0 ∧
          ¬ entLt (key, value) ((entsOf s.arena spine).getD m default)) := by
  obtain ⟨h1, h2, h3⟩ := glast_eq_some_iff.mp h
  obtain ⟨h2a, h2b⟩ := setPred_iff.mp h2
  refine ⟨h1, h2a, h2b, ?_⟩
  intro m hm1 hm2 ⟨ha, hb⟩
  exact h3 m hm1 hm2 (setPred_iff.mpr ⟨ha, hb⟩)

theorem gs_none_facts {s : RankList K V} {spine : List Nat} {key : K}
    {value : V} {i : Nat}
    (h : gsOf s spine key value i = none) :
    ∀ m < spine.length,
      ¬ (i < (lvlsOf s.arena spine).getD m 0 ∧
        ¬ entLt (key, value) ((entsOf s.arena spine).getD m default)) := by
  have h1 := glast_eq_none_iff.mp h
  intro m hm ⟨ha, hb⟩
  exact h1 m hm (setPred_iff.mpr ⟨ha, hb⟩)

theorem partO_gs {s : RankList K V} {spine : List Nat} {key : K} {value : V}
    {i : Nat} :
    partO (lvlsOf s.arena spine) i (gsOf s spine key value i) := by
  cases h : gsOf s spine key value i with
  | none => trivial
  | some j =>
    obtain ⟨h1, h2, _, _⟩ := gs_some_facts h
    exact ⟨by rw [Inv.lvls_length]; exact h1, h2⟩

theorem lvls_getD_mem {arena : List (Node K V)} {spine : List Nat} {j : Nat}
    (hj : j < spine.length) :
    (lvlsOf arena spine).getD j 0 ∈ lvlsOf arena spine := by
  rw [lvlsOf_getD hj]
  unfold lvlsOf
  exact List.mem_map_of_mem _ (six_mem hj)

theorem Inv.lvl_pos_getD {s : RankList K V} {spine : List Nat}
    (hinv : Inv s spine) {j : Nat} (hj : j < spine.length) :
    0 < (lvlsOf s.arena spine).getD j 0 :=
  hinv.lvl_pos _ (lvls_getD_mem hj)

theorem Inv.lvl_le_getD {s : RankList K V} {spine : List Nat}
    (hinv : Inv s spine) {j : Nat} (hj : j < spine.length) :
    (lvlsOf s.arena spine).getD j 0 ≤ s.level :=
  hinv.lvl_le _ (lvls_getD_mem hj)

/-- The entries strictly before the insertion position are exactly those
strictly below the fresh target in the (value, key) order. -/
theorem insPos_iff {s : RankList K V} {spine : List Nat} {k : K} {v : V}
    (hinv : Inv s spine)
    (hfreshk : ∀ j < spine.length,
      ((entsOf s.arena spine).getD j default).1 ≠ k) :
    ∀ j < spine.length,
      (j < insPos s spine k v ↔
        ¬ entLt (k, v) ((entsOf s.arena spine).getD j default)) := by
  intro j hj
  unfold insPos
  cases hg : gsOf s spine k v 0 with
  | none =>
    have hall := gs_none_facts hg
    simp only [startO]
    constructor
    · omega
    · intro hne
      exact absurd ⟨hinv.lvl_pos_getD hj, hne⟩ (hall j hj)
  | some j0 =>
    obtain ⟨h1, h2, h3, h4⟩ := gs_some_facts hg
    simp only [startO]
    constructor
    · intro hjp
      rcases Nat.lt_succ_iff_lt_or_eq.mp hjp with hlt | rfl
      · intro habs
        have hmono := hinv.ents_mono hlt h1
        exact h3 (entLt_trans habs hmono)
      · exact h3
    · intro hne
      by_contra hjp
      exact h4 j (by omega) hj ⟨hinv.lvl_pos_getD hj, hne⟩

theorem insPos_le {s : RankList K V} {w : List Nat} {k : K} {v : V} :
    insPos s w k v ≤ w.length := by
  unfold insPos
  cases hg : gsOf s w k v 0 with
  | none => simp [startO]
  | some j0 =>
    obtain ⟨h1, _, _, _⟩ := gs_some_facts hg
    simp only [startO]
    omega

/-- The tier-`i` search stop is strictly below the insertion position, and no
tier-`i` participant lies between it and the insertion position. -/
theorem gs_below_insPos {s : RankList K V} {spine : List Nat} {key : K}
    {v : V} (hinv : Inv s spine)
    (hfreshk : ∀ j < spine.length,
      ((entsOf s.arena spine).getD j default).1 ≠ key) (i : Nat) :
    startO (gsOf s spine key v i) ≤ insPos s spine key v ∧
    (∀ c, startO (gsOf s spine key v i) ≤ c →
      c < insPos s spine key v →
      ¬ i < (lvlsOf s.arena spine).getD c 0) := by
  have hEp := insPos_iff (k := key) (v := v) hinv hfreshk
  have hple := insPos_le (s := s) (w := spine) (k := key) (v := v)
  cases hg : gsOf s spine key v i with
  | none =>
    have hall := gs_none_facts hg
    simp only [startO]
    refine ⟨by omega, ?_⟩
    intro c _ hcp hcl
    have hcn : c < spine.length := by omega
    exact hall c hcn ⟨hcl, (hEp c hcn).mp hcp⟩
  | some j =>
    obtain ⟨h1, h2, h3, h4⟩ := gs_some_facts hg
    have hjp : j < insPos s spine key v := (hEp j h1).mpr h3
    simp only [startO]
    refine ⟨by omega, ?_⟩
    intro c hc hcp hcl
    have hcn : c < spine.length := by omega
    exact h4 c (by omega) hcn ⟨hcl, (hEp c hcn).mp hcp⟩

/-- The search of `Set` returns, at every tier, the stop position and its
rank. -/
theorem insert_search_spec {s : RankList K V} {spine : List Nat}
    (hinv : Inv s spine) (key : K) (value : V) {slevel : Nat}
    (hsl1 : 1 ≤ slevel) (hsl2 : slevel ≤ MaxLevel) :
    ∀ i ≤ slevel - 1,
      (setSearchDown s.arena key value (slevel - 1) 0 0).getD i (0, 0) =
        (sixO spine (gsOf s spine key value i),
          rankO (gsOf s spine key value i)) := by
  intro i hi
  have h0 : (0 : Nat) = sixO spine none := rfl
  have h0r : (0 : Int) = rankO none := rfl
  rw [h0, h0r]
  exact setSearchDown_spec hinv key value (by omega) none trivial i hi

theorem insertNode_arena_spec {s : RankList K V} {spine : List Nat}
    (hinv : Inv s spine) (key : K) (value : V) {lvl : Nat}
    (hlvl1 : 1 ≤ lvl) (hlvl2 : lvl ≤ MaxLevel) :
    skelEq (s.insertNode key value lvl).arena
      (s.arena ++ [NewNode key value lvl]) ∧
    (∀ i, i < lvl → ∀ ix,
      fwdA (s.insertNode key value lvl).arena ix i =
        spliceFwd (s.arena ++ [NewNode key value lvl])
          (setSearchDown s.arena key value (max s.level lvl - 1) 0 0)
          s.arena.length ix i ∧
      spanA (s.insertNode key value lvl).arena ix i =
        spliceSpan (s.arena ++ [NewNode key value lvl])
          (setSearchDown s.arena key value (max s.level lvl - 1) 0 0)
          s.arena.length ix i) ∧
    (∀ i, lvl ≤ i → ∀ ix,
      fwdA (s.insertNode key value lvl).arena ix i =
        fwdA (s.arena ++ [NewNode key value lvl]) ix i) ∧
    (∀ i, lvl ≤ i → i < max s.level lvl → ∀ ix,
      spanA (s.insertNode key value lvl).arena ix i =
        bumpSpan (s.arena ++ [NewNode key value lvl])
          (setSearchDown s.arena key value (max s.level lvl - 1) 0 0) ix i) ∧
    (∀ i, max s.level lvl ≤ i → ∀ ix,
      spanA (s.insertNode key value lvl).arena ix i =
        spanA (s.arena ++ [NewNode key value lvl]) ix i) := by
  have hsl1 : 1 ≤ max s.level lvl := le_trans hinv.level_pos (le_max_left _ _)
  have hsl2 : max s.level lvl ≤ MaxLevel := max_le hinv.level_le hlvl2
  set slevel := max s.level lvl with hslevel
  set pr := setSearchDown s.arena key value (slevel - 1) 0 0 with hprdef
  set newIdx := s.arena.length with hnewIdx
  set ar2 := s.arena ++ [NewNode key value lvl] with har2
  have hpr := insert_search_spec hinv key value hsl1 hsl2
  have har2len : ar2.length = s.arena.length + 1 := by
    rw [har2, List.length_append, List.length_cons, List.length_nil]
  have hwf2 : wfArr ar2 := wfArr_append_new hinv.wfA key value lvl
  have hprev1 : ∀ i ≤ slevel - 1, (pr.getD i (0, 0)).1 < s.arena.length := by
    intro i hi
    rw [hpr i hi]
    cases hg : gsOf s spine key value i with
    | none => exact hinv.arena_pos
    | some j =>
      obtain ⟨h1, _, _, _⟩ := gs_some_facts hg
      exact hinv.six_lt h1
  have hprevfwd : ∀ i ≤ slevel - 1, i < MaxLevel →
      fwdA ar2 (pr.getD i (0, 0)).1 i =
        Option.map (six spine)
          (tstep (lvlsOf s.arena spine) i (gsOf s spine key value i)) := by
    intro i hi hiM
    rw [hpr i hi, fwdA_append_left (by
      rw [← hpr i hi]
      exact hprev1 i hi)]
    exact hinv.fwd_ok i hiM _ partO_gs
  have hdown : ∀ i ≤ slevel - 1, i < MaxLevel →
      ∀ f, fwdA ar2 (pr.getD i (0, 0)).1 i = some f →
        f < s.arena.length ∧ f ≠ newIdx := by
    intro i hi hiM f hf
    rw [hprevfwd i hi hiM] at hf
    rcases Option.map_eq_some'.mp hf with ⟨b, hb, rfl⟩
    obtain ⟨_, hbn, _, _⟩ := tstep_eq_some_iff.mp hb
    rw [Inv.lvls_length] at hbn
    have := hinv.six_lt hbn
    exact ⟨this, by omega⟩
  obtain ⟨hsk3, hhi3, hlo3⟩ := splice_fold_spec pr newIdx ar2 hwf2
    (by rw [har2len]; omega) lvl hlvl2
    (by
      intro i hi
      have hisl : i ≤ slevel - 1 := by omega
      have hiM : i < MaxLevel := by omega
      refine ⟨by rw [har2len]; have := hprev1 i hisl; omega, ?_, ?_⟩
      · rw [hpr i hisl]
        cases hg : gsOf s spine key value i with
        | none =>
          simp only [sixO]
          have := hinv.arena_pos
          omega
        | some j =>
          obtain ⟨h1, _, _, _⟩ := gs_some_facts hg
          simp only [sixO]
          have := hinv.six_lt h1
          omega
      · intro f hf
        obtain ⟨h1, h2⟩ := hdown i hisl hiM f hf
        exact ⟨by rw [har2len]; omega, h2⟩)
  set ar3 := (List.range lvl).foldl (spliceStep pr newIdx) ar2 with har3
  have hwf3 : wfArr ar3 := wfArr_of_skelEq hsk3 hwf2
  have har3len : ar3.length = ar2.length := hsk3.1
  have hcnt : lvl + (slevel - lvl) = slevel := by omega
  obtain ⟨hsk4, hfw4, hout4, hin4⟩ := bump_fold_spec pr ar3 hwf3 lvl
    (slevel - lvl) (by omega)
    (by
      intro i h1 h2 f hf
      rw [(hhi3 _ i h1).1] at hf
      have hisl : i ≤ slevel - 1 := by omega
      have hiM : i < MaxLevel := by omega
      obtain ⟨hfl, _⟩ := hdown i hisl hiM f hf
      rw [har3len, har2len]
      omega)
  have hF : (s.insertNode key value lvl).arena =
      (List.range' lvl (slevel - lvl)).foldl (bumpStep pr) ar3 := rfl
  refine ⟨?_, ?_, ?_, ?_, ?_⟩
  · rw [hF]
    exact skelEq_trans hsk4 hsk3
  · intro i hi ix
    constructor
    · rw [hF, hfw4 ix i]
      exact (hlo3 ix i hi).1
    · rw [hF, hout4 ix i (Or.inl hi)]
      exact (hlo3 ix i hi).2
  · intro i hi ix
    rw [hF, hfw4 ix i]
    exact (hhi3 ix i hi).1
  · intro i hi1 hi2 ix
    rw [hF, hin4 ix i hi1 (by omega)]
    unfold bumpSpan
    dsimp only
    rw [(hhi3 _ i hi1).1, (hhi3 ix i hi1).2]
  · intro i hi ix
    rw [hF, hout4 ix i (Or.inr (by omega))]
    exact (hhi3 ix i (by omega)).2

/-- Forward-pointer reads of the arena after `insertNode`, classified by the
node read: the new node, the header, or an old live node. -/
theorem insertNode_fwd_reads {s : RankList K V} {spine : List Nat}
    (hinv : Inv s spine) (key : K) (value : V) {lvl : Nat}
    (hlvl1 : 1 ≤ lvl) (hlvl2 : lvl ≤ MaxLevel) {i : Nat} (hiM : i < MaxLevel)
    (hisl : i ≤ max s.level lvl - 1) :
    (fwdA (s.insertNode key value lvl).arena s.arena.length i =
      if i < lvl then
        Option.map (six spine)
          (tstep (lvlsOf s.arena spine) i (gsOf s spine key value i))
      else none) ∧
    (fwdA (s.insertNode key value lvl).arena 0 i =
      if i < lvl ∧ gsOf s spine key value i = none then some s.arena.length
      else fwdA s.arena 0 i) ∧
    (∀ j, j < spine.length →
      fwdA (s.insertNode key value lvl).arena (six spine j) i =
        if i < lvl ∧ gsOf s spine key value i = some j then some s.arena.length
        else fwdA s.arena (six spine j) i) := by
  have hsl1 : 1 ≤ max s.level lvl := le_trans hinv.level_pos (le_max_left _ _)
  have hsl2 : max s.level lvl ≤ MaxLevel := max_le hinv.level_le hlvl2
  obtain ⟨hskel, hlow, hhifwd, hbump, hhispan⟩ :=
    insertNode_arena_spec hinv key value hlvl1 hlvl2
  have hpr := insert_search_spec hinv key value hsl1 hsl2
  have hprev1 : (setSearchDown s.arena key value (max s.level lvl - 1) 0 0).getD
      i (0, 0) = (sixO spine (gsOf s spine key value i),
        rankO (gsOf s spine key value i)) := hpr i hisl
  have hprevlt : sixO spine (gsOf s spine key value i) < s.arena.length := by
    cases hg : gsOf s spine key value i with
    | none => exact hinv.arena_pos
    | some j =>
      obtain ⟨h1, _, _, _⟩ := gs_some_facts hg
      exact hinv.six_lt h1
  have hprevfwd : fwdA (s.arena ++ [NewNode key value lvl])
      (sixO spine (gsOf s spine key value i)) i =
        Option.map (six spine)
          (tstep (lvlsOf s.arena spine) i (gsOf s spine key value i)) := by
    rw [fwdA_append_left hprevlt]
    exact hinv.fwd_ok i hiM _ partO_gs
  refine ⟨?_, ?_, ?_⟩
  · rcases Decidable.em (i < lvl) with hil | hil
    · rw [if_pos hil, (hlow i hil s.arena.length).1]
      unfold spliceFwd
      dsimp only
      rw [hprev1]
      dsimp only
      rw [if_pos rfl]
      exact hprevfwd
    · rw [if_neg hil, hhifwd i (by omega) s.arena.length]
      exact fwdA_newNode ..
  · rcases Decidable.em (i < lvl) with hil | hil
    · rw [(hlow i hil 0).1]
      unfold spliceFwd
      dsimp only
      rw [hprev1]
      dsimp only
      have h0new : ¬ (0 : Nat) = s.arena.length := by
        have := hinv.arena_pos; omega
      rw [if_neg h0new]
      cases hg : gsOf s spine key value i with
      | none =>
        rw [if_pos (by simp [sixO]), if_pos ⟨hil, rfl⟩]
      | some j =>
        obtain ⟨h1, _, _, _⟩ := gs_some_facts hg
        have : ¬ (0 : Nat) = sixO spine (some j) := by
          simp only [sixO]
          have := hinv.six_pos h1
          omega
        rw [if_neg this, if_neg (by rintro ⟨_, h⟩; cases h)]
        exact fwdA_append_left hinv.arena_pos i
    · rw [hhifwd i (by omega) 0,
        if_neg (by rintro ⟨h, _⟩; exact hil h)]
      exact fwdA_append_left hinv.arena_pos i
  · intro j hj
    rcases Decidable.em (i < lvl) with hil | hil
    · rw [(hlow i hil (six spine j)).1]
      unfold spliceFwd
      dsimp only
      rw [hprev1]
      dsimp only
      have hjnew : ¬ six spine j = s.arena.length := by
        have := hinv.six_lt hj; omega
      rw [if_neg hjnew]
      cases hg : gsOf s spine key value i with
      | none =>
        have : ¬ six spine j = sixO spine none := by
          simp only [sixO]
          have := hinv.six_pos hj
          omega
        rw [if_neg this, if_neg (by rintro ⟨_, h⟩; cases h)]
        exact fwdA_append_left (hinv.six_lt hj) i
      | some j0 =>
        obtain ⟨h1, _, _, _⟩ := gs_some_facts hg
        rcases Decidable.em (j = j0) with hjj | hjj
        · subst hjj
          rw [if_pos (by simp [sixO]), if_pos ⟨hil, rfl⟩]
        · have : ¬ six spine j = sixO spine (some j0) := by
            simp only [sixO]
            intro h
            exact hjj (hinv.six_inj hj h1 h)
          rw [if_neg this,
            if_neg (by rintro ⟨_, h⟩; injection h with h; exact hjj h.symm)]
          exact fwdA_append_left (hinv.six_lt hj) i
    · rw [hhifwd i (by omega) (six spine j),
        if_neg (by rintro ⟨h, _⟩; exact hil h)]
      exact fwdA_append_left (hinv.six_lt hj) i

/-- Span reads of the arena after `insertNode`: the new node's spans, and the
spans of old live nodes (only the node downstream of the tier's insertion
point changes). -/
theorem insertNode_span_reads {s : RankList K V} {spine : List Nat}
    (hinv : Inv s spine) (key : K) (value : V) {lvl : Nat}
    (hlvl1 : 1 ≤ lvl) (hlvl2 : lvl ≤ MaxLevel) {i : Nat} (hiM : i < MaxLevel)
    (hisl : i ≤ max s.level lvl - 1) :
    (spanA (s.insertNode key value lvl).arena s.arena.length i =
      if i = 0 then (if 0 < lvl then 1 else 0)
      else if i < lvl then
        (insPos s spine key value : Int) - rankO (gsOf s spine key value i) + 1
      else 0) ∧
    (∀ b, b < spine.length →
      spanA (s.insertNode key value lvl).arena (six spine b) i =
        if tstep (lvlsOf s.arena spine) i (gsOf s spine key value i) = some b then
          (if 0 < i ∧ i < lvl then
            spanA s.arena (six spine b) i -
              ((insPos s spine key value : Int) -
                rankO (gsOf s spine key value i) + 1) + 1
          else if lvl ≤ i ∧ i < max s.level lvl then
            spanA s.arena (six spine b) i + 1
          else spanA s.arena (six spine b) i)
        else spanA s.arena (six spine b) i) := by
  have hsl1 : 1 ≤ max s.level lvl := le_trans hinv.level_pos (le_max_left _ _)
  have hsl2 : max s.level lvl ≤ MaxLevel := max_le hinv.level_le hlvl2
  obtain ⟨hskel, hlow, hhifwd, hbump, hhispan⟩ :=
    insertNode_arena_spec hinv key value hlvl1 hlvl2
  have hpr := insert_search_spec hinv key value hsl1 hsl2
  have hprev1 : (setSearchDown s.arena key value (max s.level lvl - 1) 0 0).getD
      i (0, 0) = (sixO spine (gsOf s spine key value i),
        rankO (gsOf s spine key value i)) := hpr i hisl
  have hprev0 : (setSearchDown s.arena key value (max s.level lvl - 1) 0 0).getD
      0 (0, 0) = (sixO spine (gsOf s spine key value 0),
        rankO (gsOf s spine key value 0)) := hpr 0 (by omega)
  have hprevlt : sixO spine (gsOf s spine key value i) < s.arena.length := by
    cases hg : gsOf s spine key value i with
    | none => exact hinv.arena_pos
    | some j =>
      obtain ⟨h1, _, _, _⟩ := gs_some_facts hg
      exact hinv.six_lt h1
  have hprevfwd : fwdA (s.arena ++ [NewNode key value lvl])
      (sixO spine (gsOf s spine key value i)) i =
        Option.map (six spine)
          (tstep (lvlsOf s.arena spine) i (gsOf s spine key value i)) := by
    rw [fwdA_append_left hprevlt]
    exact hinv.fwd_ok i hiM _ partO_gs
  have hrank0 : ((setSearchDown s.arena key value
      (max s.level lvl - 1) 0 0).getD 0 (0, 0)).2 =
      (insPos s spine key value : Int) := by
    rw [hprev0]
    dsimp only
    rw [rankO_eq_startO]
    rfl
  refine ⟨?_, ?_⟩
  · rcases Decidable.em (i = 0) with hi0 | hi0
    · subst hi0
      rw [if_pos rfl]
      have h0lvl : 0 < lvl := by omega
      rw [if_pos h0lvl, (hlow 0 h0lvl s.arena.length).2]
      unfold spliceSpan
      dsimp only
      rw [if_pos rfl, if_pos rfl]
    · rw [if_neg hi0]
      rcases Decidable.em (i < lvl) with hil | hil
      · rw [if_pos hil, (hlow i hil s.arena.length).2]
        unfold spliceSpan
        dsimp only
        rw [if_pos rfl, if_neg hi0, hrank0, hprev1]
      · rw [if_neg hil]
        rcases Decidable.em (i < max s.level lvl) with hisl2 | hisl2
        · rw [hbump i (by omega) hisl2 s.arena.length]
          unfold bumpSpan
          dsimp only
          rw [hprev1]
          dsimp only
          have : ¬ fwdA (s.arena ++ [NewNode key value lvl])
              (sixO spine (gsOf s spine key value i)) i = some s.arena.length := by
            rw [hprevfwd]
            intro h
            rcases Option.map_eq_some'.mp h with ⟨b, hb, hbe⟩
            obtain ⟨_, hbn, _, _⟩ := tstep_eq_some_iff.mp hb
            rw [Inv.lvls_length] at hbn
            have := hinv.six_lt hbn
            omega
          rw [if_neg this]
          exact spanA_newNode ..
        · rw [hhispan i (by omega) s.arena.length]
          exact spanA_newNode ..
  · intro b hb
    have hbnew : ¬ six spine b = s.arena.length := by
      have := hinv.six_lt hb; omega
    have hfwd_tst : fwdA (s.arena ++ [NewNode key value lvl])
        (sixO spine (gsOf s spine key value i)) i = some (six spine b) ↔
          tstep (lvlsOf s.arena spine) i (gsOf s spine key value i) = some b := by
      rw [hprevfwd]
      constructor
      · intro h
        rcases Option.map_eq_some'.mp h with ⟨b', hb', hbe⟩
        obtain ⟨_, hbn', _, _⟩ := tstep_eq_some_iff.mp hb'
        rw [Inv.lvls_length] at hbn'
        have : b' = b := hinv.six_inj hbn' hb hbe
        rwa [this] at hb'
      · intro h
        rw [h]
        rfl
    rcases Decidable.em (i < lvl) with hil | hil
    · rw [(hlow i hil (six spine b)).2]
      unfold spliceSpan
      dsimp only
      rw [hprev1]
      dsimp only
      rw [if_neg hbnew]
      rcases Decidable.em (i = 0) with hi0 | hi0
      · subst hi0
        rw [if_neg (by rintro ⟨h, _⟩; exact h rfl)]
        rw [spanA_append_left (hinv.six_lt hb)]
        rcases Decidable.em (tstep (lvlsOf s.arena spine) 0
            (gsOf s spine key value 0) = some b) with ht | ht
        · rw [if_pos ht,
            if_neg (by rintro ⟨h, _⟩; exact absurd h (lt_irrefl 0)),
            if_neg (by rintro ⟨h, _⟩; omega)]
        · rw [if_neg ht]
      · have hsp : ¬ (0 : Nat) = 0 → True := fun _ => trivial
        rw [if_neg hi0]
        rcases Decidable.em (tstep (lvlsOf s.arena spine) i
            (gsOf s spine key value i) = some b) with ht | ht
        · rw [if_pos ⟨hi0, hfwd_tst.mpr ht⟩, if_pos ht,
            if_pos ⟨by omega, hil⟩, hrank0,
            spanA_append_left (hinv.six_lt hb)]
        · rw [if_neg (by rintro ⟨_, h⟩; exact ht (hfwd_tst.mp h)), if_neg ht,
            spanA_append_left (hinv.six_lt hb)]
    · rcases Decidable.em (i < max s.level lvl) with hisl2 | hisl2
      · rw [hbump i (by omega) hisl2 (six spine b)]
        unfold bumpSpan
        dsimp only
        rw [hprev1]
        dsimp only
        rcases Decidable.em (tstep (lvlsOf s.arena spine) i
            (gsOf s spine key value i) = some b) with ht | ht
        · rw [if_pos (hfwd_tst.mpr ht), if_pos ht,
            if_neg (by rintro ⟨_, h⟩; exact hil h),
            if_pos ⟨by omega, hisl2⟩, spanA_append_left (hinv.six_lt hb)]
        · rw [if_neg (fun h => ht (hfwd_tst.mp h)), if_neg ht,
            spanA_append_left (hinv.six_lt hb)]
      · rw [hhispan i (by omega) (six spine b),
          spanA_append_left (hinv.six_lt hb)]
        have ht : ¬ tstep (lvlsOf s.arena spine) i
            (gsOf s spine key value i) = some b := by
          intro h
          obtain ⟨_, hbn', hbl', _⟩ := tstep_eq_some_iff.mp h
          rw [Inv.lvls_length] at hbn'
          have := hinv.lvl_le_getD hbn'
          omega
        rw [if_neg ht]

/-- A position that is a tier-`i` participant (or the header), lies below the
insertion position, and has no tier-`i` participant between it and the
insertion position, is exactly the search stop `gsOf`. -/
theorem gs_unique {s : RankList K V} {spine : List Nat} {key : K} {value : V}
    (hinv : Inv s spine)
    (hfreshk : ∀ j < spine.length,
      ((entsOf s.arena spine).getD j default).1 ≠ key)
    {i : Nat} {a : Option Nat}
    (ha : match a with
      | none => True
      | some j => j < spine.length ∧ i < (lvlsOf s.arena spine).getD j 0 ∧
          j < insPos s spine key value)
    (hno : ∀ c, startO a ≤ c → c < insPos s spine key value →
      ¬ i < (lvlsOf s.arena spine).getD c 0) :
    a = gsOf s spine key value i := by
  have hEp := insPos_iff (k := key) (v := value) hinv hfreshk
  cases a with
  | none =>
    cases hg : gsOf s spine key value i with
    | none => rfl
    | some j0 =>
      obtain ⟨h1, h2, h3, _⟩ := gs_some_facts hg
      have hj0p : j0 < insPos s spine key value := (hEp j0 h1).mpr h3
      exact absurd h2 (hno j0 (by simp [startO]) hj0p)
  | some j =>
    obtain ⟨hjn, hjl, hjp⟩ := ha
    cases hg : gsOf s spine key value i with
    | none =>
      have hall := gs_none_facts hg
      exact absurd ⟨hjl, (hEp j hjn).mp hjp⟩ (hall j hjn)
    | some j0 =>
      obtain ⟨h1, h2, h3, h4⟩ := gs_some_facts hg
      have hj0p : j0 < insPos s spine key value := (hEp j0 h1).mpr h3
      rcases lt_trichotomy j j0 with hlt | heq | hgt
      · exact absurd h2 (hno j0 (by simp [startO]; omega) hj0p)
      · rw [heq]
      · exact absurd ⟨hjl, (hEp j hjn).mp hjp⟩ (h4 j hgt hjn)

theorem dictGet_cons_self {d : List (K × V)} {k : K} {v : V} :
    dictGet ((k, v) :: d) k = some v := by
  unfold dictGet
  rw [List.find?_cons_of_pos _ (by simp)]
  rfl

theorem dictGet_cons_ne {d : List (K × V)} {k k' : K} {v : V} (h : k' ≠ k) :
    dictGet ((k, v) :: d) k' = dictGet d k' := by
  unfold dictGet
  rw [List.find?_cons_of_neg _ (by simp; exact fun hh => h hh.symm)]

theorem dictGet_dictDel_ne {d : List (K × V)} {k k' : K} (h : k' ≠ k) :
    dictGet (dictDel d k) k' = dictGet d k' := by
  induction d with
  | nil => rfl
  | cons e d ih =>
    unfold dictDel
    rw [List.filter_cons]
    rcases Decidable.em (e.1 = k) with he | he
    · rw [if_neg (by simp [he])]
      unfold dictGet
      rw [List.find?_cons_of_neg _ (by simp; intro hh; rw [hh] at he; exact h he)]
      exact ih
    · rw [if_pos (by simp [he])]
      rcases Decidable.em (e.1 = k') with he' | he'
      · unfold dictGet
        rw [List.find?_cons_of_pos _ (by simp [he']),
          List.find?_cons_of_pos _ (by simp [he'])]

      · unfold dictGet
        rw [List.find?_cons_of_neg _ (by simp [he']),
          List.find?_cons_of_neg _ (by simp [he'])]
        exact ih

/-- Abstraction of the state after `insertNode`: levels and entries are the
old ones with the new node's level/entry inserted at the insertion
position. -/
theorem insertNode_abstr {s : RankList K V} {spine : List Nat}
    (hinv : Inv s spine) (key : K) (value : V) {lvl : Nat}
    (hlvl1 : 1 ≤ lvl) (hlvl2 : lvl ≤ MaxLevel) {p : Nat}
    (hp : p ≤ spine.length) :
    lvlsOf (s.insertNode key value lvl).arena
        (spine.insertIdx p s.arena.length) =
      (lvlsOf s.arena spine).insertIdx p lvl ∧
    entsOf (s.insertNode key value lvl).arena
        (spine.insertIdx p s.arena.length) =
      (entsOf s.arena spine).insertIdx p (key, value) := by
  obtain ⟨hskel, _, _, _, _⟩ := insertNode_arena_spec hinv key value hlvl1 hlvl2
  constructor
  · unfold lvlsOf
    rw [map_insertIdx _ p spine _ hp]
    have h1 : spine.map
        (fun ix => (nodeA (s.insertNode key value lvl).arena ix).level) =
        lvlsOf s.arena spine := by
      unfold lvlsOf
      apply List.map_congr_left
      intro ix hix
      rw [(hskel.2 ix).2.1, nodeA_append_left (hinv.spine_lt ix hix)]
    have h2 : (nodeA (s.insertNode key value lvl).arena s.arena.length).level =
        lvl := by
      rw [(hskel.2 s.arena.length).2.1, nodeA_append_self]
      rfl
    rw [h1, h2]
    rfl
  · unfold entsOf
    rw [map_insertIdx _ p spine _ hp]
    have h1 : spine.map (fun ix =>
        ((nodeA (s.insertNode key value lvl).arena ix).data.key,
          (nodeA (s.insertNode key value lvl).arena ix).data.value)) =
        entsOf s.arena spine := by
      unfold entsOf
      apply List.map_congr_left
      intro ix hix
      rw [(hskel.2 ix).1, nodeA_append_left (hinv.spine_lt ix hix)]
    have h2 : ((nodeA (s.insertNode key value lvl).arena s.arena.length).data.key,
        (nodeA (s.insertNode key value lvl).arena s.arena.length).data.value) =
        (key, value) := by
      rw [(hskel.2 s.arena.length).1, nodeA_append_self]
      rfl
    rw [h1, h2]
    rfl

/-- Common context for the insertion proof, packaged to avoid repetition. -/
theorem insert_ctx {s : RankList K V} {spine : List Nat}
    (hinv : Inv s spine) {k : K} {v : V}
    (hfresh : dictGet s.dict k = none) :
    (∀ j < spine.length,
      ((entsOf s.arena spine).getD j default).1 ≠ k) ∧
    (∀ j < spine.length, j < insPos s spine k v →
      entLt ((entsOf s.arena spine).getD j default) (k, v)) ∧
    (∀ j < spine.length, insPos s spine k v ≤ j →
      entLt (k, v) ((entsOf s.arena spine).getD j default)) := by
  have hdictE : dictGet (entsOf s.arena spine) k = none := by
    rw [← hinv.dict_ok k]; exact hfresh
  have hfreshE : ∀ e ∈ entsOf s.arena spine, e.1 ≠ k := by
    intro e he
    have hfind : (entsOf s.arena spine).find?
        (fun e => decide (e.1 = k)) = none := by
      unfold dictGet at hdictE
      exact Option.map_eq_none'.mp hdictE
    have := List.find?_eq_none.mp hfind e he
    simpa using this
  have hfreshk : ∀ j < spine.length,
      ((entsOf s.arena spine).getD j default).1 ≠ k := by
    intro j hj
    apply hfreshE
    have hjE : j < (entsOf s.arena spine).length := by
      rw [Inv.ents_length]; exact hj
    rw [List.getD_eq_getElem?_getD, List.getElem?_eq_getElem hjE]
    exact List.getElem_mem hjE
  have hEp := insPos_iff (k := k) (v := v) hinv hfreshk
  refine ⟨hfreshk, ?_, ?_⟩
  · intro j hj hjp
    have h1 := (hEp j hj).mp hjp
    rcases entLt_trichotomy ((entsOf s.arena spine).getD j default)
      (k, v) with h | h | h
    · exact h
    · exact absurd (congrArg Prod.fst h) (hfreshk j hj)
    · exact absurd h h1
  · intro j hj hjp
    by_contra h
    have := (hEp j hj).mpr h
    omega

theorem insertNode_fwd_ok {s : RankList K V} {spine : List Nat}
    (hinv : Inv s spine) {key : K} {value : V} {lvl : Nat}
    (hfresh : dictGet s.dict key = none) (hlvl1 : 1 ≤ lvl)
    (hlvl2 : lvl ≤ MaxLevel) :
    ∀ i < MaxLevel, ∀ a,
      partO ((lvlsOf s.arena spine).insertIdx (insPos s spine key value) lvl)
        i a →
      fwdA (s.insertNode key value lvl).arena
          (sixO (spine.insertIdx (insPos s spine key value) s.arena.length) a)
          i =
        Option.map (six (spine.insertIdx (insPos s spine key value)
            s.arena.length))
          (tstep ((lvlsOf s.arena spine).insertIdx (insPos s spine key value)
            lvl) i a) := by
  obtain ⟨hfreshk, hEbelow, hEabove⟩ :=
    insert_ctx (k := key) (v := value) hinv hfresh
  have hp := insPos_le (s := s) (w := spine) (k := key) (v := value)
  have hLlen : (lvlsOf s.arena spine).length = spine.length := Inv.lvls_length
  have hpL : insPos s spine key value ≤ (lvlsOf s.arena spine).length := by
    rw [hLlen]; exact hp
  have hslevel1 : 1 ≤ max s.level lvl :=
    le_trans hinv.level_pos (le_max_left _ _)
  have hslevel2 : max s.level lvl ≤ MaxLevel := max_le hinv.level_le hlvl2
  obtain ⟨hskel, _, hhifwd, _, _⟩ :=
    insertNode_arena_spec hinv key value hlvl1 hlvl2
  intro i hiM a ha
  rcases Decidable.em (i ≤ max s.level lvl - 1) with hisl | hisl
  · -- the read lemma applies
    obtain ⟨hRnew, hRhdr, hRnode⟩ :=
      insertNode_fwd_reads hinv key value hlvl1 hlvl2 hiM hisl
    obtain ⟨hGb1, hGb2⟩ := gs_below_insPos (v := value) hinv hfreshk i
    cases a with
    | none =>
      -- header
      rw [show sixO (spine.insertIdx (insPos s spine key value)
          s.arena.length) none = 0 from rfl]
      rw [hRhdr]
      rcases Decidable.em (i < lvl ∧ gsOf s spine key value i = none) with hcase | hcase
      · obtain ⟨hil, hgnone⟩ := hcase
        rw [if_pos ⟨hil, hgnone⟩]
        have hno : ∀ c, 0 ≤ c → c < insPos s spine key value →
            ¬ i < (lvlsOf s.arena spine).getD c 0 := by
          intro c hc hcp
          apply hGb2
          · rw [hgnone]; simp [startO]
          · exact hcp
        have htt : tstep ((lvlsOf s.arena spine).insertIdx
            (insPos s spine key value) lvl) i none =
            some (insPos s spine key value) := by
          rw [tstep_eq_tfrom]
          exact tfrom_insertIdx_hit hpL hil (by simp [startO])
            (fun c hc hcp => hno c hc hcp)
        rw [htt]
        simp only [Option.map_some']
        rw [six_insertIdx_self hp]
      · rw [if_neg hcase]
        rw [show fwdA s.arena 0 i = Option.map (six spine)
          (tstep (lvlsOf s.arena spine) i none)
          from hinv.fwd_ok i hiM none trivial]
        rw [tstep_eq_tfrom, tstep_eq_tfrom]
        cases hot : tfrom (lvlsOf s.arena spine) i (startO none) with
        | none =>
          have h1 := tfrom_eq_none_iff.mp hot
          rcases Decidable.em (i < lvl) with hil | hil
          · -- gs i ≠ none is impossible here: no participants at all
            exfalso
            apply hcase
            refine ⟨hil, ?_⟩
            cases hg : gsOf s spine key value i with
            | none => rfl
            | some j0 =>
              obtain ⟨hj1, hj2, _, _⟩ := gs_some_facts hg
              exact absurd hj2 (h1 j0 (by simp [startO]) (by omega))
          · rw [tfrom_insertIdx_cross_none hpL hil (by simp [startO]) hot]
            rfl
        | some b =>
          obtain ⟨hb1, hb2, hb3, hb4⟩ := tfrom_eq_some_iff.mp hot
          rcases Decidable.em (b < insPos s spine key value) with hbp | hbp
          · rw [tfrom_insertIdx_below hpL hot hbp]
            simp only [Option.map_some']
            rw [six_insertIdx_lt hp hbp]
          · rcases Decidable.em (i < lvl) with hil | hil
            · -- there is a participant b ≥ p but none below p, so gs i = none,
              -- contradicting hcase
              exfalso
              apply hcase
              refine ⟨hil, ?_⟩
              cases hg : gsOf s spine key value i with
              | none => rfl
              | some j0 =>
                obtain ⟨hj1, hj2, hj3, _⟩ := gs_some_facts hg
                have hj0p : j0 < insPos s spine key value := by
                  by_contra hh
                  exact hj3 (hEabove j0 hj1 (by omega))
                exact absurd hj2 (hb4 j0 (by simp [startO]) (by omega))
            · rw [tfrom_insertIdx_cross hpL hil (by simp [startO]) hot (by omega)]
              simp only [Option.map_some']
              rw [six_insertIdx_gt hp (by omega), Nat.add_sub_cancel]
    | some j' =>
      obtain ⟨hj'len, hj'l⟩ := ha
      rw [List.length_insertIdx _ _ hpL, hLlen] at hj'len
      rcases lt_trichotomy j' (insPos s spine key value) with hj'p | hj'p | hj'p
      · -- old position below the insertion point
        rw [getD_insertIdx_lt hpL hj'p] at hj'l
        have hj'n : j' < spine.length := by omega
        rw [show sixO (spine.insertIdx (insPos s spine key value)
            s.arena.length) (some j') =
            six (spine.insertIdx (insPos s spine key value) s.arena.length) j'
            from rfl,
          six_insertIdx_lt hp hj'p, hRnode j' hj'n]
        rcases Decidable.em (i < lvl ∧ gsOf s spine key value i = some j')
          with hcase | hcase
        · obtain ⟨hil, hgj⟩ := hcase
          rw [if_pos ⟨hil, hgj⟩]
          have htt : tstep ((lvlsOf s.arena spine).insertIdx
              (insPos s spine key value) lvl) i (some j') =
              some (insPos s spine key value) := by
            rw [tstep_eq_tfrom]
            refine tfrom_insertIdx_hit hpL hil (by simp [startO]; omega) ?_
            intro c hc hcp
            apply hGb2
            · rw [hgj]; simpa [startO] using hc
            · exact hcp
          rw [htt]
          simp only [Option.map_some']
          rw [six_insertIdx_self hp]
        · rw [if_neg hcase]
          rw [show fwdA s.arena (six spine j') i = Option.map (six spine)
            (tstep (lvlsOf s.arena spine) i (some j'))
            from hinv.fwd_ok i hiM (some j') ⟨by rw [hLlen]; omega, hj'l⟩]
          rw [tstep_eq_tfrom, tstep_eq_tfrom]
          cases hot : tfrom (lvlsOf s.arena spine) i (startO (some j')) with
          | none =>
            have h1 := tfrom_eq_none_iff.mp hot
            rcases Decidable.em (i < lvl) with hil | hil
            · exfalso
              apply hcase
              refine ⟨hil, ?_⟩
              symm
              apply gs_unique hinv hfreshk (a := some j')
              · exact ⟨hj'n, hj'l, hj'p⟩
              · intro c hc hcp
                exact h1 c hc (by omega)
            · rw [tfrom_insertIdx_cross_none hpL hil
                (by simp [startO]; omega) hot]
              rfl
          | some b =>
            obtain ⟨hb1, hb2, hb3, hb4⟩ := tfrom_eq_some_iff.mp hot
            rcases Decidable.em (b < insPos s spine key value) with hbp | hbp
            · rw [tfrom_insertIdx_below hpL hot hbp]
              simp only [Option.map_some']
              rw [six_insertIdx_lt hp hbp]
            · rcases Decidable.em (i < lvl) with hil | hil
              · exfalso
                apply hcase
                refine ⟨hil, ?_⟩
                symm
                apply gs_unique hinv hfreshk (a := some j')
                · exact ⟨hj'n, hj'l, hj'p⟩
                · intro c hc hcp
                  exact hb4 c hc (by omega)
              · rw [tfrom_insertIdx_cross hpL hil (by simp [startO]; omega)
                  hot (by omega)]
                simp only [Option.map_some']
                rw [six_insertIdx_gt hp (by omega), Nat.add_sub_cancel]
      · -- the new node itself
        subst hj'p
        rw [getD_insertIdx_self hpL] at hj'l
        rw [show sixO (spine.insertIdx (insPos s spine key value)
            s.arena.length) (some (insPos s spine key value)) =
            six (spine.insertIdx (insPos s spine key value) s.arena.length)
              (insPos s spine key value) from rfl,
          six_insertIdx_self hp, hRnew, if_pos hj'l]
        rw [tstep_eq_tfrom, tstep_eq_tfrom]
        have hcongr : tfrom (lvlsOf s.arena spine) i
            (startO (gsOf s spine key value i)) =
            tfrom (lvlsOf s.arena spine) i (insPos s spine key value) :=
          tfrom_congr hGb1 hGb2
        rw [hcongr]
        have habove := tfrom_insertIdx_above (g := lvl) (i := i) hpL
          (le_refl (insPos s spine key value))
        rw [show startO (some (insPos s spine key value)) =
          insPos s spine key value + 1 from rfl, habove]
        cases hot : tfrom (lvlsOf s.arena spine) i (insPos s spine key value) with
        | none => rfl
        | some b =>
          obtain ⟨hb1, hb2, _, _⟩ := tfrom_eq_some_iff.mp hot
          simp only [Option.map_some']
          rw [six_insertIdx_gt hp (by omega), Nat.add_sub_cancel]
      · -- old position at or above the insertion point, shifted by one
        have hj'n : j' - 1 < spine.length := by omega
        rw [getD_insertIdx_gt hpL hj'p] at hj'l
        rw [show sixO (spine.insertIdx (insPos s spine key value)
            s.arena.length) (some j') =
            six (spine.insertIdx (insPos s spine key value) s.arena.length) j'
            from rfl,
          six_insertIdx_gt hp hj'p, hRnode (j' - 1) hj'n]
        have hnotg : ¬ (i < lvl ∧ gsOf s spine key value i = some (j' - 1)) := by
          rintro ⟨_, hg⟩
          obtain ⟨h1, _, h3, _⟩ := gs_some_facts hg
          exact h3 (hEabove (j' - 1) hj'n (by omega))
        rw [if_neg hnotg]
        rw [show fwdA s.arena (six spine (j' - 1)) i = Option.map (six spine)
          (tstep (lvlsOf s.arena spine) i (some (j' - 1)))
          from hinv.fwd_ok i hiM (some (j' - 1)) ⟨by rw [hLlen]; omega, hj'l⟩]
        rw [tstep_eq_tfrom, tstep_eq_tfrom]
        have hss : startO (some j') = startO (some (j' - 1)) + 1 := by
          simp only [startO]; omega
        rw [hss]
        rw [tfrom_insertIdx_above hpL (by simp only [startO]; omega)]
        cases hot : tfrom (lvlsOf s.arena spine) i (startO (some (j' - 1))) with
        | none => rfl
        | some b =>
          obtain ⟨hb1, hb2, _, _⟩ := tfrom_eq_some_iff.mp hot
          simp only [Option.map_some']
          have hbp : insPos s spine key value ≤ b := by
            simp only [startO] at hb1
            omega
          rw [six_insertIdx_gt hp (by omega), Nat.add_sub_cancel]
  · -- tiers at or above the new level: no participants at all
    have hige : max s.level lvl ≤ i := by omega
    have hnopart : ∀ j < spine.length + 1,
        ¬ i < ((lvlsOf s.arena spine).insertIdx (insPos s spine key value)
          lvl).getD j 0 := by
      intro j hj hcon
      rcases lt_trichotomy j (insPos s spine key value) with hjp | hjp | hjp
      · rw [getD_insertIdx_lt hpL hjp] at hcon
        have := hinv.lvl_le_getD (j := j) (by omega)
        omega
      · subst hjp
        rw [getD_insertIdx_self hpL] at hcon
        omega
      · rw [getD_insertIdx_gt hpL hjp] at hcon
        have := hinv.lvl_le_getD (j := j - 1) (by omega)
        omega
    have hanone : a = none := by
      cases a with
      | none => rfl
      | some j =>
        obtain ⟨hj1, hj2⟩ := ha
        rw [List.length_insertIdx _ _ hpL, hLlen] at hj1
        exact absurd hj2 (hnopart j hj1)
    subst hanone
    have htnone : tstep ((lvlsOf s.arena spine).insertIdx
        (insPos s spine key value) lvl) i none = none := by
      rw [tstep_eq_none_iff]
      intro c hc hcl
      rw [List.length_insertIdx _ _ hpL, hLlen] at hcl
      exact hnopart c hcl
    rw [htnone]
    rw [show sixO (spine.insertIdx (insPos s spine key value)
        s.arena.length) none = 0 from rfl]
    rw [hhifwd i (by omega) 0, fwdA_append_left hinv.arena_pos i,
      show fwdA s.arena 0 i = Option.map (six spine)
        (tstep (lvlsOf s.arena spine) i none)
        from hinv.fwd_ok i hiM none trivial]
    have : tstep (lvlsOf s.arena spine) i none = none := by
      rw [tstep_eq_none_iff]
      intro c hc hcl
      rw [hLlen] at hcl
      intro hcon
      have := hinv.lvl_le_getD (j := c) hcl
      omega
    rw [this]
    rfl

theorem insertNode_span_ok {s : RankList K V} {spine : List Nat}
    (hinv : Inv s spine) {key : K} {value : V} {lvl : Nat}
    (hfresh : dictGet s.dict key = none) (hlvl1 : 1 ≤ lvl)
    (hlvl2 : lvl ≤ MaxLevel) :
    ∀ i < MaxLevel, ∀ a b,
      partO ((lvlsOf s.arena spine).insertIdx (insPos s spine key value) lvl)
        i a →
      tstep ((lvlsOf s.arena spine).insertIdx (insPos s spine key value) lvl)
        i a = some b →
      spanA (s.insertNode key value lvl).arena
          (six (spine.insertIdx (insPos s spine key value) s.arena.length) b)
          i =
        ((b : Int) + 1) - rankO a := by
  obtain ⟨hfreshk, hEbelow, hEabove⟩ :=
    insert_ctx (k := key) (v := value) hinv hfresh
  have hp := insPos_le (s := s) (w := spine) (k := key) (v := value)
  have hLlen : (lvlsOf s.arena spine).length = spine.length := Inv.lvls_length
  have hpL : insPos s spine key value ≤ (lvlsOf s.arena spine).length := by
    rw [hLlen]; exact hp
  have hslevel1 : 1 ≤ max s.level lvl :=
    le_trans hinv.level_pos (le_max_left _ _)
  have hslevel2 : max s.level lvl ≤ MaxLevel := max_le hinv.level_le hlvl2
  have hrgs0 : rankO (gsOf s spine key value 0) =
      (insPos s spine key value : Int) := by
    rw [rankO_eq_startO]
    rfl
  intro i hiM a b ha htst
  obtain ⟨h1, h2, h3, h4⟩ := tstep_eq_some_iff.mp htst
  rw [List.length_insertIdx _ _ hpL, hLlen] at h2
  have hisl : i ≤ max s.level lvl - 1 := by
    rcases lt_trichotomy b (insPos s spine key value) with hbp | hbp | hbp
    · rw [getD_insertIdx_lt hpL hbp] at h3
      have := hinv.lvl_le_getD (j := b) (by omega)
      omega
    · subst hbp
      rw [getD_insertIdx_self hpL] at h3
      omega
    · rw [getD_insertIdx_gt hpL hbp] at h3
      have := hinv.lvl_le_getD (j := b - 1) (by omega)
      omega
  obtain ⟨hSnew, hSnode⟩ :=
    insertNode_span_reads hinv key value hlvl1 hlvl2 hiM hisl
  obtain ⟨hGb1, hGb2⟩ := gs_below_insPos (v := value) hinv hfreshk i
  rcases lt_trichotomy b (insPos s spine key value) with hbp | hbp | hbp
  · -- b below the insertion point: nothing changed
    have hbn : b < spine.length := by omega
    rw [getD_insertIdx_lt hpL hbp] at h3
    have hpartold : partO (lvlsOf s.arena spine) i a := by
      cases a with
      | none => trivial
      | some j' =>
        obtain ⟨hj1, hj2⟩ := ha
        have hj'b : j' < b := by simp only [startO] at h1; omega
        rw [getD_insertIdx_lt hpL (by omega)] at hj2
        exact ⟨by rw [hLlen]; omega, hj2⟩
    have htold : tstep (lvlsOf s.arena spine) i a = some b := by
      rw [tstep_eq_tfrom]
      rw [tstep_eq_tfrom] at htst
      exact tfrom_insertIdx_below_inv hpL htst hbp
    have hold := hinv.span_ok i hiM a b hpartold htold
    have hgs_ne : ¬ tstep (lvlsOf s.arena spine) i
        (gsOf s spine key value i) = some b := by
      intro h
      obtain ⟨hg1, _, hg3, _⟩ := tstep_eq_some_iff.mp h
      exact hGb2 b hg1 hbp hg3
    rw [six_insertIdx_lt hp hbp, hSnode b hbn, if_neg hgs_ne]
    exact hold
  · -- b is the new node
    subst hbp
    rw [getD_insertIdx_self hpL] at h3
    have hags : a = gsOf s spine key value i := by
      apply gs_unique hinv hfreshk
      · cases a with
        | none => trivial
        | some j' =>
          obtain ⟨hj1, hj2⟩ := ha
          have hj'p : j' < insPos s spine key value := by
            simp only [startO] at h1; omega
          rw [getD_insertIdx_lt hpL hj'p] at hj2
          exact ⟨by omega, hj2, hj'p⟩
      · intro c hc hcp
        have := h4 c hc hcp
        rwa [getD_insertIdx_lt hpL hcp] at this
    rw [six_insertIdx_self hp, hSnew]
    rcases Decidable.em (i = 0) with hi0 | hi0
    · subst hi0
      rw [if_pos rfl, if_pos (by omega)]
      rw [hags, hrgs0]
      omega
    · rw [if_neg hi0, if_pos h3, hags]
      omega
  · -- b above the insertion point
    have hbo : b - 1 < spine.length := by omega
    rw [getD_insertIdx_gt hpL hbp] at h3
    rw [six_insertIdx_gt hp hbp]
    cases a with
    | some j' =>
      rcases lt_trichotomy j' (insPos s spine key value) with hj'p | hj'p | hj'p
      · -- a below, b above: the tier skips the new node, so i ≥ lvl (bump)
        rw [tstep_eq_tfrom] at htst
        obtain ⟨hnl, htold'⟩ := tfrom_insertIdx_cross_inv hpL
          (by simp only [startO]; omega) htst hbp
        have hags : some j' = gsOf s spine key value i := by
          apply gs_unique hinv hfreshk
          · obtain ⟨hj1, hj2⟩ := ha
            rw [getD_insertIdx_lt hpL hj'p] at hj2
            exact ⟨by omega, hj2, hj'p⟩
          · intro c hc hcp
            have := h4 c hc (by omega)
            rwa [getD_insertIdx_lt hpL hcp] at this
        have htold : tstep (lvlsOf s.arena spine) i (some j') = some (b - 1) := by
          rw [tstep_eq_tfrom]
          exact htold'
        have hpartold : partO (lvlsOf s.arena spine) i (some j') := by
          obtain ⟨hj1, hj2⟩ := ha
          rw [getD_insertIdx_lt hpL hj'p] at hj2
          exact ⟨by rw [hLlen]; omega, hj2⟩
        have hold := hinv.span_ok i hiM (some j') (b - 1) hpartold htold
        rw [hSnode (b - 1) hbo, if_pos (by rw [← hags]; exact htold),
          if_neg (by rintro ⟨_, h⟩; exact hnl h),
          if_pos ⟨by omega, by omega⟩, hold]
        have : ((b - 1 : Nat) : Int) = (b : Int) - 1 := by omega
        rw [this]
        ring
      · -- a is the new node
        subst hj'p
        obtain ⟨hj1, hj2⟩ := ha
        rw [getD_insertIdx_self hpL] at hj2
        rw [tstep_eq_tfrom] at htst
        rw [show startO (some (insPos s spine key value)) =
          insPos s spine key value + 1 from rfl] at htst
        rw [tfrom_insertIdx_above (g := lvl) (i := i) hpL (le_refl _)] at htst
        have htp : tfrom (lvlsOf s.arena spine) i (insPos s spine key value) =
            some (b - 1) := by
          cases hx : tfrom (lvlsOf s.arena spine) i (insPos s spine key value) with
          | none => rw [hx] at htst; cases htst
          | some x =>
            rw [hx] at htst
            simp only [Option.map_some'] at htst
            injection htst with htst
            congr
            omega
        have hgs_b : tstep (lvlsOf s.arena spine) i
            (gsOf s spine key value i) = some (b - 1) := by
          rw [tstep_eq_tfrom, tfrom_congr hGb1 hGb2]
          exact htp
        have hold := hinv.span_ok i hiM (gsOf s spine key value i) (b - 1)
          partO_gs hgs_b
        rw [hSnode (b - 1) hbo, if_pos hgs_b]
        rcases Decidable.em (i = 0) with hi0 | hi0
        · subst hi0
          rw [if_neg (by rintro ⟨h, _⟩; exact absurd h (lt_irrefl 0)),
            if_neg (by rintro ⟨h, _⟩; omega), hold, hrgs0]
          have : ((b - 1 : Nat) : Int) = (b : Int) - 1 := by omega
          rw [this]
          simp only [rankO]
          omega
        · rw [if_pos ⟨by omega, hj2⟩, hold]
          have : ((b - 1 : Nat) : Int) = (b : Int) - 1 := by omega
          rw [this]
          simp only [rankO]
          omega
      · -- both a and b above the insertion point
        have hjo : j' - 1 < spine.length := by
          simp only [startO] at h1; omega
        obtain ⟨hj1, hj2⟩ := ha
        rw [getD_insertIdx_gt hpL hj'p] at hj2
        rw [tstep_eq_tfrom] at htst
        rw [show startO (some j') = (j' - 1) + 1 + 1 by
          simp only [startO]; omega] at htst
        rw [tfrom_insertIdx_above (g := lvl) (i := i) hpL (by omega)] at htst
        have htold : tstep (lvlsOf s.arena spine) i (some (j' - 1)) =
            some (b - 1) := by
          rw [tstep_eq_tfrom]
          cases hx : tfrom (lvlsOf s.arena spine) i ((j' - 1) + 1) with
          | none => rw [hx] at htst; cases htst
          | some x =>
            rw [hx] at htst
            simp only [Option.map_some'] at htst
            injection htst with htst
            have : x = b - 1 := by omega
            rw [show startO (some (j' - 1)) = (j' - 1) + 1 from rfl, ← this]
            exact hx
        have hold := hinv.span_ok i hiM (some (j' - 1)) (b - 1)
          ⟨by rw [hLlen]; omega, hj2⟩ htold
        have hgs_ne : ¬ tstep (lvlsOf s.arena spine) i
            (gsOf s spine key value i) = some (b - 1) := by
          intro h
          obtain ⟨hg1, _, _, hg4⟩ := tstep_eq_some_iff.mp h
          obtain ⟨hgt1, hgt2, hgt3, hgt4⟩ := tstep_eq_some_iff.mp htold
          have hstart : startO (gsOf s spine key value i) ≤ j' - 1 := by
            have := hGb1
            omega
          exact hg4 (j' - 1) hstart (by simp only [startO] at hgt1; omega) hj2
        rw [hSnode (b - 1) hbo, if_neg hgs_ne, hold]
        have hb1 : ((b - 1 : Nat) : Int) = (b : Int) - 1 := by omega
        rw [hb1]
        simp only [rankO]
        have : ((j' - 1 : Nat) : Int) = (j' : Int) - 1 := by
          simp only [startO] at h1
          omega
        rw [this]
        ring
    | none =>
      -- header start, b above: tier skips the new node, so i ≥ lvl
      rw [tstep_eq_tfrom] at htst
      obtain ⟨hnl, htold'⟩ := tfrom_insertIdx_cross_inv hpL
        (by simp [startO]) htst hbp
      have hags : (none : Option Nat) = gsOf s spine key value i := by
        apply gs_unique hinv hfreshk
        · trivial
        · intro c hc hcp
          have := h4 c hc (by omega)
          rwa [getD_insertIdx_lt hpL hcp] at this
      have htold : tstep (lvlsOf s.arena spine) i none = some (b - 1) := by
        rw [tstep_eq_tfrom]
        exact htold'
      have hold := hinv.span_ok i hiM none (b - 1) trivial htold
      rw [hSnode (b - 1) hbo, if_pos (by rw [← hags]; exact htold),
        if_neg (by rintro ⟨_, h⟩; exact hnl h),
        if_pos ⟨by omega, by omega⟩, hold]
      have : ((b - 1 : Nat) : Int) = (b : Int) - 1 := by omega
      rw [this]
      ring

theorem pairwise_insertIdx {α : Type} {R : α → α → Prop} {l : List α}
    {p : Nat} {x : α} (hp : p ≤ l.length) (hl : l.Pairwise R)
    (hlo : ∀ j, j < l.length → j < p → R (l.getD j x) x)
    (hhi : ∀ j, j < l.length → p ≤ j → R x (l.getD j x)) :
    (l.insertIdx p x).Pairwise R := by
  rw [List.pairwise_iff_getElem] at hl ⊢
  intro i j hi hj hij
  rw [List.length_insertIdx _ _ hp] at hi hj
  have hgl : ∀ m, (hm : m < l.length) → l[m] = l.getD m x := by
    intro m hm
    rw [List.getD_eq_getElem?_getD, List.getElem?_eq_getElem hm]
    rfl
  have hgi : ∀ m, (hm : m < (l.insertIdx p x).length) →
      (l.insertIdx p x)[m] = (l.insertIdx p x).getD m x := by
    intro m hm
    rw [List.getD_eq_getElem?_getD, List.getElem?_eq_getElem hm]
    rfl
  rw [hgi i (by rw [List.length_insertIdx _ _ hp]; omega),
    hgi j (by rw [List.length_insertIdx _ _ hp]; omega)]
  rcases lt_trichotomy j p with hjp | hjp | hjp
  · rw [getD_insertIdx_lt hp hjp, getD_insertIdx_lt hp (by omega)]
    have h := hl i j (by omega) (by omega) hij
    rwa [hgl i (by omega), hgl j (by omega)] at h
  · subst hjp
    rw [getD_insertIdx_self hp, getD_insertIdx_lt hp hij]
    exact hlo i (by omega) hij
  · rw [getD_insertIdx_gt hp hjp]
    rcases lt_trichotomy i p with hip | hip | hip
    · rw [getD_insertIdx_lt hp hip]
      have h := hl i (j - 1) (by omega) (by omega) (by omega)
      rwa [hgl i (by omega), hgl (j - 1) (by omega)] at h
    · subst hip
      rw [getD_insertIdx_self hp]
      exact hhi (j - 1) (by omega) (by omega)
    · rw [getD_insertIdx_gt hp hip]
      have h := hl (i - 1) (j - 1) (by omega) (by omega) (by omega)
      rwa [hgl (i - 1) (by omega), hgl (j - 1) (by omega)] at h

/-- `insertNode` preserves the coupling invariant when the key is absent:
the new spine is the old one with the fresh arena index inserted at the
insertion position. -/
theorem insertNode_preserves {s : RankList K V} {spine : List Nat}
    (hinv : Inv s spine) {key : K} {value : V} {lvl : Nat}
    (hfresh : dictGet s.dict key = none) (hlvl1 : 1 ≤ lvl)
    (hlvl2 : lvl ≤ MaxLevel) :
    Inv (s.insertNode key value lvl)
      (spine.insertIdx (insPos s spine key value) s.arena.length) := by
  obtain ⟨hfreshk, hEbelow, hEabove⟩ :=
    insert_ctx (k := key) (v := value) hinv hfresh
  have hp := insPos_le (s := s) (w := spine) (k := key) (v := value)
  obtain ⟨hskel, _, _, _, _⟩ := insertNode_arena_spec hinv key value hlvl1 hlvl2
  obtain ⟨hLab, hEab⟩ := insertNode_abstr hinv key value hlvl1 hlvl2 hp
  have hFlen : (s.insertNode key value lvl).arena.length =
      s.arena.length + 1 := by
    rw [hskel.1, List.length_append, List.length_cons, List.length_nil]
  have hmemS : ∀ j, j ∈ spine.insertIdx (insPos s spine key value)
      s.arena.length ↔ j = s.arena.length ∨ j ∈ spine := by
    intro j
    rw [(List.perm_insertIdx _ _ hp).mem_iff, List.mem_cons]
  have hmemL : ∀ q, q ∈ (lvlsOf s.arena spine).insertIdx
      (insPos s spine key value) lvl ↔ q = lvl ∨ q ∈ lvlsOf s.arena spine := by
    intro q
    rw [(List.perm_insertIdx _ _ (by rw [Inv.lvls_length]; exact hp)).mem_iff,
      List.mem_cons]
  have hdictE : dictGet (entsOf s.arena spine) key = none := by
    rw [← hinv.dict_ok key]; exact hfresh
  have hfreshE : ∀ e ∈ entsOf s.arena spine, e.1 ≠ key := by
    intro e he
    have hfind : (entsOf s.arena spine).find?
        (fun e => decide (e.1 = key)) = none :=
      Option.map_eq_none'.mp hdictE
    have := List.find?_eq_none.mp hfind e he
    simpa using this
  have hpE : insPos s spine key value ≤ (entsOf s.arena spine).length := by
    rw [Inv.ents_length]; exact hp
  refine ⟨?_, ?_, ?_, ?_, ?_, ?_, ?_, ?_, ?_, ?_, ?_, ?_, ?_, ?_, ?_, ?_, ?_,
    ?_⟩
  · -- arena_pos
    omega
  · -- spine_pos
    intro j hj
    rcases (hmemS j).mp hj with h | h
    · subst h; exact hinv.arena_pos
    · exact hinv.spine_pos j h
  · -- spine_lt
    intro j hj
    rw [hFlen]
    rcases (hmemS j).mp hj with h | h
    · omega
    · have := hinv.spine_lt j h; omega
  · -- spine_nodup
    rw [List.Perm.nodup_iff (List.perm_insertIdx _ _ hp), List.nodup_cons]
    exact ⟨fun h => absurd (hinv.spine_lt _ h) (lt_irrefl _), hinv.spine_nodup⟩
  · -- sorted
    rw [hEab]
    refine pairwise_insertIdx hpE hinv.sorted ?_ ?_
    · intro j hj hjp
      rw [Inv.ents_length] at hj
      have := hEbelow j hj hjp
      rwa [show (entsOf s.arena spine).getD j (key, value) =
        (entsOf s.arena spine).getD j default by
          rw [List.getD_eq_getElem?_getD, List.getD_eq_getElem?_getD,
            List.getElem?_eq_getElem (by rw [Inv.ents_length]; omega)]
          rfl]
    · intro j hj hjp
      rw [Inv.ents_length] at hj
      have := hEabove j hj hjp
      rwa [show (entsOf s.arena spine).getD j (key, value) =
        (entsOf s.arena spine).getD j default by
          rw [List.getD_eq_getElem?_getD, List.getD_eq_getElem?_getD,
            List.getElem?_eq_getElem (by rw [Inv.ents_length]; omega)]
          rfl]
  · -- fwd_len
    intro ix hix
    exact (wfArr_of_skelEq hskel
      (wfArr_append_new hinv.wfA key value lvl) ix hix).1
  · -- span_len
    intro ix hix
    exact (wfArr_of_skelEq hskel
      (wfArr_append_new hinv.wfA key value lvl) ix hix).2
  · -- lvl_pos
    intro q hq
    rw [hLab] at hq
    rcases (hmemL q).mp hq with h | h
    · omega
    · exact hinv.lvl_pos q h
  · -- lvl_le
    intro q hq
    rw [hLab] at hq
    show q ≤ max s.level lvl
    rcases (hmemL q).mp hq with h | h
    · subst h; exact le_max_right _ _
    · exact le_trans (hinv.lvl_le q h) (le_max_left _ _)
  · -- level_pos
    show 1 ≤ max s.level lvl
    exact le_trans hinv.level_pos (le_max_left _ _)
  · -- level_le
    show max s.level lvl ≤ MaxLevel
    exact max_le hinv.level_le hlvl2
  · -- level_tight
    rw [hLab]
    rcases le_total s.level lvl with h | h
    · right
      show max s.level lvl ∈ _
      rw [max_eq_right h, hmemL]
      exact Or.inl rfl
    · rcases hinv.level_tight with h1 | h1
      · left
        show max s.level lvl = 1
        rw [max_eq_left h]
        exact h1
      · right
        show max s.level lvl ∈ _
        rw [max_eq_left h, hmemL]
        exact Or.inr h1
  · -- fwd_ok
    rw [hLab]
    exact insertNode_fwd_ok hinv hfresh hlvl1 hlvl2
  · -- span_ok
    rw [hLab]
    exact insertNode_span_ok hinv hfresh hlvl1 hlvl2
  · -- dict_keys_nodup
    show ((dictSet s.dict key value).map Prod.fst).Nodup
    unfold dictSet
    rw [List.map_cons, List.nodup_cons]
    constructor
    · intro hk
      obtain ⟨e, he, hek⟩ := List.mem_map.mp hk
      have := List.of_mem_filter he
      simp only [decide_eq_true_eq] at this
      exact this hek
    · exact hinv.dict_keys_nodup.sublist
        (List.Sublist.map Prod.fst (List.filter_sublist _))
  · -- ents_keys_nodup
    rw [hEab, map_insertIdx _ _ _ _ hpE,
      List.Perm.nodup_iff (List.perm_insertIdx _ _
        (by rw [List.length_map]; exact hpE)),
      List.nodup_cons]
    constructor
    · intro hk
      obtain ⟨e, he, hek⟩ := List.mem_map.mp hk
      exact hfreshE e he hek
    · exact hinv.ents_keys_nodup
  · -- dict_ok
    intro k
    rw [hEab]
    show dictGet (dictSet s.dict key value) k = _
    rcases Decidable.em (k = key) with hk | hk
    · subst hk
      unfold dictSet
      rw [dictGet_cons_self]
      unfold dictGet
      rw [find?_insertIdx_pos _ _ _ _ hpE (by simp)
        (by
          intro e he
          simp only [decide_eq_false_iff_not]
          exact hfreshE e he)]
      rfl
    · unfold dictSet
      rw [dictGet_cons_ne hk, dictGet_dictDel_ne hk, hinv.dict_ok k]
      unfold dictGet
      rw [find?_insertIdx _ _ _ _ hpE (by simp; exact fun h => hk h.symm)]
  · -- length_ok
    show s.length + 1 = _
    rw [List.length_insertIdx _ _ hp, hinv.length_ok]
    push_cast
    ring

/-! ### Pure index lemmas for `eraseIdx` -/

theorem map_eraseIdx {α β : Type} (f : α → β) (l : List α) (i : Nat) :
    (l.eraseIdx i).map f = (l.map f).eraseIdx i := by
  rw [List.eraseIdx_eq_take_drop_succ, List.eraseIdx_eq_take_drop_succ,
    List.map_append, List.map_take, List.map_drop]

theorem length_eraseIdx_of_lt {α : Type} {l : List α} {i : Nat}
    (h : i < l.length) : (l.eraseIdx i).length = l.length - 1 := by
  rw [List.length_eraseIdx]
  simp [h]

theorem getD_eraseIdx_lt {α : Type} {l : List α} {p j : Nat} {d : α}
    (hj : j < p) : (l.eraseIdx p).getD j d = l.getD j d := by
  rw [List.eraseIdx_eq_take_drop_succ]
  rcases Decidable.em (j < l.length) with hjl | hjl
  · have hjt : j < (l.take p).length := by
      rw [List.length_take]; omega
    rw [List.getD_eq_getElem?_getD, List.getElem?_append_left hjt,
      List.getElem?_take_of_lt hj, ← List.getD_eq_getElem?_getD]
  · have h1 : (l.take p ++ l.drop (p + 1)).length ≤ j := by
      rw [List.length_append, List.length_take, List.length_drop]
      omega
    rw [List.getD_eq_getElem?_getD, List.getD_eq_getElem?_getD,
      List.getElem?_eq_none h1,
      List.getElem?_eq_none (show l.length ≤ j by omega)]

theorem getD_eraseIdx_ge {α : Type} {l : List α} {p j : Nat} {d : α}
    (hp : p < l.length) (hj : p ≤ j) :
    (l.eraseIdx p).getD j d = l.getD (j + 1) d := by
  rw [List.eraseIdx_eq_take_drop_succ]
  rcases Decidable.em (j < l.length - 1) with hjl | hjl
  · have hjt : (l.take p).length ≤ j := by
      rw [List.length_take]; omega
    rw [List.getD_eq_getElem?_getD, List.getElem?_append_right hjt,
      List.getElem?_drop, List.length_take]
    have harg : p + 1 + (j - min p l.length) = j + 1 := by omega
    rw [harg, ← List.getD_eq_getElem?_getD]
  · have h1 : (l.take p ++ l.drop (p + 1)).length ≤ j := by
      rw [List.length_append, List.length_take, List.length_drop]
      omega
    rw [List.getD_eq_getElem?_getD, List.getD_eq_getElem?_getD,
      List.getElem?_eq_none h1,
      List.getElem?_eq_none (show l.length ≤ j + 1 by omega)]

theorem tfrom_eraseIdx_above {L : List Nat} {pt i c : Nat}
    (hpt : pt < L.length) (hc : pt ≤ c) :
    tfrom (L.eraseIdx pt) i c = (tfrom L i (c + 1)).map (· - 1) := by
  cases hx : tfrom L i (c + 1) with
  | none =>
    simp only [Option.map_none']
    rw [tfrom_eq_none_iff] at hx ⊢
    intro m hm hmlen
    rw [length_eraseIdx_of_lt hpt] at hmlen
    rw [getD_eraseIdx_ge hpt (by omega)]
    exact hx (m + 1) (by omega) (by omega)
  | some b =>
    obtain ⟨h1, h2, h3, h4⟩ := tfrom_eq_some_iff.mp hx
    simp only [Option.map_some']
    rw [tfrom_eq_some_iff]
    refine ⟨by omega, by rw [length_eraseIdx_of_lt hpt]; omega, ?_, ?_⟩
    · rw [getD_eraseIdx_ge hpt (by omega), show b - 1 + 1 = b by omega]
      exact h3
    · intro m hm1 hm2
      rw [getD_eraseIdx_ge hpt (by omega)]
      exact h4 (m + 1) (by omega) (by omega)

theorem tfrom_eraseIdx_below {L : List Nat} {pt i c b : Nat}
    (hpt : pt < L.length) (hx : tfrom L i c = some b) (hb : b < pt) :
    tfrom (L.eraseIdx pt) i c = some b := by
  obtain ⟨h1, h2, h3, h4⟩ := tfrom_eq_some_iff.mp hx
  rw [tfrom_eq_some_iff]
  refine ⟨h1, by rw [length_eraseIdx_of_lt hpt]; omega, ?_, ?_⟩
  · rw [getD_eraseIdx_lt hb]
    exact h3
  · intro m hm1 hm2
    rw [getD_eraseIdx_lt (by omega)]
    exact h4 m hm1 hm2

theorem tfrom_eraseIdx_hit {L : List Nat} {pt i c : Nat}
    (hpt : pt < L.length) (hx : tfrom L i c = some pt) :
    tfrom (L.eraseIdx pt) i c = (tfrom L i (pt + 1)).map (· - 1) := by
  obtain ⟨hc1, _, _, h4⟩ := tfrom_eq_some_iff.mp hx
  cases hy : tfrom L i (pt + 1) with
  | none =>
    simp only [Option.map_none']
    rw [tfrom_eq_none_iff] at hy ⊢
    intro m hm hmlen
    rw [length_eraseIdx_of_lt hpt] at hmlen
    rcases Decidable.em (m < pt) with h | h
    · rw [getD_eraseIdx_lt h]
      exact h4 m hm h
    · rw [getD_eraseIdx_ge hpt (by omega)]
      exact hy (m + 1) (by omega) (by omega)
  | some b =>
    obtain ⟨g1, g2, g3, g4⟩ := tfrom_eq_some_iff.mp hy
    simp only [Option.map_some']
    rw [tfrom_eq_some_iff]
    refine ⟨by omega, by rw [length_eraseIdx_of_lt hpt]; omega, ?_, ?_⟩
    · rw [getD_eraseIdx_ge hpt (by omega), show b - 1 + 1 = b by omega]
      exact g3
    · intro m hm1 hm2
      rcases Decidable.em (m < pt) with h | h
      · rw [getD_eraseIdx_lt h]
        exact h4 m hm1 h
      · rw [getD_eraseIdx_ge hpt (by omega)]
        exact g4 (m + 1) (by omega) (by omega)

theorem tfrom_eraseIdx_cross {L : List Nat} {pt i c b : Nat}
    (hpt : pt < L.length) (hc : c ≤ pt) (hx : tfrom L i c = some b)
    (hb : pt < b) :
    tfrom (L.eraseIdx pt) i c = some (b - 1) := by
  obtain ⟨h1, h2, h3, h4⟩ := tfrom_eq_some_iff.mp hx
  rw [tfrom_eq_some_iff]
  refine ⟨by omega, by rw [length_eraseIdx_of_lt hpt]; omega, ?_, ?_⟩
  · rw [getD_eraseIdx_ge hpt (by omega), show b - 1 + 1 = b by omega]
    exact h3
  · intro m hm1 hm2
    rcases Decidable.em (m < pt) with h | h
    · rw [getD_eraseIdx_lt h]
      exact h4 m hm1 (by omega)
    · rw [getD_eraseIdx_ge hpt (by omega)]
      exact h4 (m + 1) (by omega) (by omega)

theorem tfrom_eraseIdx_none {L : List Nat} {pt i c : Nat}
    (hpt : pt < L.length) (hx : tfrom L i c = none) :
    tfrom (L.eraseIdx pt) i c = none := by
  rw [tfrom_eq_none_iff] at hx ⊢
  intro m hm hmlen
  rw [length_eraseIdx_of_lt hpt] at hmlen
  rcases Decidable.em (m < pt) with h | h
  · rw [getD_eraseIdx_lt h]
    exact hx m hm (by omega)
  · rw [getD_eraseIdx_ge hpt (by omega)]
    exact hx (m + 1) (by omega) (by omega)

/-! ### Characterisation of the `del` search loops -/

theorem cond_entLtD_iff {key : K} {value : V} (e : K × V) :
    (e.2 < value ∨ (e.2 = value ∧ e.1 < key)) ↔ entLt e (key, value) :=
  Iff.rfl

/-- The predicate of which `del`'s per-tier search result is the greatest
satisfying position: tier-`i` participant whose entry is strictly below the
target. -/
def delPred (L : List Nat) (E : List (K × V)) (key : K) (value : V)
    (i : Nat) (j : Nat) : Bool :=
  decide (i < L.getD j 0) && decide (entLt (E.getD j default) (key, value))

/-- The position at which `del`'s tier-`i` search stops. -/
def gdel (L : List Nat) (E : List (K × V)) (key : K) (value : V)
    (i n : Nat) : Option Nat :=
  glast (delPred L E key value i) n

theorem delPred_iff {L : List Nat} {E : List (K × V)} {key : K} {value : V}
    {i j : Nat} :
    delPred L E key value i j = true ↔
      i < L.getD j 0 ∧ entLt (E.getD j default) (key, value) := by
  simp [delPred]

/-- Admissible starting positions for `del`'s tier-`i` search. -/
def okD (L : List Nat) (E : List (K × V)) (key : K) (value : V) (i n : Nat) :
    Option Nat → Prop
  | none => True
  | some j => j < n ∧ i < L.getD j 0 ∧ entLt (E.getD j default) (key, value)

theorem delSearchLevel_spec {s : RankList K V} {spine : List Nat}
    (hinv : Inv s spine) (key : K) (value : V) {i : Nat} (hi : i < MaxLevel)
    (fuel : Nat) (a : Option Nat)
    (ha : okD (lvlsOf s.arena spine) (entsOf s.arena spine) key value i
      spine.length a)
    (hfuel : spine.length + 1 ≤ fuel + startO a) :
    delSearchLevel s.arena key value i fuel (sixO spine a) =
      sixO spine (gdel (lvlsOf s.arena spine) (entsOf s.arena spine) key
        value i spine.length) := by
  set L := lvlsOf s.arena spine with hL
  set E := entsOf s.arena spine with hE
  set n := spine.length with hn
  have hLlen : L.length = n := Inv.lvls_length
  induction fuel generalizing a with
  | zero =>
    exfalso
    cases a with
    | none => simp [startO] at hfuel
    | some j =>
      obtain ⟨hjn, _, _⟩ := ha
      simp [startO] at hfuel
      omega
  | succ fuel ih =>
    have hpart : partO L i a := by
      cases a with
      | none => trivial
      | some j => exact ⟨by rw [hLlen]; exact ha.1, ha.2.1⟩
    have hread := hinv.fwd_ok i hi a hpart
    rw [delSearchLevel]
    rw [hread]
    cases htstep : tstep L i a with
    | none =>
      simp only [Option.map_none']
      have hnone : ∀ c, startO a ≤ c → c < n → ¬ i < L.getD c 0 := by
        have := tstep_eq_none_iff.mp htstep
        rwa [hLlen] at this
      have hg : gdel L E key value i n = a := by
        cases a with
        | none =>
          rw [gdel, glast_eq_none_iff]
          intro m hm hp
          exact hnone m (by simp [startO]) hm (delPred_iff.mp hp).1
        | some j =>
          rw [gdel, glast_eq_some_iff]
          refine ⟨ha.1, delPred_iff.mpr ⟨ha.2.1, ha.2.2⟩, ?_⟩
          intro m' hm' hm'n hp
          exact hnone m' (by simp [startO]; omega) hm'n (delPred_iff.mp hp).1
      rw [hg]
    | some b =>
      have hb := tstep_eq_some_iff.mp htstep
      rw [hLlen] at hb
      obtain ⟨hab, hbn, hbl, hmin⟩ := hb
      simp only [Option.map_some']
      have hdata := data_pair_at (s := s) (w := spine) hbn
      rw [← hE] at hdata
      have hkey : (nodeA s.arena (six spine b)).data.key =
          (E.getD b default).1 := congrArg Prod.fst hdata
      have hval : (nodeA s.arena (six spine b)).data.value =
          (E.getD b default).2 := congrArg Prod.snd hdata
      by_cases hcmp : entLt (E.getD b default) (key, value)
      · have hcond : (nodeA s.arena (six spine b)).data.value < value ∨
            ((nodeA s.arena (six spine b)).data.value = value ∧
              (nodeA s.arena (six spine b)).data.key < key) := by
          rw [hkey, hval]
          exact (cond_entLtD_iff _).mpr hcmp
        rw [if_pos hcond]
        exact ih (some b) (by show n + 1 ≤ fuel + (b + 1); omega)
          ⟨hbn, hbl, hcmp⟩
      · have hcond : ¬ ((nodeA s.arena (six spine b)).data.value < value ∨
            ((nodeA s.arena (six spine b)).data.value = value ∧
              (nodeA s.arena (six spine b)).data.key < key)) := by
          rw [hkey, hval]
          exact fun h => hcmp ((cond_entLtD_iff _).mp h)
        rw [if_neg hcond]
        have hg : gdel L E key value i n = a := by
          have hnotPred : ∀ c, startO a ≤ c → c < n →
              ¬ delPred L E key value i c = true := by
            intro c hc hcn hp
            obtain ⟨hpl, hpe⟩ := delPred_iff.mp hp
            have hcb : b ≤ c := by
              by_contra hcb
              exact hmin c hc (by omega) hpl
            rcases Nat.eq_or_lt_of_le hcb with rfl | hlt
            · exact hcmp hpe
            · have hmono := hinv.ents_mono hlt hcn
              rw [← hE] at hmono
              exact hcmp (entLt_trans hmono hpe)
          cases a with
          | none =>
            rw [gdel, glast_eq_none_iff]
            intro m hm hp
            exact hnotPred m (by simp [startO]) hm hp
          | some j =>
            rw [gdel, glast_eq_some_iff]
            refine ⟨ha.1, delPred_iff.mpr ⟨ha.2.1, ha.2.2⟩, ?_⟩
            intro m' hm' hm'n hp
            exact hnotPred m' (by simp [startO]; omega) hm'n hp
        rw [hg]

theorem delSearchDown_length (arena : List (Node K V)) (key : K) (value : V) :
    ∀ (i0 curr : Nat),
      (delSearchDown arena key value i0 curr).length = i0 + 1 := by
  intro i0
  induction i0 with
  | zero => intro curr; simp [delSearchDown]
  | succ i0 ih =>
    intro curr
    simp only [delSearchDown, List.length_append, List.length_cons,
      List.length_nil, ih]

theorem gd_ok {L : List Nat} {E : List (K × V)} {key : K} {value : V}
    {i i' n : Nat} (hii' : i ≤ i') :
    okD L E key value i n (gdel L E key value i' n) := by
  cases hg : gdel L E key value i' n with
  | none => trivial
  | some j =>
    obtain ⟨hjn, hp, _⟩ := glast_eq_some_iff.mp hg
    obtain ⟨hl, he⟩ := delPred_iff.mp hp
    exact ⟨hjn, by omega, he⟩

theorem delSearchDown_spec {s : RankList K V} {spine : List Nat}
    (hinv : Inv s spine) (key : K) (value : V) :
    ∀ {i0 : Nat}, i0 < MaxLevel → ∀ (a : Option Nat),
      okD (lvlsOf s.arena spine) (entsOf s.arena spine) key value i0
        spine.length a →
      ∀ i ≤ i0,
        (delSearchDown s.arena key value i0 (sixO spine a)).getD i 0 =
          sixO spine (gdel (lvlsOf s.arena spine) (entsOf s.arena spine)
            key value i spine.length) := by
  intro i0
  induction i0 with
  | zero =>
    intro hi0 a ha i hi
    interval_cases i
    rw [delSearchDown]
    rw [delSearchLevel_spec hinv key value hi0 s.arena.length a ha
      (by have := hinv.spine_len_lt; omega)]
    simp
  | succ i0 ih =>
    intro hi0 a ha i hi
    rw [delSearchDown]
    have hr := delSearchLevel_spec hinv key value hi0 s.arena.length a ha
      (by have := hinv.spine_len_lt; omega)
    rw [hr]
    rcases Nat.lt_succ_iff_lt_or_eq.mp (Nat.lt_succ_of_le hi) with hlt | heq
    · rw [List.getD_eq_getElem?_getD, List.getElem?_append_left
        (by rw [delSearchDown_length]; omega)]
      rw [← List.getD_eq_getElem?_getD]
      exact ih (by omega) _ (gd_ok (by omega)) i (by omega)
    · subst heq
      rw [List.getD_eq_getElem?_getD,
        List.getElem?_append_right (by rw [delSearchDown_length])]
      rw [delSearchDown_length]
      simp

/-- The per-tier stop position of `del`'s search, as a function of the
abstract state. -/
def gdOf (s : RankList K V) (spine : List Nat) (key : K) (value : V)
    (i : Nat) : Option Nat :=
  gdel (lvlsOf s.arena spine) (entsOf s.arena spine) key value i spine.length

theorem del_search_spec {s : RankList K V} {spine : List Nat}
    (hinv : Inv s spine) (key : K) (value : V) :
    ∀ i ≤ s.level - 1,
      (delSearchDown s.arena key value (s.level - 1) 0).getD i 0 =
        sixO spine (gdOf s spine key value i) := by
  intro i hi
  have h0 : (0 : Nat) = sixO spine none := rfl
  rw [h0]
  exact delSearchDown_spec hinv key value
    (by have h1 := hinv.level_pos; have h2 := hinv.level_le; omega)
    none trivial i hi

/-! ### Locating the deletion target -/

theorem dict_locate {s : RankList K V} {spine : List Nat}
    (hinv : Inv s spine) {key : K} {value : V}
    (h : dictGet s.dict key = some value) :
    ∃ pt, pt < spine.length ∧
      (entsOf s.arena spine).getD pt default = (key, value) := by
  have hE : dictGet (entsOf s.arena spine) key = some value := by
    rw [← hinv.dict_ok key]; exact h
  unfold dictGet at hE
  rcases Option.map_eq_some'.mp hE with ⟨e, hfind, hev⟩
  have hmem := List.mem_of_find?_eq_some hfind
  have hkey : e.1 = key := by
    have := List.find?_some hfind
    simpa using this
  obtain ⟨pt, hpt, hgetElem⟩ := List.getElem_of_mem hmem
  refine ⟨pt, by rwa [Inv.ents_length] at hpt, ?_⟩
  rw [List.getD_eq_getElem?_getD, List.getElem?_eq_getElem hpt]
  show (entsOf s.arena spine)[pt] = (key, value)
  rw [hgetElem]
  cases e
  simp only [Prod.mk.injEq]
  exact ⟨hkey, hev⟩

theorem ents_entry_ne {s : RankList K V} {spine : List Nat}
    (hinv : Inv s spine) {pt j : Nat} (hpt : pt < spine.length)
    (hj : j < spine.length) (hne : j ≠ pt) :
    (entsOf s.arena spine).getD j default ≠
      (entsOf s.arena spine).getD pt default := by
  intro hEq
  rcases lt_or_gt_of_ne hne with h | h
  · exact entLt_irrefl _ (hEq ▸ hinv.ents_mono h hpt)
  · exact entLt_irrefl _ (hEq ▸ hinv.ents_mono h hj)

theorem ents_key_ne {s : RankList K V} {spine : List Nat}
    (hinv : Inv s spine) {pt j : Nat} (hpt : pt < spine.length)
    (hj : j < spine.length) (hne : j ≠ pt) :
    ((entsOf s.arena spine).getD j default).1 ≠
      ((entsOf s.arena spine).getD pt default).1 := by
  intro hEq
  have hlen : (entsOf s.arena spine).length = spine.length := Inv.ents_length
  have hjE : j < ((entsOf s.arena spine).map Prod.fst).length := by
    rw [List.length_map]; omega
  have hptE : pt < ((entsOf s.arena spine).map Prod.fst).length := by
    rw [List.length_map]; omega
  have hgd : ∀ m (hm : m < spine.length),
      (entsOf s.arena spine).getD m default = (entsOf s.arena spine).get
        ⟨m, by rw [hlen]; exact hm⟩ := by
    intro m hm
    rw [List.getD_eq_getElem?_getD, List.getElem?_eq_getElem (by omega)]
    rfl
  have heq2 : ((entsOf s.arena spine).map Prod.fst)[j] =
      ((entsOf s.arena spine).map Prod.fst)[pt] := by
    rw [List.getElem_map, List.getElem_map]
    rw [hgd j hj, hgd pt hpt] at hEq
    exact hEq
  exact hne ((List.Nodup.getElem_inj_iff hinv.ents_keys_nodup).mp heq2)

theorem entLt_target_iff_pos {s : RankList K V} {spine : List Nat}
    (hinv : Inv s spine) {key : K} {value : V} {pt : Nat}
    (hpt : pt < spine.length)
    (hptE : (entsOf s.arena spine).getD pt default = (key, value)) :
    ∀ j < spine.length,
      (entLt ((entsOf s.arena spine).getD j default) (key, value) ↔
        j < pt) := by
  intro j hj
  constructor
  · intro hlt
    by_contra h
    rcases Nat.eq_or_lt_of_le (le_of_not_lt h) with heq | hgt
    · rw [← heq, hptE] at hlt
      exact entLt_irrefl _ hlt
    · have := hinv.ents_mono hgt hj
      rw [hptE] at this
      exact entLt_irrefl _ (entLt_trans this hlt)
  · intro hj'
    have := hinv.ents_mono hj' hpt
    rwa [hptE] at this

theorem gd_some_facts {s : RankList K V} {spine : List Nat} {key : K}
    {value : V} {i j : Nat} (hg : gdOf s spine key value i = some j) :
    j < spine.length ∧ i < (lvlsOf s.arena spine).getD j 0 ∧
      entLt ((entsOf s.arena spine).getD j default) (key, value) ∧
      ∀ j', j < j' → j' < spine.length →
        ¬ (i < (lvlsOf s.arena spine).getD j' 0 ∧
          entLt ((entsOf s.arena spine).getD j' default) (key, value)) := by
  obtain ⟨h1, h2, h3⟩ := glast_eq_some_iff.mp hg
  obtain ⟨h2a, h2b⟩ := delPred_iff.mp h2
  refine ⟨h1, h2a, h2b, ?_⟩
  rintro j' hj1 hj2 ⟨ha, hb⟩
  exact h3 j' hj1 hj2 (delPred_iff.mpr ⟨ha, hb⟩)

theorem gd_none_facts {s : RankList K V} {spine : List Nat} {key : K}
    {value : V} {i : Nat} (hg : gdOf s spine key value i = none) :
    ∀ j < spine.length,
      ¬ (i < (lvlsOf s.arena spine).getD j 0 ∧
        entLt ((entsOf s.arena spine).getD j default) (key, value)) := by
  rintro j hj ⟨ha, hb⟩
  exact glast_eq_none_iff.mp hg j hj (delPred_iff.mpr ⟨ha, hb⟩)

theorem partO_gd {s : RankList K V} {spine : List Nat} {key : K} {value : V}
    {i : Nat} :
    partO (lvlsOf s.arena spine) i (gdOf s spine key value i) := by
  cases hg : gdOf s spine key value i with
  | none => trivial
  | some j =>
    obtain ⟨h1, h2, _, _⟩ := gd_some_facts hg
    exact ⟨by rw [Inv.lvls_length]; exact h1, h2⟩

theorem gd_below_pt {s : RankList K V} {spine : List Nat} {key : K}
    {value : V} {pt : Nat} (hinv : Inv s spine) (hpt : pt < spine.length)
    (hptE : (entsOf s.arena spine).getD pt default = (key, value))
    (i : Nat) :
    startO (gdOf s spine key value i) ≤ pt ∧
    ∀ c, startO (gdOf s spine key value i) ≤ c → c < pt →
      ¬ i < (lvlsOf s.arena spine).getD c 0 := by
  have hEp := entLt_target_iff_pos hinv hpt hptE
  cases hg : gdOf s spine key value i with
  | none =>
    refine ⟨by simp [startO], ?_⟩
    intro c _ hcp hcl
    exact gd_none_facts hg c (by omega) ⟨hcl, (hEp c (by omega)).mpr hcp⟩
  | some j =>
    obtain ⟨h1, h2, h3, h4⟩ := gd_some_facts hg
    have hjp : j < pt := (hEp j h1).mp h3
    refine ⟨by simp [startO]; omega, ?_⟩
    intro c hc hcp hcl
    exact h4 c (by simp [startO] at hc; omega) (by omega)
      ⟨hcl, (hEp c (by omega)).mpr hcp⟩

theorem gd_unique {s : RankList K V} {spine : List Nat} {key : K} {value : V}
    {pt : Nat} (hinv : Inv s spine) (hpt : pt < spine.length)
    (hptE : (entsOf s.arena spine).getD pt default = (key, value))
    {i : Nat} {a : Option Nat}
    (ha : match a with
      | none => True
      | some j => j < spine.length ∧ i < (lvlsOf s.arena spine).getD j 0 ∧
          j < pt)
    (hno : ∀ c, startO a ≤ c → c < pt →
      ¬ i < (lvlsOf s.arena spine).getD c 0) :
    a = gdOf s spine key value i := by
  have hEp := entLt_target_iff_pos hinv hpt hptE
  cases a with
  | none =>
    cases hg : gdOf s spine key value i with
    | none => rfl
    | some j0 =>
      obtain ⟨h1, h2, h3, _⟩ := gd_some_facts hg
      have hj0p : j0 < pt := (hEp j0 h1).mp h3
      exact absurd h2 (hno j0 (by simp [startO]) hj0p)
  | some j =>
    obtain ⟨hjn, hjl, hjp⟩ := ha
    cases hg : gdOf s spine key value i with
    | none =>
      have hall := gd_none_facts hg
      exact absurd ⟨hjl, (hEp j hjn).mpr hjp⟩ (hall j hjn)
    | some j0 =>
      obtain ⟨h1, h2, h3, h4⟩ := gd_some_facts hg
      have hj0p : j0 < pt := (hEp j0 h1).mp h3
      rcases lt_trichotomy j j0 with hlt | heq | hgt
      · exact absurd h2 (hno j0 (by simp [startO]; omega) hj0p)
      · rw [heq]
      · exact absurd ⟨hjl, (hEp j hjn).mpr hjp⟩ (h4 j hgt hjn)

theorem gd_tstep_hit {s : RankList K V} {spine : List Nat} {key : K}
    {value : V} {pt : Nat} (hinv : Inv s spine) (hpt : pt < spine.length)
    (hptE : (entsOf s.arena spine).getD pt default = (key, value))
    {i : Nat} (hlvl : i < (lvlsOf s.arena spine).getD pt 0) :
    tstep (lvlsOf s.arena spine) i (gdOf s spine key value i) = some pt := by
  obtain ⟨hGd1, hGd2⟩ := gd_below_pt hinv hpt hptE i
  rw [tstep_eq_some_iff]
  exact ⟨hGd1, by rw [Inv.lvls_length]; exact hpt, hlvl, hGd2⟩

theorem gd_tstep_miss {s : RankList K V} {spine : List Nat} {key : K}
    {value : V} {pt : Nat} (hinv : Inv s spine) (hpt : pt < spine.length)
    (hptE : (entsOf s.arena spine).getD pt default = (key, value))
    {i : Nat} (hlvl : ¬ i < (lvlsOf s.arena spine).getD pt 0) :
    tstep (lvlsOf s.arena spine) i (gdOf s spine key value i) = none ∨
    ∃ b, tstep (lvlsOf s.arena spine) i (gdOf s spine key value i) = some b ∧
      pt < b := by
  obtain ⟨hGd1, hGd2⟩ := gd_below_pt hinv hpt hptE i
  cases h : tstep (lvlsOf s.arena spine) i (gdOf s spine key value i) with
  | none => exact Or.inl rfl
  | some b =>
    obtain ⟨hb1, hb2, hb3, _⟩ := tstep_eq_some_iff.mp h
    right
    refine ⟨b, rfl, ?_⟩
    rcases lt_trichotomy b pt with hlt | heq | hgt
    · exact absurd hb3 (hGd2 b hb1 hlt)
    · subst heq; exact absurd hb3 hlvl
    · exact hgt

theorem six_eraseIdx_lt {spine : List Nat} {pt j : Nat} (hj : j < pt) :
    six (spine.eraseIdx pt) j = six spine j :=
  getD_eraseIdx_lt hj

theorem six_eraseIdx_ge {spine : List Nat} {pt j : Nat}
    (hpt : pt < spine.length) (hj : pt ≤ j) :
    six (spine.eraseIdx pt) j = six spine (j + 1) :=
  getD_eraseIdx_ge hpt hj

/-- Bounds needed by the unlink fold: predecessors and the one or two nodes
read through them are valid arena indices. -/
theorem del_conds {s : RankList K V} {spine : List Nat} (hinv : Inv s spine)
    (key : K) (value : V) :
    ∀ i < s.level,
      (delSearchDown s.arena key value (s.level - 1) 0).getD i 0 <
        s.arena.length ∧
      (∀ c, fwdA s.arena
          ((delSearchDown s.arena key value (s.level - 1) 0).getD i 0) i =
          some c → c < s.arena.length) ∧
      (∀ c f, fwdA s.arena
          ((delSearchDown s.arena key value (s.level - 1) 0).getD i 0) i =
          some c → fwdA s.arena c i = some f → f < s.arena.length) := by
  intro i hi
  have hiM : i < MaxLevel := lt_of_lt_of_le hi hinv.level_le
  have hprev := del_search_spec hinv key value i (by omega)
  rw [hprev]
  refine ⟨?_, ?_, ?_⟩
  · cases hg : gdOf s spine key value i with
    | none => exact hinv.arena_pos
    | some j => exact hinv.six_lt (gd_some_facts hg).1
  · intro c hc
    rw [hinv.fwd_ok i hiM _ partO_gd] at hc
    rcases Option.map_eq_some'.mp hc with ⟨b, hb, rfl⟩
    obtain ⟨_, hbn, _, _⟩ := tstep_eq_some_iff.mp hb
    rw [Inv.lvls_length] at hbn
    exact hinv.six_lt hbn
  · intro c f hc hf
    rw [hinv.fwd_ok i hiM _ partO_gd] at hc
    rcases Option.map_eq_some'.mp hc with ⟨b, hb, rfl⟩
    obtain ⟨_, hbn, hbl, _⟩ := tstep_eq_some_iff.mp hb
    rw [Inv.lvls_length] at hbn
    rw [show fwdA s.arena (six spine b) i =
        Option.map (six spine) (tstep (lvlsOf s.arena spine) i (some b)) from
      hinv.fwd_ok i hiM (some b) ⟨by rw [Inv.lvls_length]; exact hbn, hbl⟩]
      at hf
    rcases Option.map_eq_some'.mp hf with ⟨b', hb', rfl⟩
    obtain ⟨_, hbn', _, _⟩ := tstep_eq_some_iff.mp hb'
    rw [Inv.lvls_length] at hbn'
    exact hinv.six_lt hbn'

/-- Forward-pointer reads of the arena after `del`'s unlink fold: at a tier
the target participates in, the predecessor is re-pointed past the target;
everything else is unchanged. -/
theorem del_fwd_reads {s : RankList K V} {spine : List Nat}
    (hinv : Inv s spine) {key : K} {value : V} {pt : Nat}
    (hpt : pt < spine.length)
    (hptE : (entsOf s.arena spine).getD pt default = (key, value))
    {i : Nat} (hil : i < s.level) (ix : Nat) :
    fwdA ((List.range s.level).foldl
        (delStep (delSearchDown s.arena key value (s.level - 1) 0) key value)
        s.arena) ix i =
      if i < (lvlsOf s.arena spine).getD pt 0 ∧
          ix = sixO spine (gdOf s spine key value i) then
        fwdA s.arena (six spine pt) i
      else fwdA s.arena ix i := by
  have hiM : i < MaxLevel := lt_of_lt_of_le hil hinv.level_le
  have hprev := del_search_spec hinv key value i (by omega)
  obtain ⟨hskel, hhigh, hlow⟩ := del_fold_spec
    (delSearchDown s.arena key value (s.level - 1) 0) key value s.arena
    hinv.wfA s.level hinv.level_le (del_conds hinv key value)
  rw [(hlow ix i hil).1]
  unfold delFwd
  dsimp only
  rw [hprev, hinv.fwd_ok i hiM _ partO_gd]
  rcases Decidable.em (i < (lvlsOf s.arena spine).getD pt 0) with hlvl | hlvl
  · rw [gd_tstep_hit hinv hpt hptE hlvl]
    simp only [Option.map_some']
    have hdata := data_pair_at (s := s) (w := spine) hpt
    rw [hptE] at hdata
    rw [if_pos ⟨congrArg Prod.fst hdata, congrArg Prod.snd hdata⟩]
    rcases Decidable.em (ix = sixO spine (gdOf s spine key value i)) with
      hix | hix
    · rw [if_pos hix, if_pos ⟨hlvl, hix⟩]
    · rw [if_neg hix, if_neg (by rintro ⟨_, h⟩; exact hix h)]
  · rcases gd_tstep_miss hinv hpt hptE hlvl with hmiss | ⟨b, hmiss, hbgt⟩
    · rw [hmiss]
      simp only [Option.map_none']
      rw [if_neg (by rintro ⟨h, _⟩; exact hlvl h)]
    · rw [hmiss]
      simp only [Option.map_some']
      obtain ⟨_, hbn, _, _⟩ := tstep_eq_some_iff.mp hmiss
      rw [Inv.lvls_length] at hbn
      have hdata := data_pair_at (s := s) (w := spine) hbn
      have hne := ents_entry_ne hinv hpt hbn (by omega)
      rw [if_neg (by
        rintro ⟨h1, h2⟩
        apply hne
        rw [hptE, ← hdata, h1, h2]), if_neg (by rintro ⟨h, _⟩; exact hlvl h)]

/-- Span reads of the arena after `del`'s unlink fold. -/
theorem del_span_reads {s : RankList K V} {spine : List Nat}
    (hinv : Inv s spine) {key : K} {value : V} {pt : Nat}
    (hpt : pt < spine.length)
    (hptE : (entsOf s.arena spine).getD pt default = (key, value))
    {i : Nat} (hil : i < s.level) (ix : Nat) :
    spanA ((List.range s.level).foldl
        (delStep (delSearchDown s.arena key value (s.level - 1) 0) key value)
        s.arena) ix i =
      if i < (lvlsOf s.arena spine).getD pt 0 then
        match tstep (lvlsOf s.arena spine) i (some pt) with
        | none => spanA s.arena ix i
        | some b =>
          if ix = six spine b then
            spanA s.arena ix i + (spanA s.arena (six spine pt) i - 1)
          else spanA s.arena ix i
      else
        match tstep (lvlsOf s.arena spine) i (gdOf s spine key value i) with
        | none => spanA s.arena ix i
        | some b =>
          if ix = six spine b then spanA s.arena ix i - 1
          else spanA s.arena ix i := by
  have hiM : i < MaxLevel := lt_of_lt_of_le hil hinv.level_le
  have hprev := del_search_spec hinv key value i (by omega)
  obtain ⟨hskel, hhigh, hlow⟩ := del_fold_spec
    (delSearchDown s.arena key value (s.level - 1) 0) key value s.arena
    hinv.wfA s.level hinv.level_le (del_conds hinv key value)
  rw [(hlow ix i hil).2]
  unfold delSpan
  dsimp only
  rw [hprev, hinv.fwd_ok i hiM _ partO_gd]
  rcases Decidable.em (i < (lvlsOf s.arena spine).getD pt 0) with hlvl | hlvl
  · rw [gd_tstep_hit hinv hpt hptE hlvl]
    simp only [Option.map_some']
    have hdata := data_pair_at (s := s) (w := spine) hpt
    rw [hptE] at hdata
    rw [if_pos hlvl,
      if_pos ⟨congrArg Prod.fst hdata, congrArg Prod.snd hdata⟩,
      show fwdA s.arena (six spine pt) i =
          Option.map (six spine) (tstep (lvlsOf s.arena spine) i (some pt)) from
        hinv.fwd_ok i hiM (some pt) ⟨by rw [Inv.lvls_length]; exact hpt, hlvl⟩]
    cases htn : tstep (lvlsOf s.arena spine) i (some pt) with
    | none => rfl
    | some b => rfl
  · rw [if_neg hlvl]
    rcases gd_tstep_miss hinv hpt hptE hlvl with hmiss | ⟨b, hmiss, hbgt⟩
    · rw [hmiss]
      rfl
    · rw [hmiss]
      simp only [Option.map_some']
      obtain ⟨_, hbn, _, _⟩ := tstep_eq_some_iff.mp hmiss
      rw [Inv.lvls_length] at hbn
      have hdata := data_pair_at (s := s) (w := spine) hbn
      have hne := ents_entry_ne hinv hpt hbn (by omega)
      rw [if_neg (by
        rintro ⟨h1, h2⟩
        apply hne
        rw [hptE, ← hdata, h1, h2])]

/-- Old-arena forward reads at a node strictly after the deletion position
already satisfy the new-spine forward invariant. -/
theorem del_fwd_ok_above {s : RankList K V} {spine : List Nat}
    (hinv : Inv s spine) {pt : Nat} (hpt : pt < spine.length) {i : Nat}
    (hiM : i < MaxLevel) {j' : Nat} (hj1 : j' + 1 < spine.length)
    (hpj : pt ≤ j') (hj2 : i < (lvlsOf s.arena spine).getD (j' + 1) 0) :
    fwdA s.arena (six spine (j' + 1)) i =
      Option.map (six (spine.eraseIdx pt))
        (tstep ((lvlsOf s.arena spine).eraseIdx pt) i (some j')) := by
  have hLlen : (lvlsOf s.arena spine).length = spine.length := Inv.lvls_length
  have hLpt : pt < (lvlsOf s.arena spine).length := by omega
  rw [show fwdA s.arena (six spine (j' + 1)) i =
      Option.map (six spine) (tstep (lvlsOf s.arena spine) i (some (j' + 1)))
    from hinv.fwd_ok i hiM (some (j' + 1))
      ⟨by rw [Inv.lvls_length]; omega, hj2⟩]
  rw [show tstep ((lvlsOf s.arena spine).eraseIdx pt) i (some j') =
      (tfrom (lvlsOf s.arena spine) i (j' + 1 + 1)).map (· - 1)
    from tfrom_eraseIdx_above hLpt (by simp only [startO]; omega)]
  show Option.map (six spine) (tfrom (lvlsOf s.arena spine) i (j' + 1 + 1)) = _
  cases hy : tfrom (lvlsOf s.arena spine) i (j' + 1 + 1) with
  | none => rfl
  | some b =>
    have hb := (tfrom_eq_some_iff.mp hy).1
    simp only [Option.map_some']
    rw [six_eraseIdx_ge hpt (by omega), show b - 1 + 1 = b by omega]

/-- Old-arena forward reads at the header or a node before the deletion
position whose tier-`i` successor is not the target already satisfy the
new-spine forward invariant. -/
theorem del_fwd_ok_low {s : RankList K V} {spine : List Nat}
    (hinv : Inv s spine) {pt : Nat} (hpt : pt < spine.length) {i : Nat}
    (hiM : i < MaxLevel) {a : Option Nat} (hstart : startO a ≤ pt)
    (hpart : partO (lvlsOf s.arena spine) i a)
    (hnohit : tstep (lvlsOf s.arena spine) i a ≠ some pt) :
    fwdA s.arena (sixO spine a) i =
      Option.map (six (spine.eraseIdx pt))
        (tstep ((lvlsOf s.arena spine).eraseIdx pt) i a) := by
  have hLpt : pt < (lvlsOf s.arena spine).length := by
    rw [Inv.lvls_length]; exact hpt
  rw [hinv.fwd_ok i hiM a hpart]
  cases htr : tstep (lvlsOf s.arena spine) i a with
  | none =>
    rw [show tstep ((lvlsOf s.arena spine).eraseIdx pt) i a = none from
      tfrom_eraseIdx_none hLpt htr]
    rfl
  | some b0 =>
    obtain ⟨hb1, hb2, hb3, _⟩ := tstep_eq_some_iff.mp htr
    have hbpt : b0 ≠ pt := by
      intro h
      rw [h] at htr
      exact hnohit htr
    rcases lt_or_gt_of_ne hbpt with hlt | hgt
    · rw [show tstep ((lvlsOf s.arena spine).eraseIdx pt) i a = some b0 from
        tfrom_eraseIdx_below hLpt htr hlt]
      simp only [Option.map_some']
      rw [six_eraseIdx_lt hlt]
    · rw [show tstep ((lvlsOf s.arena spine).eraseIdx pt) i a =
          some (b0 - 1) from tfrom_eraseIdx_cross hLpt hstart htr hgt]
      simp only [Option.map_some']
      rw [six_eraseIdx_ge hpt (by omega), show b0 - 1 + 1 = b0 by omega]

/-- Old-arena forward reads at the target node itself give the new-spine
forward value of any position whose tier-`i` successor was the target. -/
theorem del_fwd_ok_hit {s : RankList K V} {spine : List Nat}
    (hinv : Inv s spine) {pt : Nat} (hpt : pt < spine.length) {i : Nat}
    (hiM : i < MaxLevel) {a : Option Nat}
    (hhit : tstep (lvlsOf s.arena spine) i a = some pt) :
    fwdA s.arena (six spine pt) i =
      Option.map (six (spine.eraseIdx pt))
        (tstep ((lvlsOf s.arena spine).eraseIdx pt) i a) := by
  have hLpt : pt < (lvlsOf s.arena spine).length := by
    rw [Inv.lvls_length]; exact hpt
  have hlvl : i < (lvlsOf s.arena spine).getD pt 0 :=
    (tstep_eq_some_iff.mp hhit).2.2.1
  rw [show fwdA s.arena (six spine pt) i =
      Option.map (six spine) (tstep (lvlsOf s.arena spine) i (some pt))
    from hinv.fwd_ok i hiM (some pt) ⟨hLpt, hlvl⟩]
  rw [show tstep ((lvlsOf s.arena spine).eraseIdx pt) i a =
      (tfrom (lvlsOf s.arena spine) i (pt + 1)).map (· - 1)
    from tfrom_eraseIdx_hit hLpt hhit]
  show Option.map (six spine) (tfrom (lvlsOf s.arena spine) i (pt + 1)) = _
  cases hy : tfrom (lvlsOf s.arena spine) i (pt + 1) with
  | none => rfl
  | some b =>
    have hb := (tfrom_eq_some_iff.mp hy).1
    simp only [Option.map_some']
    rw [six_eraseIdx_ge hpt (by omega), show b - 1 + 1 = b by omega]

theorem del_fwd_ok {s : RankList K V} {spine : List Nat}
    (hinv : Inv s spine) {key : K} {value : V} {pt : Nat}
    (hpt : pt < spine.length)
    (hptE : (entsOf s.arena spine).getD pt default = (key, value)) :
    ∀ i < MaxLevel, ∀ a,
      partO ((lvlsOf s.arena spine).eraseIdx pt) i a →
      fwdA ((List.range s.level).foldl
          (delStep (delSearchDown s.arena key value (s.level - 1) 0) key
            value) s.arena)
          (sixO (spine.eraseIdx pt) a) i =
        Option.map (six (spine.eraseIdx pt))
          (tstep ((lvlsOf s.arena spine).eraseIdx pt) i a) := by
  intro i hiM a ha
  have hLlen : (lvlsOf s.arena spine).length = spine.length := Inv.lvls_length
  have hLpt : pt < (lvlsOf s.arena spine).length := by omega
  have hEp := entLt_target_iff_pos hinv hpt hptE
  rcases Decidable.em (i < s.level) with hil | hih
  · have hreads := del_fwd_reads hinv hpt hptE hil
    cases a with
    | none =>
      rw [hreads _]
      cases hg : gdOf s spine key value i with
      | none =>
        rcases Decidable.em (i < (lvlsOf s.arena spine).getD pt 0) with
          hlvl | hlvl
        · have hhit := gd_tstep_hit hinv hpt hptE hlvl
          rw [hg] at hhit
          rw [if_pos ⟨hlvl, rfl⟩]
          exact del_fwd_ok_hit hinv hpt hiM hhit
        · rw [if_neg (by rintro ⟨h, _⟩; exact hlvl h)]
          exact del_fwd_ok_low (a := none) hinv hpt hiM (by simp [startO])
            trivial (fun hhit => hlvl (tstep_eq_some_iff.mp hhit).2.2.1)
      | some g =>
        obtain ⟨hg1, hg2, hg3, hg4⟩ := gd_some_facts hg
        have hgp : g < pt := (hEp g hg1).mp hg3
        rw [if_neg (by
          rintro ⟨_, h⟩
          simp only [sixO] at h
          have := hinv.six_pos hg1
          omega)]
        have hnohit : tstep (lvlsOf s.arena spine) i none ≠ some pt := by
          intro hhit
          obtain ⟨_, _, _, hmin⟩ := tstep_eq_some_iff.mp hhit
          exact hmin g (by simp [startO]) (by omega) hg2
        exact del_fwd_ok_low (a := none) hinv hpt hiM (by simp [startO])
          trivial hnohit
    | some j' =>
      obtain ⟨hj1, hj2⟩ := ha
      rw [length_eraseIdx_of_lt hLpt] at hj1
      rcases Decidable.em (j' < pt) with hjp | hjp
      · rw [getD_eraseIdx_lt hjp] at hj2
        rw [hreads _]
        cases hg : gdOf s spine key value i with
        | none =>
          exact absurd ⟨hj2, (hEp j' (by omega)).mpr hjp⟩
            (gd_none_facts hg j' (by omega))
        | some g =>
          obtain ⟨hg1, hg2, hg3, hg4⟩ := gd_some_facts hg
          have hgp : g < pt := (hEp g hg1).mp hg3
          rcases Decidable.em (j' = g) with hjg | hjg
          · subst hjg
            rcases Decidable.em (i < (lvlsOf s.arena spine).getD pt 0) with
              hlvl | hlvl
            · have hhit := gd_tstep_hit hinv hpt hptE hlvl
              rw [hg] at hhit
              rw [if_pos ⟨hlvl,
                show six (spine.eraseIdx pt) j' = six spine j' from
                  six_eraseIdx_lt hjp⟩]
              exact del_fwd_ok_hit hinv hpt hiM hhit
            · rw [if_neg (by rintro ⟨h, _⟩; exact hlvl h),
                show sixO (spine.eraseIdx pt) (some j') =
                  sixO spine (some j') from six_eraseIdx_lt hjp]
              exact del_fwd_ok_low (a := some j') hinv hpt hiM
                (by simp [startO]; omega) ⟨by omega, hj2⟩
                (fun hhit => hlvl (tstep_eq_some_iff.mp hhit).2.2.1)
          · rw [if_neg (by
              rintro ⟨_, h⟩
              rw [show sixO (spine.eraseIdx pt) (some j') =
                sixO spine (some j') from six_eraseIdx_lt hjp] at h
              exact hjg (hinv.six_inj (by omega) hg1 h)),
              show sixO (spine.eraseIdx pt) (some j') =
                sixO spine (some j') from six_eraseIdx_lt hjp]
            have hnohit : tstep (lvlsOf s.arena spine) i (some j') ≠
                some pt := by
              intro hhit
              obtain ⟨_, _, _, hmin⟩ := tstep_eq_some_iff.mp hhit
              have huni := gd_unique hinv hpt hptE (a := some j')
                ⟨by omega, hj2, hjp⟩ hmin
              rw [hg] at huni
              injection huni with huni
              exact hjg huni
            exact del_fwd_ok_low (a := some j') hinv hpt hiM
              (by simp [startO]; omega) ⟨by omega, hj2⟩ hnohit
      · rw [getD_eraseIdx_ge hLpt (by omega)] at hj2
        rw [hreads _,
          show sixO (spine.eraseIdx pt) (some j') = six spine (j' + 1) from
            six_eraseIdx_ge hpt (by omega)]
        rw [if_neg (by
          rintro ⟨_, h⟩
          cases hg : gdOf s spine key value i with
          | none =>
            rw [hg] at h
            simp only [sixO] at h
            have := hinv.six_pos (show j' + 1 < spine.length by omega)
            omega
          | some g =>
            rw [hg] at h
            obtain ⟨hg1, hg2, hg3, _⟩ := gd_some_facts hg
            have hgp : g < pt := (hEp g hg1).mp hg3
            have := hinv.six_inj (show j' + 1 < spine.length by omega) hg1 h
            omega)]
        exact del_fwd_ok_above hinv hpt hiM (by omega) (by omega) hj2
  · -- tier at or above the current level: untouched, and no participants
    obtain ⟨hskel, hhigh, _⟩ := del_fold_spec
      (delSearchDown s.arena key value (s.level - 1) 0) key value s.arena
      hinv.wfA s.level hinv.level_le (del_conds hinv key value)
    have hnop : ∀ c, c < (lvlsOf s.arena spine).length →
        ¬ i < (lvlsOf s.arena spine).getD c 0 := by
      intro c hc
      have := hinv.lvl_le_getD (j := c) (by omega)
      omega
    cases a with
    | some j' =>
      exfalso
      obtain ⟨hj1, hj2⟩ := ha
      rw [length_eraseIdx_of_lt hLpt] at hj1
      rcases Decidable.em (j' < pt) with h | h
      · rw [getD_eraseIdx_lt h] at hj2
        exact hnop j' (by omega) hj2
      · rw [getD_eraseIdx_ge hLpt (by omega)] at hj2
        exact hnop (j' + 1) (by omega) hj2
    | none =>
      rw [show tstep ((lvlsOf s.arena spine).eraseIdx pt) i none = none from
        tfrom_eraseIdx_none hLpt (tfrom_eq_none_iff.mpr
          (fun c _ hcl => hnop c hcl))]
      simp only [Option.map_none']
      rw [(hhigh (sixO (spine.eraseIdx pt) none) i (by omega)).1]
      have h3 := hinv.fwd_ok i hiM none trivial
      rw [show tstep (lvlsOf s.arena spine) i none = none from
        tfrom_eq_none_iff.mpr (fun c _ hcl => hnop c hcl)] at h3
      simp only [Option.map_none'] at h3
      exact h3

theorem del_span_ok {s : RankList K V} {spine : List Nat}
    (hinv : Inv s spine) {key : K} {value : V} {pt : Nat}
    (hpt : pt < spine.length)
    (hptE : (entsOf s.arena spine).getD pt default = (key, value)) :
    ∀ i < MaxLevel, ∀ a b,
      partO ((lvlsOf s.arena spine).eraseIdx pt) i a →
      tstep ((lvlsOf s.arena spine).eraseIdx pt) i a = some b →
      spanA ((List.range s.level).foldl
          (delStep (delSearchDown s.arena key value (s.level - 1) 0) key
            value) s.arena)
          (six (spine.eraseIdx pt) b) i =
        ((b : Int) + 1) - rankO a := by
  intro i hiM a b ha htst
  have hLlen : (lvlsOf s.arena spine).length = spine.length := Inv.lvls_length
  have hLpt : pt < (lvlsOf s.arena spine).length := by omega
  have hEp := entLt_target_iff_pos hinv hpt hptE
  obtain ⟨h1, h2, h3, h4⟩ := tstep_eq_some_iff.mp htst
  rw [length_eraseIdx_of_lt hLpt, hLlen] at h2
  have hil : i < s.level := by
    rcases Decidable.em (b < pt) with h | h
    · rw [getD_eraseIdx_lt h] at h3
      have := hinv.lvl_le_getD (j := b) (by omega)
      omega
    · rw [getD_eraseIdx_ge hLpt (by omega)] at h3
      have := hinv.lvl_le_getD (j := b + 1) (by omega)
      omega
  rw [del_span_reads hinv hpt hptE hil _]
  rcases Decidable.em (i < (lvlsOf s.arena spine).getD pt 0) with hlvl | hlvl
  · rw [if_pos hlvl]
    cases a with
    | none =>
      cases htro : tstep (lvlsOf s.arena spine) i none with
      | none =>
        exfalso
        rw [show tstep ((lvlsOf s.arena spine).eraseIdx pt) i none = none
          from tfrom_eraseIdx_none hLpt htro] at htst
        cases htst
      | some b0 =>
        obtain ⟨hob1, hob2, hob3, hob4⟩ := tstep_eq_some_iff.mp htro
        rcases lt_trichotomy b0 pt with hb0 | hb0 | hb0
        · rw [show tstep ((lvlsOf s.arena spine).eraseIdx pt) i none =
            some b0 from tfrom_eraseIdx_below hLpt htro hb0] at htst
          injection htst with hbb
          subst hbb
          rw [show six (spine.eraseIdx pt) b0 = six spine b0 from
            six_eraseIdx_lt hb0]
          cases hy : tstep (lvlsOf s.arena spine) i (some pt) with
          | none =>
            exact hinv.span_ok i hiM none b0 trivial htro
          | some bA =>
            dsimp only
            obtain ⟨hyA1, hyA2, _, _⟩ := tstep_eq_some_iff.mp hy
            rw [hLlen] at hyA2
            simp only [startO] at hyA1
            rw [if_neg (by
              intro h
              have := hinv.six_inj (by omega) hyA2 h
              omega)]
            exact hinv.span_ok i hiM none b0 trivial htro
        · rw [hb0] at htro
          rw [show tstep ((lvlsOf s.arena spine).eraseIdx pt) i none =
            (tfrom (lvlsOf s.arena spine) i (pt + 1)).map (· - 1) from
            tfrom_eraseIdx_hit hLpt htro] at htst
          cases hz : tfrom (lvlsOf s.arena spine) i (pt + 1) with
          | none => rw [hz] at htst; cases htst
          | some x =>
            rw [hz] at htst
            simp only [Option.map_some'] at htst
            injection htst with hbb
            obtain ⟨hx1, _, _, _⟩ := tfrom_eq_some_iff.mp hz
            have hxb : x = b + 1 := by omega
            subst hxb
            rw [show tstep (lvlsOf s.arena spine) i (some pt) = some (b + 1)
              from hz]
            dsimp only
            rw [show six (spine.eraseIdx pt) b = six spine (b + 1) from
              six_eraseIdx_ge hpt (by omega), if_pos rfl]
            have hs1 := hinv.span_ok i hiM (some pt) (b + 1)
              ⟨hLpt, hlvl⟩ (show _ from hz)
            have hs2 := hinv.span_ok i hiM none pt trivial htro
            rw [hs1, hs2]
            simp only [rankO]
            push_cast
            ring
        · exact absurd hlvl (hob4 pt (by simp [startO]) hb0)
    | some j' =>
      obtain ⟨hj1, hj2⟩ := ha
      rw [length_eraseIdx_of_lt hLpt] at hj1
      rcases Decidable.em (j' < pt) with hjp | hjp
      · rw [getD_eraseIdx_lt hjp] at hj2
        cases htro : tstep (lvlsOf s.arena spine) i (some j') with
        | none =>
          exfalso
          rw [show tstep ((lvlsOf s.arena spine).eraseIdx pt) i (some j') =
            none from tfrom_eraseIdx_none hLpt htro] at htst
          cases htst
        | some b0 =>
          obtain ⟨hob1, hob2, hob3, hob4⟩ := tstep_eq_some_iff.mp htro
          rcases lt_trichotomy b0 pt with hb0 | hb0 | hb0
          · rw [show tstep ((lvlsOf s.arena spine).eraseIdx pt) i (some j') =
              some b0 from tfrom_eraseIdx_below hLpt htro hb0] at htst
            injection htst with hbb
            subst hbb
            rw [show six (spine.eraseIdx pt) b0 = six spine b0 from
              six_eraseIdx_lt hb0]
            cases hy : tstep (lvlsOf s.arena spine) i (some pt) with
            | none =>
              exact hinv.span_ok i hiM (some j') b0 ⟨by omega, hj2⟩ htro
            | some bA =>
              dsimp only
              obtain ⟨hyA1, hyA2, _, _⟩ := tstep_eq_some_iff.mp hy
              rw [hLlen] at hyA2
              simp only [startO] at hyA1
              rw [if_neg (by
                intro h
                have := hinv.six_inj (by omega) hyA2 h
                omega)]
              exact hinv.span_ok i hiM (some j') b0 ⟨by omega, hj2⟩ htro
          · rw [hb0] at htro
            rw [show tstep ((lvlsOf s.arena spine).eraseIdx pt) i (some j') =
              (tfrom (lvlsOf s.arena spine) i (pt + 1)).map (· - 1) from
              tfrom_eraseIdx_hit hLpt htro] at htst
            cases hz : tfrom (lvlsOf s.arena spine) i (pt + 1) with
            | none => rw [hz] at htst; cases htst
            | some x =>
              rw [hz] at htst
              simp only [Option.map_some'] at htst
              injection htst with hbb
              obtain ⟨hx1, _, _, _⟩ := tfrom_eq_some_iff.mp hz
              have hxb : x = b + 1 := by omega
              subst hxb
              rw [show tstep (lvlsOf s.arena spine) i (some pt) = some (b + 1)
                from hz]
              dsimp only
              rw [show six (spine.eraseIdx pt) b = six spine (b + 1) from
                six_eraseIdx_ge hpt (by omega), if_pos rfl]
              have hs1 := hinv.span_ok i hiM (some pt) (b + 1)
                ⟨hLpt, hlvl⟩ (show _ from hz)
              have hs2 := hinv.span_ok i hiM (some j') pt ⟨by omega, hj2⟩ htro
              rw [hs1, hs2]
              simp only [rankO]
              push_cast
              ring
          · exact absurd hlvl
              (hob4 pt (by simp [startO]; omega) hb0)
      · rw [getD_eraseIdx_ge hLpt (by omega)] at hj2
        rw [show tstep ((lvlsOf s.arena spine).eraseIdx pt) i (some j') =
          (tfrom (lvlsOf s.arena spine) i (j' + 1 + 1)).map (· - 1) from
          tfrom_eraseIdx_above hLpt (by simp only [startO]; omega)] at htst
        cases hz : tfrom (lvlsOf s.arena spine) i (j' + 1 + 1) with
        | none => rw [hz] at htst; cases htst
        | some x =>
          rw [hz] at htst
          simp only [Option.map_some'] at htst
          injection htst with hbb
          obtain ⟨hx1, _, _, _⟩ := tfrom_eq_some_iff.mp hz
          have hxb : x = b + 1 := by omega
          subst hxb
          have hsold := hinv.span_ok i hiM (some (j' + 1)) (b + 1)
            ⟨by omega, hj2⟩ (show _ from hz)
          rw [show six (spine.eraseIdx pt) b = six spine (b + 1) from
            six_eraseIdx_ge hpt (by omega)]
          cases hy : tstep (lvlsOf s.arena spine) i (some pt) with
          | none =>
            dsimp only
            rw [hsold]
            simp only [rankO, startO] at h1 ⊢
            push_cast
            omega
          | some bA =>
            dsimp only
            obtain ⟨hyA1, hyA2, _, hyA4⟩ := tstep_eq_some_iff.mp hy
            rw [hLlen] at hyA2
            rw [if_neg (by
              intro h
              have hba := hinv.six_inj (by omega) hyA2 h
              exact hyA4 (j' + 1) (by simp [startO]; omega)
                (by simp only [startO] at h1; omega) hj2)]
            rw [hsold]
            simp only [rankO, startO] at h1 ⊢
            push_cast
            omega
  · rw [if_neg hlvl]
    cases a with
    | none =>
      cases htro : tstep (lvlsOf s.arena spine) i none with
      | none =>
        exfalso
        rw [show tstep ((lvlsOf s.arena spine).eraseIdx pt) i none = none
          from tfrom_eraseIdx_none hLpt htro] at htst
        cases htst
      | some b0 =>
        obtain ⟨hob1, hob2, hob3, hob4⟩ := tstep_eq_some_iff.mp htro
        have hb0pt : b0 ≠ pt := by
          intro h
          rw [h] at hob3
          exact hlvl hob3
        rcases lt_or_gt_of_ne hb0pt with hb0 | hb0
        · rw [show tstep ((lvlsOf s.arena spine).eraseIdx pt) i none =
            some b0 from tfrom_eraseIdx_below hLpt htro hb0] at htst
          injection htst with hbb
          subst hbb
          rw [show six (spine.eraseIdx pt) b0 = six spine b0 from
            six_eraseIdx_lt hb0]
          rcases gd_tstep_miss hinv hpt hptE hlvl with hm | ⟨bB, hm, hBgt⟩
          · rw [hm]
            exact hinv.span_ok i hiM none b0 trivial htro
          · rw [hm]
            dsimp only
            obtain ⟨_, hmB2, _, _⟩ := tstep_eq_some_iff.mp hm
            rw [hLlen] at hmB2
            rw [if_neg (by
              intro h
              have := hinv.six_inj (by omega) hmB2 h
              omega)]
            exact hinv.span_ok i hiM none b0 trivial htro
        · rw [show tstep ((lvlsOf s.arena spine).eraseIdx pt) i none =
            some (b0 - 1) from
            tfrom_eraseIdx_cross hLpt (by simp [startO]) htro hb0] at htst
          injection htst with hbb
          have huni : (none : Option Nat) = gdOf s spine key value i :=
            gd_unique hinv hpt hptE trivial
              (fun c hc1 hc2 => hob4 c hc1 (by omega))
          rw [← huni, htro]
          dsimp only
          rw [show six (spine.eraseIdx pt) b = six spine b0 from by
            rw [← hbb]
            rw [six_eraseIdx_ge hpt (by omega), show b0 - 1 + 1 = b0 by omega],
            if_pos rfl]
          rw [hinv.span_ok i hiM none b0 trivial htro]
          simp only [rankO]
          omega
    | some j' =>
      obtain ⟨hj1, hj2⟩ := ha
      rw [length_eraseIdx_of_lt hLpt] at hj1
      rcases Decidable.em (j' < pt) with hjp | hjp
      · rw [getD_eraseIdx_lt hjp] at hj2
        cases htro : tstep (lvlsOf s.arena spine) i (some j') with
        | none =>
          exfalso
          rw [show tstep ((lvlsOf s.arena spine).eraseIdx pt) i (some j') =
            none from tfrom_eraseIdx_none hLpt htro] at htst
          cases htst
        | some b0 =>
          obtain ⟨hob1, hob2, hob3, hob4⟩ := tstep_eq_some_iff.mp htro
          have hb0pt : b0 ≠ pt := by
            intro h
            rw [h] at hob3
            exact hlvl hob3
          rcases lt_or_gt_of_ne hb0pt with hb0 | hb0
          · rw [show tstep ((lvlsOf s.arena spine).eraseIdx pt) i (some j') =
              some b0 from tfrom_eraseIdx_below hLpt htro hb0] at htst
            injection htst with hbb
            subst hbb
            rw [show six (spine.eraseIdx pt) b0 = six spine b0 from
              six_eraseIdx_lt hb0]
            rcases gd_tstep_miss hinv hpt hptE hlvl with hm | ⟨bB, hm, hBgt⟩
            · rw [hm]
              exact hinv.span_ok i hiM (some j') b0 ⟨by omega, hj2⟩ htro
            · rw [hm]
              dsimp only
              obtain ⟨_, hmB2, _, _⟩ := tstep_eq_some_iff.mp hm
              rw [hLlen] at hmB2
              rw [if_neg (by
                intro h
                have := hinv.six_inj (by omega) hmB2 h
                omega)]
              exact hinv.span_ok i hiM (some j') b0 ⟨by omega, hj2⟩ htro
          · rw [show tstep ((lvlsOf s.arena spine).eraseIdx pt) i (some j') =
              some (b0 - 1) from
              tfrom_eraseIdx_cross hLpt (by simp [startO]; omega) htro
                hb0] at htst
            injection htst with hbb
            have huni : (some j' : Option Nat) = gdOf s spine key value i :=
              gd_unique hinv hpt hptE ⟨by omega, hj2, hjp⟩
                (fun c hc1 hc2 => hob4 c hc1 (by omega))
            rw [← huni, htro]
            dsimp only
            rw [show six (spine.eraseIdx pt) b = six spine b0 from by
              rw [← hbb]
              rw [six_eraseIdx_ge hpt (by omega),
                show b0 - 1 + 1 = b0 by omega],
              if_pos rfl]
            rw [hinv.span_ok i hiM (some j') b0 ⟨by omega, hj2⟩ htro]
            simp only [rankO]
            omega
      · rw [getD_eraseIdx_ge hLpt (by omega)] at hj2
        rw [show tstep ((lvlsOf s.arena spine).eraseIdx pt) i (some j') =
          (tfrom (lvlsOf s.arena spine) i (j' + 1 + 1)).map (· - 1) from
          tfrom_eraseIdx_above hLpt (by simp only [startO]; omega)] at htst
        cases hz : tfrom (lvlsOf s.arena spine) i (j' + 1 + 1) with
        | none => rw [hz] at htst; cases htst
        | some x =>
          rw [hz] at htst
          simp only [Option.map_some'] at htst
          injection htst with hbb
          obtain ⟨hx1, _, _, _⟩ := tfrom_eq_some_iff.mp hz
          have hxb : x = b + 1 := by omega
          subst hxb
          have hsold := hinv.span_ok i hiM (some (j' + 1)) (b + 1)
            ⟨by omega, hj2⟩ (show _ from hz)
          rw [show six (spine.eraseIdx pt) b = six spine (b + 1) from
            six_eraseIdx_ge hpt (by omega)]
          rcases gd_tstep_miss hinv hpt hptE hlvl with hm | ⟨bB, hm, hBgt⟩
          · rw [hm]
            dsimp only
            rw [hsold]
            simp only [rankO, startO] at h1 ⊢
            push_cast
            omega
          · rw [hm]
            dsimp only
            obtain ⟨hmB1, hmB2, _, hmB4⟩ := tstep_eq_some_iff.mp hm
            rw [hLlen] at hmB2
            rw [if_neg (by
              intro h
              have hba := hinv.six_inj (by omega) hmB2 h
              have hGd1 := (gd_below_pt hinv hpt hptE i).1
              exact hmB4 (j' + 1) (by omega)
                (by simp only [startO] at h1; omega) hj2)]
            rw [hsold]
            simp only [rankO, startO] at h1 ⊢
            push_cast
            omega

/-! ### The shrink loop and dictionary lemmas for `del` -/

theorem shrinkLevel_le (hdr : Node K V) : ∀ lv, shrinkLevel hdr lv ≤ lv
  | 0 => le_refl _
  | 1 => le_refl _
  | l + 2 => by
    rw [shrinkLevel]
    split
    · exact le_trans (shrinkLevel_le hdr (l + 1)) (by omega)
    · exact le_refl _

theorem shrinkLevel_pos (hdr : Node K V) :
    ∀ lv, 1 ≤ lv → 1 ≤ shrinkLevel hdr lv
  | 1, _ => le_refl _
  | l + 2, _ => by
    rw [shrinkLevel]
    split
    · exact shrinkLevel_pos hdr (l + 1) (by omega)
    · omega

theorem shrinkLevel_none (hdr : Node K V) :
    ∀ lv t, shrinkLevel hdr lv ≤ t → t < lv →
      hdr.forward.getD t none = none
  | 0, t, _, h2 => absurd h2 (by omega)
  | 1, t, h1, h2 => by
    rw [shrinkLevel] at h1
    omega
  | l + 2, t, h1, h2 => by
    rw [shrinkLevel] at h1
    by_cases h : hdr.forward.getD (l + 1) none = none
    · rw [if_pos h] at h1
      rcases Decidable.em (t = l + 1) with ht | ht
      · rw [ht]
        exact h
      · exact shrinkLevel_none hdr (l + 1) t h1 (by omega)
    · rw [if_neg h] at h1
      omega

theorem shrinkLevel_tight (hdr : Node K V) :
    ∀ lv, 1 ≤ lv → shrinkLevel hdr lv = 1 ∨
      ¬ hdr.forward.getD (shrinkLevel hdr lv - 1) none = none
  | 1, _ => Or.inl rfl
  | l + 2, _ => by
    rw [shrinkLevel]
    by_cases h : hdr.forward.getD (l + 1) none = none
    · rw [if_pos h]
      exact shrinkLevel_tight hdr (l + 1) (by omega)
    · rw [if_neg h]
      exact Or.inr h

theorem dictGet_dictDel_self {d : List (K × V)} {k : K} :
    dictGet (dictDel d k) k = none := by
  unfold dictGet
  have h : (dictDel d k).find? (fun e => decide (e.1 = k)) = none := by
    rw [List.find?_eq_none]
    intro e he
    have := List.of_mem_filter he
    simp only [decide_eq_true_eq] at this ⊢
    exact this
  rw [h]
  rfl

theorem map_fst_getD_ne {E : List (K × V)} (hnodup : (E.map Prod.fst).Nodup)
    {j j' : Nat} (hj : j < E.length) (hj' : j' < E.length) (hne : j ≠ j') :
    (E.getD j default).1 ≠ (E.getD j' default).1 := by
  intro hEq
  have hjE : j < (E.map Prod.fst).length := by rw [List.length_map]; omega
  have hj'E : j' < (E.map Prod.fst).length := by rw [List.length_map]; omega
  have h1 : (E.map Prod.fst)[j] = (E.map Prod.fst)[j'] := by
    rw [List.getElem_map, List.getElem_map]
    rw [List.getD_eq_getElem?_getD, List.getElem?_eq_getElem hj] at hEq
    rw [List.getD_eq_getElem?_getD, List.getElem?_eq_getElem hj'] at hEq
    exact hEq
  exact hne ((List.Nodup.getElem_inj_iff hnodup).mp h1)

theorem key_not_in_eraseIdx {E : List (K × V)} {pt : Nat} {key : K}
    (hnodup : (E.map Prod.fst).Nodup) (hpt : pt < E.length)
    (hkey : (E.getD pt default).1 = key) :
    dictGet (E.eraseIdx pt) key = none := by
  unfold dictGet
  have h : (E.eraseIdx pt).find? (fun e => decide (e.1 = key)) = none := by
    rw [List.find?_eq_none]
    intro e he
    simp only [decide_eq_true_eq]
    intro hek
    obtain ⟨j, hj, hje⟩ := List.getElem_of_mem he
    rw [length_eraseIdx_of_lt hpt] at hj
    have hgd : (E.eraseIdx pt).getD j default = e := by
      rw [List.getD_eq_getElem?_getD, List.getElem?_eq_getElem
        (by rw [length_eraseIdx_of_lt hpt]; omega)]
      exact hje
    rcases Decidable.em (j < pt) with hjp | hjp
    · rw [getD_eraseIdx_lt hjp] at hgd
      apply map_fst_getD_ne hnodup (by omega : j < E.length) hpt (by omega)
      rw [hgd, hkey, hek]
    · rw [getD_eraseIdx_ge hpt (by omega)] at hgd
      apply map_fst_getD_ne hnodup (by omega : j + 1 < E.length) hpt (by omega)
      rw [hgd, hkey, hek]
  rw [h]
  rfl

theorem dictGet_eraseIdx_ne {E : List (K × V)} {pt : Nat} {key k : K}
    (hpt : pt < E.length) (hkey : (E.getD pt default).1 = key)
    (hk : k ≠ key) :
    dictGet (E.eraseIdx pt) k = dictGet E k := by
  have hE : E = E.take pt ++ E[pt] :: E.drop (pt + 1) := by
    conv_lhs => rw [← List.take_append_drop pt E]
    rw [List.drop_eq_getElem_cons hpt]
  have hcons : (E[pt] :: E.drop (pt + 1)).find? (fun e => decide (e.1 = k)) =
      (E.drop (pt + 1)).find? (fun e => decide (e.1 = k)) := by
    apply List.find?_cons_of_neg
    simp only [decide_eq_true_eq]
    intro h
    exact hk (by
      rw [← h, ← hkey, List.getD_eq_getElem?_getD,
        List.getElem?_eq_getElem hpt]
      rfl)
  unfold dictGet
  rw [List.eraseIdx_eq_take_drop_succ, List.find?_append]
  conv_rhs => rw [hE, List.find?_append, hcons]

/-- `del` on a present key preserves the coupling invariant: the new spine
is the old one with the target's position removed. -/
theorem del_preserves {s : RankList K V} {spine : List Nat}
    (hinv : Inv s spine) {key : K} {value : V} {pt : Nat}
    (hfound : dictGet s.dict key = some value)
    (hpt : pt < spine.length)
    (hptE : (entsOf s.arena spine).getD pt default = (key, value)) :
    Inv (s.del key).1 (spine.eraseIdx pt) := by
  have hLlen : (lvlsOf s.arena spine).length = spine.length := Inv.lvls_length
  have hElen : (entsOf s.arena spine).length = spine.length := Inv.ents_length
  have hLpt : pt < (lvlsOf s.arena spine).length := by omega
  have harena : (s.del key).1.arena = (List.range s.level).foldl
      (delStep (delSearchDown s.arena key value (s.level - 1) 0) key value)
      s.arena := by
    unfold RankList.del
    rw [hfound]
  have hdict : (s.del key).1.dict = dictDel s.dict key := by
    unfold RankList.del
    rw [hfound]
  have hlevel : (s.del key).1.level = shrinkLevel
      (nodeA ((List.range s.level).foldl
        (delStep (delSearchDown s.arena key value (s.level - 1) 0) key value)
        s.arena) 0) s.level := by
    unfold RankList.del
    rw [hfound]
  have hlength : (s.del key).1.length = s.length - 1 := by
    unfold RankList.del
    rw [hfound]
  obtain ⟨hskel, hhigh, _⟩ := del_fold_spec
    (delSearchDown s.arena key value (s.level - 1) 0) key value s.arena
    hinv.wfA s.level hinv.level_le (del_conds hinv key value)
  have hARlen : (s.del key).1.arena.length = s.arena.length := by
    rw [harena]
    exact hskel.1
  have hskel' : skelEq (s.del key).1.arena s.arena := by
    rw [harena]
    exact hskel
  have hLab : lvlsOf (s.del key).1.arena (spine.eraseIdx pt) =
      (lvlsOf s.arena spine).eraseIdx pt := by
    unfold lvlsOf
    rw [harena, map_eraseIdx]
    congr 1
    apply List.map_congr_left
    intro ix _
    exact (hskel.2 ix).2.1
  have hEab : entsOf (s.del key).1.arena (spine.eraseIdx pt) =
      (entsOf s.arena spine).eraseIdx pt := by
    unfold entsOf
    rw [harena, map_eraseIdx]
    congr 1
    apply List.map_congr_left
    intro ix _
    rw [(hskel.2 ix).1]
  have hfwd_ok : ∀ i < MaxLevel, ∀ a,
      partO (lvlsOf (s.del key).1.arena (spine.eraseIdx pt)) i a →
      fwdA (s.del key).1.arena (sixO (spine.eraseIdx pt) a) i =
        Option.map (six (spine.eraseIdx pt))
          (tstep (lvlsOf (s.del key).1.arena (spine.eraseIdx pt)) i a) := by
    rw [hLab, harena]
    exact del_fwd_ok hinv hpt hptE
  have hgetDmem : ∀ j, j < ((lvlsOf s.arena spine).eraseIdx pt).length →
      ((lvlsOf s.arena spine).eraseIdx pt).getD j 0 ∈
        (lvlsOf s.arena spine).eraseIdx pt := by
    intro j hj
    rw [List.getD_eq_getElem?_getD, List.getElem?_eq_getElem hj]
    exact List.getElem_mem hj
  have hlvl_le_new : ∀ q ∈ (lvlsOf s.arena spine).eraseIdx pt,
      q ≤ (s.del key).1.level := by
    intro q hq
    by_contra hqr
    have hqs : q ≤ s.level :=
      hinv.lvl_le q (List.Sublist.mem hq (List.eraseIdx_sublist _ _))
    have hq1 : 1 ≤ q :=
      hinv.lvl_pos q (List.Sublist.mem hq (List.eraseIdx_sublist _ _))
    have htM : q - 1 < MaxLevel := by
      have := hinv.level_le
      omega
    obtain ⟨j, hj, hje⟩ := List.getElem_of_mem hq
    have hgd : ((lvlsOf s.arena spine).eraseIdx pt).getD j 0 = q := by
      rw [List.getD_eq_getElem?_getD, List.getElem?_eq_getElem hj]
      exact hje
    have hstep : tstep ((lvlsOf s.arena spine).eraseIdx pt) (q - 1) none ≠
        none := by
      intro hnone
      exact absurd (by rw [hgd]; omega)
        (tstep_eq_none_iff.mp hnone j (by simp [startO]) hj)
    have hread := hfwd_ok (q - 1) htM none (by rw [hLab]; trivial)
    rw [hLab] at hread
    cases hx : tstep ((lvlsOf s.arena spine).eraseIdx pt) (q - 1) none with
    | none => exact hstep hx
    | some b =>
      rw [hx] at hread
      simp only [Option.map_some'] at hread
      have hnone2 : fwdA (s.del key).1.arena 0 (q - 1) = none := by
        show (nodeA (s.del key).1.arena 0).forward.getD (q - 1) none = none
        rw [harena]
        rw [hlevel] at hqr
        exact shrinkLevel_none _ s.level (q - 1) (by omega) (by omega)
      rw [show sixO (spine.eraseIdx pt) none = 0 from rfl] at hread
      rw [hnone2] at hread
      cases hread
  refine ⟨?_, ?_, ?_, ?_, ?_, ?_, ?_, ?_, ?_, ?_, ?_, ?_, ?_, ?_, ?_, ?_, ?_,
    ?_⟩
  · -- arena_pos
    rw [hARlen]
    exact hinv.arena_pos
  · -- spine_pos
    intro j hj
    exact hinv.spine_pos j (List.Sublist.mem hj (List.eraseIdx_sublist _ _))
  · -- spine_lt
    intro j hj
    rw [hARlen]
    exact hinv.spine_lt j (List.Sublist.mem hj (List.eraseIdx_sublist _ _))
  · -- spine_nodup
    exact hinv.spine_nodup.sublist (List.eraseIdx_sublist _ _)
  · -- sorted
    rw [hEab]
    exact hinv.sorted.sublist (List.eraseIdx_sublist _ _)
  · -- fwd_len
    intro ix hix
    rw [hARlen] at hix
    exact (wfArr_of_skelEq hskel' hinv.wfA ix (by rw [hARlen]; exact hix)).1
  · -- span_len
    intro ix hix
    rw [hARlen] at hix
    exact (wfArr_of_skelEq hskel' hinv.wfA ix (by rw [hARlen]; exact hix)).2
  · -- lvl_pos
    intro q hq
    rw [hLab] at hq
    exact hinv.lvl_pos q (List.Sublist.mem hq (List.eraseIdx_sublist _ _))
  · -- lvl_le
    intro q hq
    rw [hLab] at hq
    exact hlvl_le_new q hq
  · -- level_pos
    rw [hlevel]
    exact shrinkLevel_pos _ s.level hinv.level_pos
  · -- level_le
    rw [hlevel]
    exact le_trans (shrinkLevel_le _ s.level) hinv.level_le
  · -- level_tight
    rcases shrinkLevel_tight (nodeA ((List.range s.level).foldl
        (delStep (delSearchDown s.arena key value (s.level - 1) 0) key value)
        s.arena) 0) s.level hinv.level_pos with h1 | h1
    · left
      rw [hlevel]
      exact h1
    · right
      set r := shrinkLevel (nodeA ((List.range s.level).foldl
        (delStep (delSearchDown s.arena key value (s.level - 1) 0) key value)
        s.arena) 0) s.level with hr
      have hrpos : 1 ≤ r := shrinkLevel_pos _ s.level hinv.level_pos
      have hrle : r ≤ s.level := shrinkLevel_le _ s.level
      have hrM : r - 1 < MaxLevel := by
        have := hinv.level_le
        omega
      have hread := hfwd_ok (r - 1) hrM none (by rw [hLab]; trivial)
      have hfr : fwdA (s.del key).1.arena 0 (r - 1) ≠ none := by
        show ¬ (nodeA (s.del key).1.arena 0).forward.getD (r - 1) none = none
        rw [harena]
        exact h1
      rw [show sixO (spine.eraseIdx pt) none = 0 from rfl] at hread
      cases hx : tstep (lvlsOf (s.del key).1.arena (spine.eraseIdx pt))
          (r - 1) none with
      | none =>
        rw [hx] at hread
        simp only [Option.map_none'] at hread
        rw [hlevel] at *
        exact absurd hread hfr
      | some b =>
        obtain ⟨_, hb2, hb3, _⟩ := tstep_eq_some_iff.mp hx
        rw [hLab] at hb2 hb3
        have hble : (lvlsOf (s.del key).1.arena (spine.eraseIdx pt)).getD b 0 ≤
            (s.del key).1.level := by
          rw [hLab]
          exact hlvl_le_new _ (hgetDmem b hb2)
        rw [hLab] at hble
        have heq : ((lvlsOf s.arena spine).eraseIdx pt).getD b 0 =
            (s.del key).1.level := by
          rw [hlevel] at *
          omega
        rw [hLab]
        rw [← heq]
        exact hgetDmem b hb2
  · -- fwd_ok
    exact hfwd_ok
  · -- span_ok
    rw [hLab, harena]
    exact del_span_ok hinv hpt hptE
  · -- dict_keys_nodup
    rw [hdict]
    exact hinv.dict_keys_nodup.sublist
      (List.Sublist.map Prod.fst (List.filter_sublist _))
  · -- ents_keys_nodup
    rw [hEab, map_eraseIdx]
    exact hinv.ents_keys_nodup.sublist (List.eraseIdx_sublist _ _)
  · -- dict_ok
    intro k
    rw [hdict, hEab]
    rcases Decidable.em (k = key) with hk | hk
    · subst hk
      rw [dictGet_dictDel_self]
      rw [key_not_in_eraseIdx hinv.ents_keys_nodup (by omega)
        (by rw [hptE])]
    · rw [dictGet_dictDel_ne hk, hinv.dict_ok k,
        dictGet_eraseIdx_ne (by omega) (by rw [hptE]) hk]
  · -- length_ok
    rw [hlength, hinv.length_ok, length_eraseIdx_of_lt (by omega)]
    omega

theorem del_absent_eq {s : RankList K V} {key : K}
    (h : dictGet s.dict key = none) : s.del key = (s, false) := by
  unfold RankList.del
  rw [h]

theorem del_inv {s : RankList K V} {spine : List Nat} (hinv : Inv s spine)
    (key : K) : ∃ spine', Inv (s.del key).1 spine' := by
  cases hf : dictGet s.dict key with
  | none =>
    refine ⟨spine, ?_⟩
    rw [del_absent_eq hf]
    exact hinv
  | some value =>
    obtain ⟨pt, hpt, hptE⟩ := dict_locate hinv hf
    exact ⟨spine.eraseIdx pt, del_preserves hinv hf hpt hptE⟩

theorem set_inv {s : RankList K V} {spine : List Nat} (hinv : Inv s spine)
    (key : K) (value : V) {lvl : Nat} (h1 : 1 ≤ lvl) (h2 : lvl ≤ MaxLevel) :
    ∃ spine', Inv (s.set key value lvl) spine' := by
  unfold RankList.set
  rcases Decidable.em ((dictGet s.dict key).isSome = true) with hp | hp
  · rw [if_pos hp]
    cases hf : dictGet s.dict key with
    | none => rw [hf] at hp; simp at hp
    | some value' =>
      obtain ⟨pt, hpt, hptE⟩ := dict_locate hinv hf
      have hinv2 := del_preserves hinv hf hpt hptE
      have hfresh : dictGet (s.del key).1.dict key = none := by
        have hdict : (s.del key).1.dict = dictDel s.dict key := by
          unfold RankList.del
          rw [hf]
        rw [hdict]
        exact dictGet_dictDel_self
      exact ⟨_, insertNode_preserves hinv2 hfresh h1 h2⟩
  · rw [if_neg hp]
    have hfresh : dictGet s.dict key = none := by
      cases hf : dictGet s.dict key with
      | none => rfl
      | some v => rw [hf] at hp; simp at hp
    exact ⟨_, insertNode_preserves hinv hfresh h1 h2⟩

/-- Every state reachable by `Set` and `Del` operations carries the coupling
invariant for some spine. -/
theorem reachable_inv {s : RankList K V} (h : Reachable s) :
    ∃ spine, Inv s spine := by
  induction h with
  | base => exact ⟨[], inv_new⟩
  | step_set k v lvl _ h1 h2 ih =>
    obtain ⟨spine, hinv⟩ := ih
    exact set_inv hinv k v h1 h2
  | step_del k _ ih =>
    obtain ⟨spine, hinv⟩ := ih
    exact del_inv hinv k

/-! ### Characterisation of `Rank` -/

theorem node_is_target_iff {s : RankList K V} {spine : List Nat}
    (hinv : Inv s spine) {key : K} {value : V} {pt : Nat}
    (hpt : pt < spine.length)
    (hptE : (entsOf s.arena spine).getD pt default = (key, value))
    {b : Nat} (hb : b < spine.length) :
    ((nodeA s.arena (six spine b)).data.value = value ∧
      (nodeA s.arena (six spine b)).data.key = key) ↔ b = pt := by
  have hdata := data_pair_at (s := s) (w := spine) hb
  constructor
  · rintro ⟨hv, hk⟩
    by_contra hne
    apply ents_entry_ne hinv hpt hb hne
    rw [← hdata, hptE, hk, hv]
  · intro h
    subst h
    rw [hptE] at hdata
    exact ⟨congrArg Prod.snd hdata, congrArg Prod.fst hdata⟩

theorem target_lt_iff_pos {s : RankList K V} {spine : List Nat}
    (hinv : Inv s spine) {key : K} {value : V} {pt : Nat}
    (hpt : pt < spine.length)
    (hptE : (entsOf s.arena spine).getD pt default = (key, value)) :
    ∀ b < spine.length,
      (entLt (key, value) ((entsOf s.arena spine).getD b default) ↔
        pt < b) := by
  intro b hb
  constructor
  · intro h
    by_contra hle
    rcases Nat.eq_or_lt_of_le (le_of_not_lt hle) with heq | hlt
    · rw [heq, hptE] at h
      exact entLt_irrefl _ h
    · have h2 := hinv.ents_mono hlt hpt
      rw [hptE] at h2
      exact entLt_irrefl _ (entLt_trans h h2)
  · intro h
    have := hinv.ents_mono h hb
    rwa [hptE] at this

theorem rankLevel_spec {s : RankList K V} {spine : List Nat}
    (hinv : Inv s spine) {key : K} {value : V} {pt : Nat}
    (hpt : pt < spine.length)
    (hptE : (entsOf s.arena spine).getD pt default = (key, value))
    {i : Nat} (hi : i < MaxLevel) (fuel : Nat) (a : Option Nat)
    (ha : okD (lvlsOf s.arena spine) (entsOf s.arena spine) key value i
      spine.length a)
    (hfuel : spine.length + 1 ≤ fuel + startO a) :
    rankLevel s.arena key value i fuel (sixO spine a) (rankO a) =
      if tstep (lvlsOf s.arena spine) i (gdOf s spine key value i) = some pt
      then Sum.inr ((pt : Int) + 1)
      else Sum.inl (sixO spine (gdOf s spine key value i),
        rankO (gdOf s spine key value i)) := by
  have hLlen : (lvlsOf s.arena spine).length = spine.length := Inv.lvls_length
  have hEp := entLt_target_iff_pos hinv hpt hptE
  have hGt := target_lt_iff_pos hinv hpt hptE
  induction fuel generalizing a with
  | zero =>
    exfalso
    cases a with
    | none => simp [startO] at hfuel
    | some j =>
      obtain ⟨hjn, _, _⟩ := ha
      simp [startO] at hfuel
      omega
  | succ fuel ih =>
    have hpart : partO (lvlsOf s.arena spine) i a := by
      cases a with
      | none => trivial
      | some j => exact ⟨by rw [hLlen]; exact ha.1, ha.2.1⟩
    have hread := hinv.fwd_ok i hi a hpart
    rw [rankLevel, hread]
    cases htstep : tstep (lvlsOf s.arena spine) i a with
    | none =>
      simp only [Option.map_none']
      have hg : a = gdOf s spine key value i := by
        apply gd_unique hinv hpt hptE
        · cases a with
          | none => trivial
          | some j => exact ⟨ha.1, ha.2.1, (hEp j ha.1).mp ha.2.2⟩
        · intro c hc1 hc2
          exact tstep_eq_none_iff.mp htstep c hc1 (by omega)
      rw [← hg, htstep, if_neg (by simp)]
    | some b =>
      have hb := tstep_eq_some_iff.mp htstep
      rw [hLlen] at hb
      obtain ⟨hab, hbn, hbl, hmin⟩ := hb
      simp only [Option.map_some']
      have hdata := data_pair_at (s := s) (w := spine) hbn
      rcases Decidable.em (b = pt) with hbpt | hbpt
      · rw [if_pos ((node_is_target_iff hinv hpt hptE hbn).mpr hbpt)]
        subst hbpt
        have hg : a = gdOf s spine key value i := by
          apply gd_unique hinv hpt hptE
          · cases a with
            | none => trivial
            | some j => exact ⟨ha.1, ha.2.1, (hEp j ha.1).mp ha.2.2⟩
          · intro c hc1 hc2
            exact hmin c hc1 hc2
        rw [← hg, htstep, if_pos rfl]
        have hspan := hinv.span_ok i hi a b hpart htstep
        rw [hspan, show rankO a + ((b : Int) + 1 - rankO a) = (b : Int) + 1
          by ring]
      · rw [if_neg (fun h => hbpt
          ((node_is_target_iff hinv hpt hptE hbn).mp h))]
        rcases lt_or_gt_of_ne hbpt with hblt | hbgt
        · have hcond : ¬ (value < (nodeA s.arena (six spine b)).data.value ∨
              ((nodeA s.arena (six spine b)).data.value = value ∧
                key < (nodeA s.arena (six spine b)).data.key)) := by
            intro h
            have h2 := (cond_entLt_iff
              ((nodeA s.arena (six spine b)).data.key,
                (nodeA s.arena (six spine b)).data.value)).mp h
            rw [hdata] at h2
            have h3 := (hGt b hbn).mp h2
            omega
          rw [if_neg hcond]
          have hspan := hinv.span_ok i hi a b hpart htstep
          have hsum : rankO a + spanA s.arena (six spine b) i =
              rankO (some b) := by
            rw [hspan, rankO]
            ring
          rw [hsum]
          exact ih (some b) ⟨hbn, hbl, (hEp b hbn).mpr hblt⟩
            (by show spine.length + 1 ≤ fuel + (b + 1); omega)
        · have hcond : (value < (nodeA s.arena (six spine b)).data.value ∨
              ((nodeA s.arena (six spine b)).data.value = value ∧
                key < (nodeA s.arena (six spine b)).data.key)) := by
            apply (cond_entLt_iff
              ((nodeA s.arena (six spine b)).data.key,
                (nodeA s.arena (six spine b)).data.value)).mpr
            rw [hdata]
            exact (hGt b hbn).mpr hbgt
          rw [if_pos hcond]
          have hg : a = gdOf s spine key value i := by
            apply gd_unique hinv hpt hptE
            · cases a with
              | none => trivial
              | some j => exact ⟨ha.1, ha.2.1, (hEp j ha.1).mp ha.2.2⟩
            · intro c hc1 hc2
              exact hmin c hc1 (by omega)
          rw [← hg, htstep, if_neg (by intro h; injection h with h; omega)]

theorem rankDown_spec {s : RankList K V} {spine : List Nat}
    (hinv : Inv s spine) {key : K} {value : V} {pt : Nat}
    (hpt : pt < spine.length)
    (hptE : (entsOf s.arena spine).getD pt default = (key, value)) :
    ∀ {i0 : Nat}, i0 < MaxLevel → ∀ a,
      okD (lvlsOf s.arena spine) (entsOf s.arena spine) key value i0
        spine.length a →
      rankDown s.arena key value i0 (sixO spine a) (rankO a) =
        some ((pt : Int) + 1) := by
  intro i0
  induction i0 with
  | zero =>
    intro hi0 a ha
    rw [rankDown, rankLevel_spec hinv hpt hptE hi0 s.arena.length a ha
      (by have := hinv.spine_len_lt; omega)]
    rw [if_pos (gd_tstep_hit hinv hpt hptE (hinv.lvl_pos_getD hpt))]
  | succ i0 ih =>
    intro hi0 a ha
    rw [rankDown, rankLevel_spec hinv hpt hptE hi0 s.arena.length a ha
      (by have := hinv.spine_len_lt; omega)]
    by_cases hhit : tstep (lvlsOf s.arena spine) (i0 + 1)
        (gdOf s spine key value (i0 + 1)) = some pt
    · rw [if_pos hhit]
    · rw [if_neg hhit]
      exact ih (by omega) (gdOf s spine key value (i0 + 1)) (gd_ok (by omega))

/-- `Rank` of a present key is one plus the target's position on the spine. -/
theorem rank_spec {s : RankList K V} {spine : List Nat} (hinv : Inv s spine)
    {key : K} {value : V} {pt : Nat}
    (hfound : dictGet s.dict key = some value) (hpt : pt < spine.length)
    (hptE : (entsOf s.arena spine).getD pt default = (key, value)) :
    s.rank key = ((pt : Int) + 1, true) := by
  unfold RankList.rank
  rw [hfound]
  dsimp only
  rw [show rankDown s.arena key value (s.level - 1) 0 0 =
      some ((pt : Int) + 1) from
    rankDown_spec hinv hpt hptE
      (by have h1 := hinv.level_pos; have h2 := hinv.level_le; omega)
      none trivial]

/-! ### Characterisation of `Range` and the tier-0 chain -/

/-- At tier 0 every live node participates, so the successor of a position
is simply the next position. -/
theorem tstep_zero {s : RankList K V} {spine : List Nat} (hinv : Inv s spine)
    (a : Option Nat) :
    tstep (lvlsOf s.arena spine) 0 a =
      if startO a < spine.length then some (startO a) else none := by
  rcases Decidable.em (startO a < spine.length) with h | h
  · rw [if_pos h, tstep_eq_some_iff]
    exact ⟨le_refl _, by rw [Inv.lvls_length]; exact h,
      hinv.lvl_pos_getD h, fun c hc1 hc2 => absurd hc2 (by omega)⟩
  · rw [if_neg h, tstep_eq_none_iff]
    intro c hc1 hc2
    rw [Inv.lvls_length] at hc2
    omega

/-- The predicate of which `Range`'s per-tier descent stop is the greatest
satisfying position: tier-`i` participant whose rank is still below
`start`. -/
def rgPred (L : List Nat) (start : Int) (i : Nat) (j : Nat) : Bool :=
  decide (i < L.getD j 0) && decide ((j : Int) + 1 < start)

/-- The position at which `Range`'s tier-`i` descent stops. -/
def grg (L : List Nat) (start : Int) (i n : Nat) : Option Nat :=
  glast (rgPred L start i) n

theorem rgPred_iff {L : List Nat} {start : Int} {i j : Nat} :
    rgPred L start i j = true ↔ i < L.getD j 0 ∧ (j : Int) + 1 < start := by
  simp [rgPred]

/-- Admissible starting positions for `Range`'s tier-`i` descent. -/
def okR (L : List Nat) (start : Int) (i n : Nat) : Option Nat → Prop
  | none => True
  | some j => j < n ∧ i < L.getD j 0 ∧ (j : Int) + 1 < start

theorem gr_ok {L : List Nat} {start : Int} {i i' n : Nat} (hii' : i ≤ i') :
    okR L start i n (grg L start i' n) := by
  cases hg : grg L start i' n with
  | none => trivial
  | some j =>
    obtain ⟨hjn, hp, _⟩ := glast_eq_some_iff.mp hg
    obtain ⟨hl, he⟩ := rgPred_iff.mp hp
    exact ⟨hjn, by omega, he⟩

theorem rangeLevel_spec {s : RankList K V} {spine : List Nat}
    (hinv : Inv s spine) (start : Int) {i : Nat} (hi : i < MaxLevel)
    (fuel : Nat) (a : Option Nat)
    (ha : okR (lvlsOf s.arena spine) start i spine.length a)
    (hfuel : spine.length + 1 ≤ fuel + startO a) :
    rangeLevel s.arena start i fuel (sixO spine a) (rankO a) =
      (sixO spine (grg (lvlsOf s.arena spine) start i spine.length),
        rankO (grg (lvlsOf s.arena spine) start i spine.length)) := by
  have hLlen : (lvlsOf s.arena spine).length = spine.length := Inv.lvls_length
  induction fuel generalizing a with
  | zero =>
    exfalso
    cases a with
    | none => simp [startO] at hfuel
    | some j =>
      obtain ⟨hjn, _, _⟩ := ha
      simp [startO] at hfuel
      omega
  | succ fuel ih =>
    have hpart : partO (lvlsOf s.arena spine) i a := by
      cases a with
      | none => trivial
      | some j => exact ⟨by rw [hLlen]; exact ha.1, ha.2.1⟩
    have hread := hinv.fwd_ok i hi a hpart
    rw [rangeLevel, hread]
    cases htstep : tstep (lvlsOf s.arena spine) i a with
    | none =>
      simp only [Option.map_none']
      have hnone : ∀ c, startO a ≤ c → c < spine.length →
          ¬ i < (lvlsOf s.arena spine).getD c 0 := by
        have := tstep_eq_none_iff.mp htstep
        intro c h1 h2
        exact this c h1 (by omega)
      have hg : grg (lvlsOf s.arena spine) start i spine.length = a := by
        cases a with
        | none =>
          rw [grg, glast_eq_none_iff]
          intro m hm hp
          exact hnone m (by simp [startO]) hm (rgPred_iff.mp hp).1
        | some j =>
          rw [grg, glast_eq_some_iff]
          refine ⟨ha.1, rgPred_iff.mpr ⟨ha.2.1, ha.2.2⟩, ?_⟩
          intro m' hm' hm'n hp
          exact hnone m' (by simp [startO]; omega) hm'n (rgPred_iff.mp hp).1
      rw [hg]
    | some b =>
      have hb := tstep_eq_some_iff.mp htstep
      rw [hLlen] at hb
      obtain ⟨hab, hbn, hbl, hmin⟩ := hb
      simp only [Option.map_some']
      have hspan := hinv.span_ok i hi a b hpart htstep
      rw [show rankO a + spanA s.arena (six spine b) i = (b : Int) + 1 by
        rw [hspan]; ring]
      by_cases hc : start ≤ (b : Int) + 1
      · rw [if_pos hc]
        have hg : grg (lvlsOf s.arena spine) start i spine.length = a := by
          have hnotPred : ∀ c, startO a ≤ c → c < spine.length →
              ¬ rgPred (lvlsOf s.arena spine) start i c = true := by
            intro c hcc hcn hp
            obtain ⟨hpl, hpe⟩ := rgPred_iff.mp hp
            have hcb : b ≤ c := by
              by_contra hcb
              exact hmin c hcc (by omega) hpl
            omega
          cases a with
          | none =>
            rw [grg, glast_eq_none_iff]
            intro m hm hp
            exact hnotPred m (by simp [startO]) hm hp
          | some j =>
            rw [grg, glast_eq_some_iff]
            refine ⟨ha.1, rgPred_iff.mpr ⟨ha.2.1, ha.2.2⟩, ?_⟩
            intro m' hm' hm'n hp
            exact hnotPred m' (by simp [startO]; omega) hm'n hp
        rw [hg]
      · rw [if_neg hc]
        exact ih (some b) ⟨hbn, hbl, by omega⟩
          (by show spine.length + 1 ≤ fuel + (b + 1); omega)

theorem rangeDown_spec {s : RankList K V} {spine : List Nat}
    (hinv : Inv s spine) (start : Int) :
    ∀ {i0 : Nat}, i0 < MaxLevel → ∀ a,
      okR (lvlsOf s.arena spine) start i0 spine.length a →
      rangeDown s.arena start i0 (sixO spine a) (rankO a) =
        (sixO spine (grg (lvlsOf s.arena spine) start 0 spine.length),
          rankO (grg (lvlsOf s.arena spine) start 0 spine.length)) := by
  intro i0
  induction i0 with
  | zero =>
    intro hi0 a ha
    rw [rangeDown]
    exact rangeLevel_spec hinv start hi0 s.arena.length a ha
      (by have := hinv.spine_len_lt; omega)
  | succ i0 ih =>
    intro hi0 a ha
    rw [rangeDown]
    have hr := rangeLevel_spec hinv start hi0 s.arena.length a ha
      (by have := hinv.spine_len_lt; omega)
    rw [hr]
    exact ih (by omega) (grg (lvlsOf s.arena spine) start (i0 + 1)
      spine.length) (gr_ok (by omega))

theorem rangeCollect_spec {s : RankList K V} {spine : List Nat}
    (hinv : Inv s spine) (endv : Int) :
    ∀ (fuel : Nat) (a : Option Nat) (spt : Int),
      (match a with | none => True | some j => j < spine.length) →
      spine.length + 1 ≤ fuel + startO a →
      rangeCollect s.arena endv fuel (sixO spine a) spt =
        (List.range' (startO a)
            ((min (endv - spt)
              ((spine.length : Int) - startO a)).toNat)).map
          (fun j => (nodeA s.arena (six spine j)).data) := by
  intro fuel
  induction fuel with
  | zero =>
    intro a spt hav hfuel
    have hc : (min (endv - spt)
        ((spine.length : Int) - startO a)).toNat = 0 := by
      cases a with
      | none => simp [startO] at hfuel
      | some j =>
        have : spine.length < startO (some j) := by omega
        simp only [startO] at this ⊢
        omega
    rw [rangeCollect, hc]
    rfl
  | succ fuel ih =>
    intro a spt hav hfuel
    have hpart : partO (lvlsOf s.arena spine) 0 a := by
      cases a with
      | none => trivial
      | some j =>
        exact ⟨by rw [Inv.lvls_length]; exact hav,
          hinv.lvl_pos_getD hav⟩
    rw [rangeCollect, hinv.fwd_ok 0 (by decide) a hpart, tstep_zero hinv a]
    rcases Decidable.em (startO a < spine.length) with hlt | hlt
    · rw [if_pos hlt]
      simp only [Option.map_some']
      rcases Decidable.em (spt < endv) with hse | hse
      · rw [if_pos hse]
        rw [show rangeCollect s.arena endv fuel (six spine (startO a))
            (spt + 1) =
            (List.range' (startO a + 1)
                ((min (endv - (spt + 1))
                  ((spine.length : Int) - (startO a + 1))).toNat)).map
              (fun j => (nodeA s.arena (six spine j)).data) from
          ih (some (startO a)) (spt + 1) hlt
            (by show spine.length + 1 ≤ fuel + (startO a + 1); omega)]
        have hcnt : (min (endv - spt)
            ((spine.length : Int) - startO a)).toNat =
            (min (endv - (spt + 1))
              ((spine.length : Int) - (startO a + 1))).toNat + 1 := by
          push_cast
          omega
        rw [hcnt, List.range'_succ, List.map_cons]
      · rw [if_neg hse]
        have hc : (min (endv - spt)
            ((spine.length : Int) - startO a)).toNat = 0 := by omega
        rw [hc]
        rfl
    · rw [if_neg hlt]
      simp only [Option.map_none']
      have hc : (min (endv - spt)
          ((spine.length : Int) - startO a)).toNat = 0 := by omega
      rw [hc]
      rfl

theorem grg_zero_startO {s : RankList K V} {spine : List Nat}
    (hinv : Inv s spine) (start : Int) :
    startO (grg (lvlsOf s.arena spine) start 0 spine.length) =
      (min (start - 1) (spine.length : Int)).toNat := by
  rcases Decidable.em (start ≤ 1) with h1 | h1
  · have hg : grg (lvlsOf s.arena spine) start 0 spine.length = none := by
      rw [grg, glast_eq_none_iff]
      intro m hm hp
      obtain ⟨_, hp2⟩ := rgPred_iff.mp hp
      omega
    rw [hg]
    simp only [startO]
    omega
  · rcases Nat.eq_zero_or_pos spine.length with hn | hn
    · rw [hn]
      show startO none = _
      simp only [startO]
      omega
    · have hg : grg (lvlsOf s.arena spine) start 0 spine.length =
          some ((min (start - 2) ((spine.length : Int) - 1)).toNat) := by
        rw [grg, glast_eq_some_iff]
        refine ⟨by omega, ?_, ?_⟩
        · rw [rgPred_iff]
          exact ⟨hinv.lvl_pos_getD (by omega), by omega⟩
        · intro m' hm' hm'n hp
          obtain ⟨_, hp2⟩ := rgPred_iff.mp hp
          omega
      rw [hg]
      simp only [startO]
      omega

/-- `Range` returns the entries at positions
`min(start-1, n) .. min(start-1, n) + min(end-start, n-min(start-1,n)) - 1`
of the spine, in rank order. -/
theorem range_spec {s : RankList K V} {spine : List Nat} (hinv : Inv s spine)
    (start endv : Int) :
    s.range start endv =
      (List.range' ((min (start - 1) (spine.length : Int)).toNat)
          ((min (endv - start) ((spine.length : Int) -
            ((min (start - 1) (spine.length : Int)).toNat : Int))).toNat)).map
        (fun j => (nodeA s.arena (six spine j)).data) := by
  unfold RankList.range
  have hdown : rangeDown s.arena start (s.level - 1) 0 0 =
      (sixO spine (grg (lvlsOf s.arena spine) start 0 spine.length),
        rankO (grg (lvlsOf s.arena spine) start 0 spine.length)) :=
    rangeDown_spec hinv start
      (by have h1 := hinv.level_pos; have h2 := hinv.level_le; omega)
      none trivial
  have hcoll := rangeCollect_spec hinv endv s.arena.length
    (grg (lvlsOf s.arena spine) start 0 spine.length) start
    (by
      cases hg : grg (lvlsOf s.arena spine) start 0 spine.length with
      | none => trivial
      | some j => exact (glast_eq_some_iff.mp hg).1)
    (by
      have h1 := hinv.spine_len_lt
      have h2 : 0 ≤ startO (grg (lvlsOf s.arena spine) start 0 spine.length) :=
        Nat.zero_le _
      omega)
  rw [grg_zero_startO hinv start] at hcoll
  calc rangeCollect s.arena endv s.arena.length
        (rangeDown s.arena start (s.level - 1) 0 0).1 start
      = rangeCollect s.arena endv s.arena.length
        (sixO spine (grg (lvlsOf s.arena spine) start 0 spine.length))
        start := by rw [hdown]
    _ = _ := hcoll

theorem chainFrom_zero_spec {s : RankList K V} {spine : List Nat}
    (hinv : Inv s spine) :
    ∀ (fuel : Nat) (a : Option Nat),
      (match a with | none => True | some j => j < spine.length) →
      spine.length + 1 ≤ fuel + startO a →
      chainFrom s.arena 0 fuel (sixO spine a) =
        (List.range' (startO a) (spine.length - startO a)).map
          (six spine) := by
  intro fuel
  induction fuel with
  | zero =>
    intro a hav hfuel
    exfalso
    cases a with
    | none => simp [startO] at hfuel
    | some j =>
      simp only [startO] at hfuel
      omega
  | succ fuel ih =>
    intro a hav hfuel
    have hpart : partO (lvlsOf s.arena spine) 0 a := by
      cases a with
      | none => trivial
      | some j =>
        exact ⟨by rw [Inv.lvls_length]; exact hav, hinv.lvl_pos_getD hav⟩
    rw [chainFrom, hinv.fwd_ok 0 (by decide) a hpart, tstep_zero hinv a]
    rcases Decidable.em (startO a < spine.length) with hlt | hlt
    · rw [if_pos hlt]
      simp only [Option.map_some']
      rw [show chainFrom s.arena 0 fuel (six spine (startO a)) =
          (List.range' (startO a + 1) (spine.length - (startO a + 1))).map
            (six spine) from
        ih (some (startO a)) hlt
          (by show spine.length + 1 ≤ fuel + (startO a + 1); omega)]
      rw [show spine.length - startO a =
        (spine.length - (startO a + 1)) + 1 by omega,
        List.range'_succ, List.map_cons]
    · rw [if_neg hlt]
      simp only [Option.map_none']
      rw [show spine.length - startO a = 0 by omega]
      rfl

/-- The tier-0 chain visits exactly the live nodes, in rank order. -/
theorem chain_zero_spec {s : RankList K V} {spine : List Nat}
    (hinv : Inv s spine) :
    s.chain 0 = (List.range' 0 spine.length).map (six spine) := by
  unfold RankList.chain
  rw [show chainFrom s.arena 0 s.arena.length 0 =
      (List.range' (startO none)
        (spine.length - startO none)).map (six spine) from
    chainFrom_zero_spec hinv s.arena.length none trivial
      (by have := hinv.spine_len_lt; omega)]
  simp [startO]

theorem dictGet_eq_some_iff_mem {d : List (K × V)}
    (hnodup : (d.map Prod.fst).Nodup) {k : K} {v : V} :
    dictGet d k = some v ↔ (k, v) ∈ d := by
  unfold dictGet
  constructor
  · intro h
    rcases Option.map_eq_some'.mp h with ⟨e, hfind, hev⟩
    have hmem := List.mem_of_find?_eq_some hfind
    have hkey : e.1 = k := by simpa using List.find?_some hfind
    have he : e = (k, v) := by
      cases e
      simp only [Prod.mk.injEq]
      exact ⟨hkey, hev⟩
    rwa [he] at hmem
  · intro h
    cases hfind : d.find? (fun e => decide (e.1 = k)) with
    | none =>
      exfalso
      have := List.find?_eq_none.mp hfind (k, v) h
      simp at this
    | some e =>
      have hmem := List.mem_of_find?_eq_some hfind
      have hkey : e.1 = k := by simpa using List.find?_some hfind
      obtain ⟨p1, hp1, he1⟩ := List.getElem_of_mem hmem
      obtain ⟨p2, hp2, he2⟩ := List.getElem_of_mem h
      have hp1m : p1 < (d.map Prod.fst).length := by
        rw [List.length_map]; omega
      have hp2m : p2 < (d.map Prod.fst).length := by
        rw [List.length_map]; omega
      have hx : (d.map Prod.fst)[p1] = (d.map Prod.fst)[p2] := by
        rw [List.getElem_map, List.getElem_map, he1, he2, hkey]
      have hpp : p1 = p2 := (List.Nodup.getElem_inj_iff hnodup).mp hx
      subst hpp
      have he : e = (k, v) := by
        rw [← he1, he2]
      subst he
      rfl

/-- The dictionary holds exactly the live entries, as a multiset. -/
theorem dict_perm_ents {s : RankList K V} {spine : List Nat}
    (hinv : Inv s spine) : s.dict.Perm (entsOf s.arena spine) := by
  rw [List.perm_ext_iff_of_nodup hinv.dict_keys_nodup.of_map
    hinv.ents_keys_nodup.of_map]
  intro e
  cases e with
  | mk k v =>
    rw [← dictGet_eq_some_iff_mem hinv.dict_keys_nodup,
      ← dictGet_eq_some_iff_mem hinv.ents_keys_nodup, hinv.dict_ok k]

/-- The dictionary's size is the number of live nodes. -/
theorem dict_length {s : RankList K V} {spine : List Nat}
    (hinv : Inv s spine) : s.dict.length = spine.length := by
  rw [(dict_perm_ents hinv).length_eq, Inv.ents_length]

/-- The insertion position is determined by the entries around it. -/
theorem insPos_eq_of {s : RankList K V} {spine : List Nat} {key : K}
    {value : V} {p : Nat} (hinv : Inv s spine)
    (hfreshk : ∀ j < spine.length,
      ((entsOf s.arena spine).getD j default).1 ≠ key)
    (hp : p ≤ spine.length)
    (hbelow : ∀ j < p, entLt ((entsOf s.arena spine).getD j default)
      (key, value))
    (habove : ∀ j, p ≤ j → j < spine.length →
      entLt (key, value) ((entsOf s.arena spine).getD j default)) :
    insPos s spine key value = p := by
  have hEp := insPos_iff (k := key) (v := value) hinv hfreshk
  have hle := insPos_le (s := s) (w := spine) (k := key)
    (v := value)
  rcases lt_trichotomy (insPos s spine key value) p with h | h | h
  · have h2 := (hEp (insPos s spine key value) (by omega)).mpr
      (entLt_asymm (hbelow _ h))
    omega
  · exact h
  · exact absurd (habove p (le_refl _) (by omega)) ((hEp p (by omega)).mp h)

/-- Tier-0 spans are all 1. -/
theorem span_zero_one {s : RankList K V} {spine : List Nat}
    (hinv : Inv s spine) {b : Nat} (hb : b < spine.length) :
    spanA s.arena (six spine b) 0 = 1 := by
  rcases Nat.eq_zero_or_pos b with h0 | h0
  · subst h0
    have ht : tstep (lvlsOf s.arena spine) 0 none = some 0 := by
      rw [tstep_zero hinv none, if_pos (show startO (none : Option Nat) <
        spine.length by simpa [startO] using hb)]
      rfl
    have h := hinv.span_ok 0 (by decide) none 0 trivial ht
    rw [h]
    simp [rankO]
  · have ht : tstep (lvlsOf s.arena spine) 0 (some (b - 1)) = some b := by
      rw [tstep_zero hinv (some (b - 1)),
        if_pos (show startO (some (b - 1)) < spine.length by
          simp only [startO]; omega)]
      simp only [startO]
      congr 1
      omega
    have h := hinv.span_ok 0 (by decide) (some (b - 1)) b
      ⟨by rw [Inv.lvls_length]; omega, hinv.lvl_pos_getD (by omega)⟩ ht
    rw [h]
    simp only [rankO]
    have : ((b - 1 : Nat) : Int) = (b : Int) - 1 := by omega
    rw [this]
    ring

/-- The sum of tier-0 spans over the first `b + 1` nodes is `b + 1`: the
1-based rank of the node at position `b`. -/
theorem span_zero_sum {s : RankList K V} {spine : List Nat}
    (hinv : Inv s spine) : ∀ {b : Nat}, b < spine.length →
    ((List.range' 0 (b + 1)).map
      (fun j => spanA s.arena (six spine j) 0)).sum = (b : Int) + 1 := by
  intro b
  induction b with
  | zero =>
    intro hb
    simp [span_zero_one hinv hb]
  | succ b ih =>
    intro hb
    rw [List.range'_concat, List.map_append, List.sum_append, ih (by omega)]
    have hlast := span_zero_one hinv (b := 0 + 1 * (b + 1)) (by omega)
    rw [List.map_cons, List.map_nil, List.sum_cons, List.sum_nil, hlast]
    push_cast
    ring

/-! ### Instrumented span accesses (nil-pointer guards)

Variants of the three span-updating steps in which every node reached
through a forward pointer is dereferenced only inside the `some` arm of the
match on that pointer; dereferencing a nil (`none`) pointer would produce
`none`.  They mirror the guards the Go source places around its span
arithmetic (ranklist.go:181-194 and 244-261). -/

def spliceStepChecked (pr : List (Nat × Int)) (newIdx : Nat)
    (arena : List (Node K V)) (i : Nat) : Option (List (Node K V)) :=
  let prevI := (pr.getD i (0, 0)).1
  let fwd := fwdA arena prevI i
  let a1 := updA arena newIdx
    (fun nd => { nd with forward := nd.forward.set i fwd })
  let a2 := updA a1 prevI
    (fun nd => { nd with forward := nd.forward.set i (some newIdx) })
  if i = 0 then
    some (updA a2 newIdx (fun nd => { nd with span := nd.span.set i 1 }))
  else
    let sp := (pr.getD 0 (0, 0)).2 - (pr.getD i (0, 0)).2 + 1
    let a3 := updA a2 newIdx (fun nd => { nd with span := nd.span.set i sp })
    match fwd with
    | none => some a3
    | some f =>
      some (updA a3 f
        (fun nd => { nd with span := nd.span.set i (nd.span.getD i 0 - sp + 1) }))

def bumpStepChecked (pr : List (Nat × Int)) (arena : List (Node K V))
    (i : Nat) : Option (List (Node K V)) :=
  let prevI := (pr.getD i (0, 0)).1
  match fwdA arena prevI i with
  | none => some arena
  | some f =>
    some (updA arena f
      (fun nd => { nd with span := nd.span.set i (nd.span.getD i 0 + 1) }))

def delStepChecked (prevs : List Nat) (key : K) (value : V)
    (arena : List (Node K V)) (i : Nat) : Option (List (Node K V)) :=
  let p := prevs.getD i 0
  match fwdA arena p i with
  | none => some arena
  | some c =>
    if (nodeA arena c).data.key = key ∧
        (nodeA arena c).data.value = value then
      let cf := fwdA arena c i
      let csp := spanA arena c i
      let a1 := updA arena p
        (fun nd => { nd with forward := nd.forward.set i cf })
      match cf with
      | none => some a1
      | some f =>
        some (updA a1 f
          (fun nd => { nd with span := nd.span.set i (nd.span.getD i 0 + (csp - 1)) }))
    else
      some (updA arena c
        (fun nd => { nd with span := nd.span.set i (nd.span.getD i 0 - 1) }))

def RankList.insertNodeChecked (s : RankList K V) (key : K) (value : V)
    (lvl : Nat) : Option (RankList K V) :=
  let slevel := max s.level lvl
  let pr := setSearchDown s.arena key value (slevel - 1) 0 0
  let newIdx := s.arena.length
  let ar2 := s.arena ++ [NewNode key value lvl]
  match (List.range lvl).foldlM
      (fun ar i => spliceStepChecked pr newIdx ar i) ar2 with
  | none => none
  | some ar3 =>
    match (List.range' lvl (slevel - lvl)).foldlM
        (fun ar i => bumpStepChecked pr ar i) ar3 with
    | none => none
    | some ar4 =>
      some { arena := ar4
             dict := dictSet s.dict key value
             level := slevel
             length := s.length + 1 }

def RankList.delChecked (s : RankList K V) (key : K) :
    Option (RankList K V × Bool) :=
  match dictGet s.dict key with
  | none => some (s, false)
  | some value =>
    let prevs := delSearchDown s.arena key value (s.level - 1) 0
    match (List.range s.level).foldlM
        (fun ar i => delStepChecked prevs key value ar i) s.arena with
    | none => none
    | some ar =>
      some ({ arena := ar
              dict := dictDel s.dict key
              level := shrinkLevel (nodeA ar 0) s.level
              length := s.length - 1 }, true)

def RankList.setChecked (s : RankList K V) (key : K) (value : V)
    (lvl : Nat) : Option (RankList K V) :=
  match (if (dictGet s.dict key).isSome then
      (s.delChecked key).map Prod.fst else some s) with
  | none => none
  | some s0 => s0.insertNodeChecked key value lvl

theorem spliceStepChecked_eq (pr : List (Nat × Int)) (newIdx : Nat)
    (arena : List (Node K V)) (i : Nat) :
    spliceStepChecked pr newIdx arena i =
      some (spliceStep pr newIdx arena i) := by
  unfold spliceStepChecked spliceStep
  dsimp only
  split
  · rfl
  · split
    · rfl
    · rfl

theorem bumpStepChecked_eq (pr : List (Nat × Int))
    (arena : List (Node K V)) (i : Nat) :
    bumpStepChecked pr arena i = some (bumpStep pr arena i) := by
  unfold bumpStepChecked bumpStep
  dsimp only
  split
  · rfl
  · rfl

theorem delStepChecked_eq (prevs : List Nat) (key : K) (value : V)
    (arena : List (Node K V)) (i : Nat) :
    delStepChecked prevs key value arena i =
      some (delStep prevs key value arena i) := by
  unfold delStepChecked delStep
  dsimp only
  split
  · rfl
  · split
    · split
      · rfl
      · rfl
    · rfl

theorem foldlM_eq_foldl {α β : Type} (f : β → α → Option β) (g : β → α → β)
    (h : ∀ b a, f b a = some (g b a)) :
    ∀ (l : List α) (b : β), l.foldlM f b = some (l.foldl g b)
  | [], _ => rfl
  | a :: l, b => by
    rw [List.foldlM_cons, h b a]
    exact foldlM_eq_foldl f g h l (g b a)

theorem insertNodeChecked_eq (s : RankList K V) (key : K) (value : V)
    (lvl : Nat) :
    s.insertNodeChecked key value lvl = some (s.insertNode key value lvl) := by
  unfold RankList.insertNodeChecked RankList.insertNode
  dsimp only
  rw [foldlM_eq_foldl _ (spliceStep
      (setSearchDown s.arena key value (max s.level lvl - 1) 0 0)
      s.arena.length)
    (fun b a => spliceStepChecked_eq _ _ b a) _ _]
  dsimp only
  rw [foldlM_eq_foldl _ (bumpStep
      (setSearchDown s.arena key value (max s.level lvl - 1) 0 0))
    (fun b a => bumpStepChecked_eq _ b a) _ _]

theorem delChecked_eq (s : RankList K V) (key : K) :
    s.delChecked key = some (s.del key) := by
  unfold RankList.delChecked RankList.del
  cases hf : dictGet s.dict key with
  | none => rfl
  | some value =>
    dsimp only
    rw [foldlM_eq_foldl _ (delStep
        (delSearchDown s.arena key value (s.level - 1) 0) key value)
      (fun b a => delStepChecked_eq _ _ _ b a) _ _]

theorem setChecked_eq (s : RankList K V) (key : K) (value : V) (lvl : Nat) :
    s.setChecked key value lvl = some (s.set key value lvl) := by
  unfold RankList.setChecked RankList.set
  rcases Decidable.em ((dictGet s.dict key).isSome = true) with hp | hp
  · rw [if_pos hp, if_pos hp, delChecked_eq]
    simp only [Option.map_some']
    exact insertNodeChecked_eq _ _ _ _
  · rw [if_neg hp, if_neg hp]
    exact insertNodeChecked_eq _ _ _ _

theorem del_ents {s : RankList K V} {spine : List Nat}
    (hinv : Inv s spine) {key : K} {value : V} {pt : Nat}
    (hfound : dictGet s.dict key = some value)
    (hpt : pt < spine.length)
    (hptE : (entsOf s.arena spine).getD pt default = (key, value)) :
    entsOf (s.del key).1.arena (spine.eraseIdx pt) =
      (entsOf s.arena spine).eraseIdx pt := by
  have harena : (s.del key).1.arena = (List.range s.level).foldl
      (delStep (delSearchDown s.arena key value (s.level - 1) 0) key value)
      s.arena := by
    unfold RankList.del
    rw [hfound]
  obtain ⟨hskel, _, _⟩ := del_fold_spec
    (delSearchDown s.arena key value (s.level - 1) 0) key value s.arena
    hinv.wfA s.level hinv.level_le (del_conds hinv key value)
  unfold entsOf
  rw [harena, map_eraseIdx]
  congr 1
  apply List.map_congr_left
  intro ix _
  rw [(hskel.2 ix).1]

/-- `Set` places its entry at a position determined solely by the other
entries; if the same (key, value) entry was already present, it stays at
its old position. -/
theorem set_pos {s : RankList K V} {spine : List Nat} (hinv : Inv s spine)
    (key : K) (value : V) {lvl : Nat} (h1 : 1 ≤ lvl) (h2 : lvl ≤ MaxLevel) :
    ∃ spine1 p1, Inv (s.set key value lvl) spine1 ∧ p1 < spine1.length ∧
      (entsOf (s.set key value lvl).arena spine1).getD p1 default =
        (key, value) ∧
      ∀ pt, pt < spine.length →
        (entsOf s.arena spine).getD pt default = (key, value) → p1 = pt := by
  unfold RankList.set
  rcases Decidable.em ((dictGet s.dict key).isSome = true) with hp | hp
  · rw [if_pos hp]
    cases hf : dictGet s.dict key with
    | none => rw [hf] at hp; simp at hp
    | some value0 =>
      obtain ⟨pt0, hpt0, hptE0⟩ := dict_locate hinv hf
      have hinv2 := del_preserves hinv hf hpt0 hptE0
      have hfresh : dictGet (s.del key).1.dict key = none := by
        have hdict : (s.del key).1.dict = dictDel s.dict key := by
          unfold RankList.del
          rw [hf]
        rw [hdict]
        exact dictGet_dictDel_self
      have hinv3 : Inv ((s.del key).1.insertNode key value lvl)
          ((spine.eraseIdx pt0).insertIdx
            (insPos (s.del key).1 (spine.eraseIdx pt0) key value)
            (s.del key).1.arena.length) :=
        insertNode_preserves hinv2 hfresh h1 h2
      have hents := del_ents hinv hf hpt0 hptE0
      have hlen2 : (spine.eraseIdx pt0).length = spine.length - 1 :=
        length_eraseIdx_of_lt hpt0
      have hple := insPos_le (s := (s.del key).1)
        (w := spine.eraseIdx pt0) (k := key) (v := value)
      obtain ⟨hLab, hEab⟩ := insertNode_abstr hinv2 key value h1 h2 hple
      refine ⟨_, insPos (s.del key).1 (spine.eraseIdx pt0) key value, hinv3,
        ?_, ?_, ?_⟩
      · rw [List.length_insertIdx _ _ hple]
        omega
      · rw [hEab, getD_insertIdx_self (by rw [Inv.ents_length]; exact hple)]
      · intro pt hpt hptE
        have hpteq : pt = pt0 := by
          by_contra hne
          exact ents_key_ne hinv hpt0 hpt hne
            (by rw [hptE, hptE0])
        subst hpteq
        have hv0 : value0 = value := by
          have h := hptE0.symm.trans hptE
          exact congrArg Prod.snd h
        subst hv0
        apply insPos_eq_of hinv2
        · intro j hj
          rw [hlen2] at hj
          rw [hents]
          rcases Decidable.em (j < pt) with hjp | hjp
          · rw [getD_eraseIdx_lt hjp]
            intro hjk
            exact ents_key_ne (j := j) hinv hpt0 (by omega) (by omega)
              (by rw [hjk, hptE0])
          · rw [getD_eraseIdx_ge (by rw [Inv.ents_length]; omega) (by omega)]
            intro hjk
            exact ents_key_ne (j := j + 1) hinv hpt0 (by omega) (by omega)
              (by rw [hjk, hptE0])
        · rw [hlen2]
          omega
        · intro j hj
          rw [hents, getD_eraseIdx_lt hj]
          have h := hinv.ents_mono hj hpt0
          rwa [hptE0] at h
        · intro j hj1 hj2
          rw [hlen2] at hj2
          rw [hents, getD_eraseIdx_ge (by rw [Inv.ents_length]; omega)
            (by omega)]
          have h := hinv.ents_mono (show pt < j + 1 by omega) (by omega)
          rwa [hptE0] at h
  · rw [if_neg hp]
    have hfresh : dictGet s.dict key = none := by
      cases hf : dictGet s.dict key with
      | none => rfl
      | some v => rw [hf] at hp; simp at hp
    have hinv3 : Inv (s.insertNode key value lvl)
        (spine.insertIdx (insPos s spine key value) s.arena.length) :=
      insertNode_preserves hinv hfresh h1 h2
    have hple := insPos_le (s := s) (w := spine) (k := key)
      (v := value)
    obtain ⟨hLab, hEab⟩ := insertNode_abstr hinv key value h1 h2 hple
    refine ⟨_, insPos s spine key value, hinv3, ?_, ?_, ?_⟩
    · rw [List.length_insertIdx _ _ hple]
      omega
    · rw [hEab, getD_insertIdx_self (by rw [Inv.ents_length]; exact hple)]
    · intro pt hpt hptE
      exfalso
      have hmem : (key, value) ∈ entsOf s.arena spine := by
        rw [← hptE]
        rw [List.getD_eq_getElem?_getD, List.getElem?_eq_getElem
          (by rw [Inv.ents_length]; omega)]
        exact List.getElem_mem _
      have := (dictGet_eq_some_iff_mem hinv.ents_keys_nodup).mpr hmem
      rw [← hinv.dict_ok key] at this
      rw [this] at hfresh
      cases hfresh

/-! ### The claims

Each claim of the specification is stated over the embedding and proved or
refuted below.  Reachability quantifies over all states produced by finite
sequences of `set` and `del` (with the level generator free in
`[1, MaxLevel]`), which is the sense in which the specification speaks of
"every state after a sequence of operations". -/

/-- A filter whose predicate holds exactly at the positions below `pt`
keeps exactly `pt` elements. -/
theorem filter_length_prefix {A : Type} (p : A → Bool) (d : A) :
    ∀ (l : List A) (pt : Nat), pt ≤ l.length →
    (∀ j, j < l.length → (p (l.getD j d) = true ↔ j < pt)) →
    (l.filter p).length = pt := by
  intro l
  induction l with
  | nil =>
    intro pt h _
    simp only [List.length_nil, Nat.le_zero] at h
    simp [h]
  | cons a t ih =>
    intro pt hpt hiff
    cases pt with
    | zero =>
      have ha : ¬ p a = true := by
        intro hc
        have := (hiff 0 (by simp)).mp (by simpa using hc)
        omega
      rw [List.filter_cons_of_neg ha]
      apply ih 0 (by omega)
      intro j hj
      have h2 := hiff (j + 1) (by simp only [List.length_cons]; omega)
      rw [List.getD_cons_succ] at h2
      constructor
      · intro hc
        have := h2.mp hc
        omega
      · omega
    | succ q =>
      have ha : p a = true := by
        have := (hiff 0 (by simp)).mpr (by omega)
        simpa using this
      rw [List.filter_cons_of_pos ha, List.length_cons]
      rw [ih q (by simp only [List.length_cons] at hpt; omega) ?_]
      intro j hj
      have h2 := hiff (j + 1) (by simp only [List.length_cons]; omega)
      rw [List.getD_cons_succ] at h2
      constructor
      · intro hc
        have := h2.mp hc
        omega
      · intro hc
        exact h2.mpr (by omega)

/-- The entries strictly below the target's position are exactly those
`entLt`-below the target, so the filter keeps `pt` of them. -/
theorem ents_filter_below {s : RankList K V} {spine : List Nat}
    (hinv : Inv s spine) {key : K} {value : V} {pt : Nat}
    (hpt : pt < spine.length)
    (hptE : (entsOf s.arena spine).getD pt default = (key, value)) :
    ((entsOf s.arena spine).filter
      (fun e => decide (entLt e (key, value)))).length = pt := by
  have hlen : (entsOf s.arena spine).length = spine.length := Inv.ents_length
  apply filter_length_prefix _ default _ pt (by omega)
  intro j hj
  rw [decide_eq_true_eq]
  exact entLt_target_iff_pos hinv hpt hptE j (by omega)

/-- C1: in every reachable state, for every stored key, `Rank` returns
`(r, true)` where `r` is 1 plus the number of stored entries whose
(value, key) pair is strictly below the key's own entry in the order
`entLt` (value ascending, key ascending on ties). -/
theorem C1_rank_counts {s : RankList K V} (hs : Reachable s) {key : K}
    {value : V} (hfound : dictGet s.dict key = some value) :
    s.rank key =
      (1 + ((s.dict.filter
        (fun e => decide (entLt e (key, value)))).length : Int), true) := by
  obtain ⟨spine, hinv⟩ := reachable_inv hs
  obtain ⟨pt, hpt, hptE⟩ := dict_locate hinv hfound
  have hperm : (s.dict.filter
      (fun e => decide (entLt e (key, value)))).Perm
      ((entsOf s.arena spine).filter
        (fun e => decide (entLt e (key, value)))) :=
    (dict_perm_ents hinv).filter _
  rw [rank_spec hinv hfound hpt hptE, hperm.length_eq,
    ents_filter_below hinv hpt hptE]
  rw [show (1 : Int) + (pt : Int) = (pt : Int) + 1 from by ring]

theorem C1_rank_counts_witness :
    dictGet (((RankList.new Nat Nat).set 1 10 1).set 2 20 1).dict 2 =
      some 20 ∧
    (((RankList.new Nat Nat).set 1 10 1).set 2 20 1).rank 2 =
      (1 + (((((RankList.new Nat Nat).set 1 10 1).set 2 20 1).dict.filter
        (fun e => decide (entLt e (2, 20)))).length : Int), true) :=
  ⟨by decide, C1_rank_counts
    (Reachable.step_set 2 20 1
      (Reachable.step_set 1 10 1 Reachable.base (by decide) (by decide))
      (by decide) (by decide))
    (by decide)⟩

/-- C2: in every reachable state (hence preserved by every `set` and
`del`), for every tier `i` and node at spine position `b` participating in
tier `i` with tier-`i` predecessor `a` (`none` = header), the node's
`span[i]` equals 1 plus the number of tier-0 nodes strictly between the
predecessor and the node; consequently the sum of `span[0]` along tier-0
links from the header to position `b` is the 1-based rank `b + 1`. -/
theorem C2_span_invariant {s : RankList K V} (hs : Reachable s) :
    ∃ spine, Inv s spine ∧
      (∀ i < MaxLevel, ∀ (a : Option Nat) (b : Nat),
        partO (lvlsOf s.arena spine) i a →
        tstep (lvlsOf s.arena spine) i a = some b →
        spanA s.arena (six spine b) i =
          1 + ((b : Int) - (startO a : Int))) ∧
      (∀ b < spine.length,
        ((List.range' 0 (b + 1)).map
          (fun j => spanA s.arena (six spine j) 0)).sum = (b : Int) + 1) := by
  obtain ⟨spine, hinv⟩ := reachable_inv hs
  refine ⟨spine, hinv, ?_, ?_⟩
  · intro i hi a b hpart htst
    rw [hinv.span_ok i hi a b hpart htst, rankO_eq_startO]
    ring
  · intro b hb
    exact span_zero_sum hinv hb

theorem C2_span_invariant_witness :
    ∃ spine, Inv ((RankList.new Nat Nat).set 1 10 1) spine ∧
      (∀ i < MaxLevel, ∀ (a : Option Nat) (b : Nat),
        partO (lvlsOf ((RankList.new Nat Nat).set 1 10 1).arena spine) i a →
        tstep (lvlsOf ((RankList.new Nat Nat).set 1 10 1).arena spine) i a =
          some b →
        spanA ((RankList.new Nat Nat).set 1 10 1).arena (six spine b) i =
          1 + ((b : Int) - (startO a : Int))) ∧
      (∀ b < spine.length,
        ((List.range' 0 (b + 1)).map
          (fun j => spanA ((RankList.new Nat Nat).set 1 10 1).arena
            (six spine j) 0)).sum = (b : Int) + 1) :=
  C2_span_invariant
    (Reachable.step_set 1 10 1 Reachable.base (by decide) (by decide))

/-- C3 (amended): for every reachable state and `start ≥ 1`, `range`
returns, in ascending rank order, exactly the entries at the spine
positions `q0, q0+1, …` with `q0 = min (start-1) n` and count
`min (end-start) (n-q0)` — the entries whose 1-based rank `r` satisfies
`start ≤ r < end`, clipped to the list.  (For `start = 0` this window does
NOT coincide with `start = 1`: see the counterexample.) -/
theorem C3_range_window {s : RankList K V} (hs : Reachable s) :
    ∃ spine, Inv s spine ∧
      ∀ start endv : Int, 1 ≤ start →
        s.range start endv =
          (List.range' ((min (start - 1) (spine.length : Int)).toNat)
              ((min (endv - start) ((spine.length : Int) -
                ((min (start - 1)
                  (spine.length : Int)).toNat : Int))).toNat)).map
            (fun j => (nodeA s.arena (six spine j)).data) := by
  obtain ⟨spine, hinv⟩ := reachable_inv hs
  exact ⟨spine, hinv, fun start endv _ => range_spec hinv start endv⟩

theorem C3_range_window_witness :
    ∃ spine, Inv (((RankList.new Nat Nat).set 1 10 1).set 2 20 1) spine ∧
      ∀ start endv : Int, 1 ≤ start →
        (((RankList.new Nat Nat).set 1 10 1).set 2 20 1).range start endv =
          (List.range' ((min (start - 1) (spine.length : Int)).toNat)
              ((min (endv - start) ((spine.length : Int) -
                ((min (start - 1)
                  (spine.length : Int)).toNat : Int))).toNat)).map
            (fun j =>
              (nodeA (((RankList.new Nat Nat).set 1 10 1).set 2 20 1).arena
                (six spine j)).data) :=
  C3_range_window
    (Reachable.step_set 2 20 1
      (Reachable.step_set 1 10 1 Reachable.base (by decide) (by decide))
      (by decide) (by decide))

/-- C3 is refuted as stated: on the reachable two-entry state below,
`range 0 2` and `range 1 2` differ (`start = 0` yields both entries,
`start = 1` only the first), though the claim says a start of 0 and a
start of 1 produce the same result. -/
theorem C3_range_zero_one_cex :
    Reachable (((RankList.new Nat Nat).set 1 10 1).set 2 20 1) ∧
    (((RankList.new Nat Nat).set 1 10 1).set 2 20 1).range 0 2 ≠
      (((RankList.new Nat Nat).set 1 10 1).set 2 20 1).range 1 2 :=
  ⟨Reachable.step_set 2 20 1
    (Reachable.step_set 1 10 1 Reachable.base (by decide) (by decide))
    (by decide) (by decide), by decide⟩

/-- C4: in every reachable state, every tier-`i` forward step from a live
node participating in tier `i` lands on a live node whose (value, key)
entry is strictly greater in `entLt`, so following any tier's chain visits
nodes in strictly ascending (value, key) order. -/
theorem C4_tier_order {s : RankList K V} (hs : Reachable s) :
    ∃ spine, Inv s spine ∧
      ∀ i < MaxLevel, ∀ j < spine.length,
        i < (lvlsOf s.arena spine).getD j 0 →
        ∀ m, fwdA s.arena (six spine j) i = some m →
        ∃ jx, jx < spine.length ∧ m = six spine jx ∧
          entLt ((entsOf s.arena spine).getD j default)
            ((entsOf s.arena spine).getD jx default) := by
  obtain ⟨spine, hinv⟩ := reachable_inv hs
  refine ⟨spine, hinv, ?_⟩
  intro i hi j hj hlv m hm
  have hpart : partO (lvlsOf s.arena spine) i (some j) :=
    ⟨by rw [Inv.lvls_length]; exact hj, hlv⟩
  rw [show fwdA s.arena (six spine j) i =
      Option.map (six spine) (tstep (lvlsOf s.arena spine) i (some j)) from
    hinv.fwd_ok i hi (some j) hpart] at hm
  cases ht : tstep (lvlsOf s.arena spine) i (some j) with
  | none =>
    rw [ht] at hm
    cases hm
  | some b =>
    rw [ht] at hm
    simp only [Option.map_some'] at hm
    obtain ⟨h1, h2, _, _⟩ := tstep_eq_some_iff.mp ht
    rw [Inv.lvls_length] at h2
    simp only [startO] at h1
    exact ⟨b, h2, (Option.some.inj hm).symm, hinv.ents_mono (by omega) h2⟩

theorem C4_tier_order_witness :
    ∃ spine, Inv (((RankList.new Nat Nat).set 1 10 1).set 2 20 1) spine ∧
      ∀ i < MaxLevel, ∀ j < spine.length,
        i < (lvlsOf (((RankList.new Nat Nat).set 1 10 1).set 2 20 1).arena
          spine).getD j 0 →
        ∀ m, fwdA (((RankList.new Nat Nat).set 1 10 1).set 2 20 1).arena
          (six spine j) i = some m →
        ∃ jx, jx < spine.length ∧ m = six spine jx ∧
          entLt ((entsOf (((RankList.new Nat Nat).set 1 10 1).set 2
              20 1).arena spine).getD j default)
            ((entsOf (((RankList.new Nat Nat).set 1 10 1).set 2
              20 1).arena spine).getD jx default) :=
  C4_tier_order
    (Reachable.step_set 2 20 1
      (Reachable.step_set 1 10 1 Reachable.base (by decide) (by decide))
      (by decide) (by decide))

/-- C5: in every reachable state, `length` equals the number of keys in
the dictionary, which equals the number of nodes on the tier-0 chain from
the header; and a key is in the dictionary iff a node bearing it is
reachable on that chain. -/
theorem C5_size_coherence {s : RankList K V} (hs : Reachable s) :
    s.length = (s.dict.length : Int) ∧
    s.dict.length = (s.chain 0).length ∧
    ∀ k : K, (dictGet s.dict k).isSome = true ↔
      ∃ ix ∈ s.chain 0, (s.node ix).data.key = k := by
  obtain ⟨spine, hinv⟩ := reachable_inv hs
  have hdl : s.dict.length = spine.length := dict_length hinv
  have hch := chain_zero_spec hinv
  refine ⟨?_, ?_, ?_⟩
  · rw [hinv.length_ok, hdl]
  · rw [hdl, hch, List.length_map, List.length_range']
  · intro k
    constructor
    · intro hk
      obtain ⟨v, hv⟩ := Option.isSome_iff_exists.mp hk
      obtain ⟨pt, hpt, hptE⟩ := dict_locate hinv hv
      refine ⟨six spine pt, ?_, ?_⟩
      · rw [hch]
        exact List.mem_map.mpr ⟨pt,
          List.mem_range'_1.mpr ⟨by omega, by omega⟩, rfl⟩
      · have hdata := data_pair_at (s := s) (w := spine) hpt
        rw [hptE] at hdata
        exact congrArg Prod.fst hdata
    · rintro ⟨ix, hix, hkey⟩
      rw [hch] at hix
      obtain ⟨pt, hptm, hsix⟩ := List.mem_map.mp hix
      have hpt : pt < spine.length := by
        have := List.mem_range'_1.mp hptm
        omega
      have hpe : pt < (entsOf s.arena spine).length := by
        rw [Inv.ents_length]
        exact hpt
      have hgd : (entsOf s.arena spine).getD pt default =
          (entsOf s.arena spine).get ⟨pt, hpe⟩ := by
        rw [List.getD_eq_getElem?_getD, List.getElem?_eq_getElem hpe]
        rfl
      have hkeq : ((entsOf s.arena spine).get ⟨pt, hpe⟩).1 = k := by
        have hdata := data_pair_at (s := s) (w := spine) hpt
        rw [hgd] at hdata
        rw [← hdata]
        show (nodeA s.arena (six spine pt)).data.key = k
        rw [hsix]
        exact hkey
      have hsome : dictGet s.dict k =
          some ((entsOf s.arena spine).get ⟨pt, hpe⟩).2 := by
        rw [hinv.dict_ok k,
          dictGet_eq_some_iff_mem hinv.ents_keys_nodup, ← hkeq, Prod.mk.eta]
        exact (entsOf s.arena spine).get_mem pt hpe
      rw [hsome]
      rfl

theorem C5_size_coherence_witness :
    (((RankList.new Nat Nat).set 1 10 1).set 2 20 1).length =
      ((((RankList.new Nat Nat).set 1 10 1).set 2 20 1).dict.length : Int) ∧
    (((RankList.new Nat Nat).set 1 10 1).set 2 20 1).dict.length =
      ((((RankList.new Nat Nat).set 1 10 1).set 2 20 1).chain 0).length ∧
    ∀ k : Nat,
      (dictGet (((RankList.new Nat Nat).set 1 10 1).set 2 20 1).dict
        k).isSome = true ↔
      ∃ ix ∈ (((RankList.new Nat Nat).set 1 10 1).set 2 20 1).chain 0,
        ((((RankList.new Nat Nat).set 1 10 1).set 2 20 1).node
          ix).data.key = k :=
  C5_size_coherence
    (Reachable.step_set 2 20 1
      (Reachable.step_set 1 10 1 Reachable.base (by decide) (by decide))
      (by decide) (by decide))

/-- C6: `del` reports whether the key was stored (`true` iff the
dictionary held it), and on an absent key it returns the state completely
unchanged together with `false`. -/
theorem C6_del_report {s : RankList K V} (hs : Reachable s) (key : K) :
    (s.del key).2 = (dictGet s.dict key).isSome ∧
    (dictGet s.dict key = none → s.del key = (s, false)) := by
  refine ⟨?_, del_absent_eq⟩
  cases hf : dictGet s.dict key with
  | none =>
    rw [del_absent_eq hf]
    rfl
  | some value =>
    unfold RankList.del
    rw [hf]
    rfl

theorem C6_del_report_witness :
    ((RankList.new Nat Nat).del 7).2 =
      (dictGet (RankList.new Nat Nat).dict 7).isSome ∧
    (dictGet (RankList.new Nat Nat).dict 7 = none →
      (RankList.new Nat Nat).del 7 = (RankList.new Nat Nat, false)) :=
  C6_del_report Reachable.base 7

/-- C7: setting the same (key, value) twice (with any level draws in
bounds) leaves `get` at `(value, true)` and `rank` exactly as after the
first `set`. -/
theorem C7_set_idempotent {s : RankList K V} (hs : Reachable s) (key : K)
    (value : V) {lvl lvlb : Nat} (h1 : 1 ≤ lvl) (h2 : lvl ≤ MaxLevel)
    (h1b : 1 ≤ lvlb) (h2b : lvlb ≤ MaxLevel) :
    ((s.set key value lvl).set key value lvlb).get key = (value, true) ∧
    ((s.set key value lvl).set key value lvlb).rank key =
      (s.set key value lvl).rank key := by
  obtain ⟨spine, hinv⟩ := reachable_inv hs
  obtain ⟨spine1, p1, hinv1, hp1, hE1, _⟩ := set_pos hinv key value h1 h2
  obtain ⟨spine2, p2, hinv2, hp2, hE2, hstab⟩ :=
    set_pos hinv1 key value h1b h2b
  have hfound1 : dictGet (s.set key value lvl).dict key = some value := by
    show dictGet (dictSet _ key value) key = some value
    exact dictGet_cons_self
  have hfound2 : dictGet ((s.set key value lvl).set key value lvlb).dict
      key = some value := by
    show dictGet (dictSet _ key value) key = some value
    exact dictGet_cons_self
  constructor
  · unfold RankList.get
    rw [hfound2]
  · rw [rank_spec hinv2 hfound2 hp2 hE2, rank_spec hinv1 hfound1 hp1 hE1,
      hstab p1 hp1 hE1]

theorem C7_set_idempotent_witness :
    (((RankList.new Nat Nat).set 1 10 1).set 1 10 2).get 1 = (10, true) ∧
    (((RankList.new Nat Nat).set 1 10 1).set 1 10 2).rank 1 =
      ((RankList.new Nat Nat).set 1 10 1).rank 1 :=
  C7_set_idempotent Reachable.base 1 10 (by decide) (by decide) (by decide)
    (by decide)

/-- C8 (amended): after `set` then `del` of the same key, `get` reports
not-found; `length` returns to its prior value only when the key was
absent before the `set` — when the key was already stored, the round trip
removes it, so `length` ends one below its prior value. -/
theorem C8_set_del_roundtrip (s : RankList K V) (key : K) (value : V)
    (lvl : Nat) :
    ((s.set key value lvl).del key).1.get key = (ZeroValue V, false) ∧
    ((s.set key value lvl).del key).1.length =
      s.length - (if (dictGet s.dict key).isSome then 1 else 0) := by
  have hfound : dictGet (s.set key value lvl).dict key = some value := by
    show dictGet (dictSet _ key value) key = some value
    exact dictGet_cons_self
  have hdict : ((s.set key value lvl).del key).1.dict =
      dictDel (s.set key value lvl).dict key := by
    unfold RankList.del
    rw [hfound]
  have hlen : ((s.set key value lvl).del key).1.length =
      (s.set key value lvl).length - 1 := by
    unfold RankList.del
    rw [hfound]
  constructor
  · unfold RankList.get
    rw [hdict, dictGet_dictDel_self]
  · rw [hlen]
    have hslen : (s.set key value lvl).length =
        (if (dictGet s.dict key).isSome then s.length - 1
          else s.length) + 1 := by
      unfold RankList.set
      rcases Decidable.em ((dictGet s.dict key).isSome = true) with hp | hp
      · rw [if_pos hp, if_pos hp]
        cases hf : dictGet s.dict key with
        | none =>
          rw [hf] at hp
          simp at hp
        | some v0 =>
          show (s.del key).1.length + 1 = s.length - 1 + 1
          rw [show (s.del key).1.length = s.length - 1 from by
            unfold RankList.del
            rw [hf]]
      · rw [if_neg hp, if_neg hp]
        rfl
    rw [hslen]
    rcases Decidable.em ((dictGet s.dict key).isSome = true) with hp | hp
    · rw [if_pos hp, if_pos hp]
      ring
    · rw [if_neg hp, if_neg hp]
      ring

/-- C8 is refuted as stated: on the reachable state holding key 1, a
`set 1` / `del 1` round trip drops `length` from 1 to 0 instead of
returning it to its prior value. -/
theorem C8_set_del_cex :
    Reachable ((RankList.new Nat Nat).set 1 1 1) ∧
    ((((RankList.new Nat Nat).set 1 1 1).set 1 2 1).del 1).1.length ≠
      ((RankList.new Nat Nat).set 1 1 1).length :=
  ⟨Reachable.step_set 1 1 1 Reachable.base (by decide) (by decide),
    by decide⟩

/-- C9: the span bookkeeping of deletion and insertion never dereferences
a nil forward pointer: the instrumented variants, which return `none` the
moment a span is read or written through a nil pointer, run to completion
and return exactly the unguarded result on every state and key. -/
theorem C9_span_guards {s : RankList K V} (hs : Reachable s) (key : K)
    (value : V) (lvl : Nat) :
    s.delChecked key = some (s.del key) ∧
    s.setChecked key value lvl = some (s.set key value lvl) :=
  ⟨delChecked_eq s key, setChecked_eq s key value lvl⟩

theorem C9_span_guards_witness :
    ((RankList.new Nat Nat).set 1 10 1).delChecked 1 =
      some (((RankList.new Nat Nat).set 1 10 1).del 1) ∧
    ((RankList.new Nat Nat).set 1 10 1).setChecked 1 20 3 =
      some (((RankList.new Nat Nat).set 1 10 1).set 1 20 3) :=
  C9_span_guards
    (Reachable.step_set 1 10 1 Reachable.base (by decide) (by decide)) 1 20 3

/-- C10: for `start ≤ 0`, `range` returns the first
`min (end - start, n)` entries (so the nonexistent ranks `start, …, 0`
consume quota), the empty list when `end ≤ start`, and for
`0 < end ≤ n` the call with `start = 0` returns exactly one more entry
than the call with `start = 1`. -/
theorem C10_range_clamp {s : RankList K V} (hs : Reachable s) :
    ∃ spine, Inv s spine ∧
      (∀ start endv : Int, start ≤ 0 →
        s.range start endv =
          (List.range' 0
              ((min (endv - start) (spine.length : Int)).toNat)).map
            (fun j => (nodeA s.arena (six spine j)).data)) ∧
      (∀ start endv : Int, start ≤ 0 → endv ≤ start →
        s.range start endv = []) ∧
      (∀ endv : Int, 0 < endv → endv ≤ (spine.length : Int) →
        (s.range 0 endv).length = (s.range 1 endv).length + 1) := by
  obtain ⟨spine, hinv⟩ := reachable_inv hs
  have hmain : ∀ start endv : Int, start ≤ 0 →
      s.range start endv =
        (List.range' 0
            ((min (endv - start) (spine.length : Int)).toNat)).map
          (fun j => (nodeA s.arena (six spine j)).data) := by
    intro start endv hstart
    rw [range_spec hinv start endv]
    rw [show (min (start - 1) (spine.length : Int)).toNat = 0 from by
      omega]
    norm_num
  refine ⟨spine, hinv, hmain, ?_, ?_⟩
  · intro start endv hstart hle
    rw [hmain start endv hstart,
      show (min (endv - start) (spine.length : Int)).toNat = 0 from by
        omega]
    rfl
  · intro endv hpos hlen
    rw [hmain 0 endv (le_refl 0), range_spec hinv 1 endv]
    simp only [List.length_map, List.length_range']
    omega

theorem C10_range_clamp_witness :
    ∃ spine, Inv (((RankList.new Nat Nat).set 1 10 1).set 2 20 1) spine ∧
      (∀ start endv : Int, start ≤ 0 →
        (((RankList.new Nat Nat).set 1 10 1).set 2 20 1).range start endv =
          (List.range' 0
              ((min (endv - start) (spine.length : Int)).toNat)).map
            (fun j =>
              (nodeA (((RankList.new Nat Nat).set 1 10 1).set 2 20 1).arena
                (six spine j)).data)) ∧
      (∀ start endv : Int, start ≤ 0 → endv ≤ start →
        (((RankList.new Nat Nat).set 1 10 1).set 2 20 1).range start
          endv = []) ∧
      (∀ endv : Int, 0 < endv → endv ≤ (spine.length : Int) →
        ((((RankList.new Nat Nat).set 1 10 1).set 2 20 1).range 0
            endv).length =
          ((((RankList.new Nat Nat).set 1 10 1).set 2 20 1).range 1
            endv).length + 1) :=
  C10_range_clamp
    (Reachable.step_set 2 20 1
      (Reachable.step_set 1 10 1 Reachable.base (by decide) (by decide))
      (by decide) (by decide))

end RankListVerif
